import Mathlib

/-!
# logixpr: rewrite engine and proof search

A shallow embedding of the expression tree (`ast.cpp`), the rule catalogue and the
contextual rewriter (`equivalence_engine.cpp`) and the breadth-first proof search
(`proof_search.cpp`), followed by the properties proved about them.

Conventions of the embedding.
* `std::string` is `String`, one `Char` per C++ `char`; `length()` is `String.length`.
* `std::unique_ptr<ASTNode>` results of the rule functions are `Option Expr`
  (`none` is `nullptr`).
* A run that dereferences a null `unique_ptr` has no result: functions that can do so
  return `Option`, and `none` stands for that run.
* `int` limits are `Int`; depths and the exploration counter only grow from `0` and are
  `Nat`, compared with the limits as integers.
-/

namespace Logixpr

/-! ## Expression tree (`ast.h`, `ast.cpp`) -/

/-- The `NodeType` tags carried by a `BinaryOpNode`. -/
inductive BinOp where
  | AND
  | OR
  | IMPLIES
  | BICONDITIONAL
  deriving DecidableEq, Repr

/-- Embeds `ASTNode`: `VariableNode`, `ConstantNode`, `UnaryOpNode` (tag `NOT`) and
`BinaryOpNode` (tag `AND`, `OR`, `IMPLIES` or `BICONDITIONAL`). -/
inductive Expr where
  | var (name : String)
  | const (value : Bool)
  | not (operand : Expr)
  | binary (op : BinOp) (left right : Expr)
  deriving DecidableEq, Repr

/-- The operator spelling written by `BinaryOpNode::toString`, blanks included. -/
def BinOp.text : BinOp → String
  | .AND => " & "
  | .OR => " | "
  | .IMPLIES => " -> "
  | .BICONDITIONAL => " <-> "

/-- Embeds `ASTNode::toString`. -/
def Expr.toString : Expr → String
  | .var name => name
  | .const value => if value then "T" else "F"
  | .not operand => "!" ++ operand.toString
  | .binary op left right => "(" ++ left.toString ++ op.text ++ right.toString ++ ")"

/-- Embeds `ASTNode::equals`: the tags must agree; at an `AND` or `OR` node the children may
also match after swapping. -/
def Expr.equals : Expr → Expr → Bool
  | .var n, .var m => decide (n = m)
  | .const a, .const b => decide (a = b)
  | .not a, .not b => a.equals b
  | .binary op l r, .binary op2 l2 r2 =>
    if op2 ≠ op then false
    else if op = BinOp.AND ∨ op = BinOp.OR then
      (l.equals l2 && r.equals r2) || (l.equals r2 && r.equals l2)
    else l.equals l2 && r.equals r2
  | _, _ => false

/-- Truth value of an expression under an assignment (standard semantics). -/
def Expr.eval (env : String → Bool) : Expr → Bool
  | .var name => env name
  | .const value => value
  | .not operand => !(operand.eval env)
  | .binary .AND l r => l.eval env && r.eval env
  | .binary .OR l r => l.eval env || r.eval env
  | .binary .IMPLIES l r => !(l.eval env) || r.eval env
  | .binary .BICONDITIONAL l r => decide (l.eval env = r.eval env)

/-! ## Rule catalogue (`logic_laws.h`, `equivalence_engine.cpp`) -/

/-- The enum `LogicLaw`. -/
inductive LogicLaw where
  | DOUBLE_NEGATION
  | DE_MORGAN_AND
  | DE_MORGAN_OR
  | DISTRIBUTIVE_AND_OVER_OR
  | DISTRIBUTIVE_OR_OVER_AND
  | ABSORPTION_AND
  | ABSORPTION_OR
  | IDENTITY_AND
  | IDENTITY_OR
  | ANNIHILATION_AND
  | ANNIHILATION_OR
  | COMPLEMENT_AND
  | COMPLEMENT_OR
  | IDEMPOTENT_AND
  | IDEMPOTENT_OR
  | COMMUTATIVE_AND
  | COMMUTATIVE_OR
  | ASSOCIATIVE_AND
  | ASSOCIATIVE_OR
  | IMPLICATION_ELIMINATION
  | BICONDITIONAL_ELIMINATION
  deriving DecidableEq, Repr

/-- Embeds `LogicLaws::getLawName`. -/
def getLawName : LogicLaw → String
  | .DOUBLE_NEGATION => "Double Negation"
  | .DE_MORGAN_AND => "De Morgan's Law (AND)"
  | .DE_MORGAN_OR => "De Morgan's Law (OR)"
  | .DISTRIBUTIVE_AND_OVER_OR => "Distributive Law (AND over OR)"
  | .DISTRIBUTIVE_OR_OVER_AND => "Distributive Law (OR over AND)"
  | .ABSORPTION_AND => "Absorption Law (AND)"
  | .ABSORPTION_OR => "Absorption Law (OR)"
  | .IDENTITY_AND => "Identity Law (AND)"
  | .IDENTITY_OR => "Identity Law (OR)"
  | .ANNIHILATION_AND => "Annihilation Law (AND)"
  | .ANNIHILATION_OR => "Annihilation Law (OR)"
  | .COMPLEMENT_AND => "Complement Law (AND)"
  | .COMPLEMENT_OR => "Complement Law (OR)"
  | .IDEMPOTENT_AND => "Idempotent Law (AND)"
  | .IDEMPOTENT_OR => "Idempotent Law (OR)"
  | .COMMUTATIVE_AND => "Commutative Law (AND)"
  | .COMMUTATIVE_OR => "Commutative Law (OR)"
  | .ASSOCIATIVE_AND => "Associative Law (AND)"
  | .ASSOCIATIVE_OR => "Associative Law (OR)"
  | .IMPLICATION_ELIMINATION => "Implication Elimination"
  | .BICONDITIONAL_ELIMINATION => "Biconditional Elimination"

/-- Embeds `LogicLaws::createNegation`. -/
def createNegation (operand : Expr) : Expr := .not operand

/-- Embeds `LogicLaws::createAnd`. -/
def createAnd (left right : Expr) : Expr := .binary .AND left right

/-- Embeds `LogicLaws::createOr`. -/
def createOr (left right : Expr) : Expr := .binary .OR left right

/-- Embeds `LogicLaws::isConstantTrue`. -/
def isConstantTrue : Expr → Bool
  | .const value => value
  | _ => false

/-- Embeds `LogicLaws::isConstantFalse`. -/
def isConstantFalse : Expr → Bool
  | .const value => !value
  | _ => false

/-- Embeds `LogicLaws::applyDoubleNegation`. -/
def applyDoubleNegation : Expr → Option Expr
  | .not (.not inner) => some inner
  | _ => none

/-- Embeds `LogicLaws::applyDeMorganAnd`. -/
def applyDeMorganAnd : Expr → Option Expr
  | .not (.binary .AND l r) => some (createOr (createNegation l) (createNegation r))
  | _ => none

/-- Embeds `LogicLaws::applyDeMorganOr`. -/
def applyDeMorganOr : Expr → Option Expr
  | .not (.binary .OR l r) => some (createAnd (createNegation l) (createNegation r))
  | _ => none

/-- Embeds `LogicLaws::applyImplicationElimination`. -/
def applyImplicationElimination : Expr → Option Expr
  | .binary .IMPLIES l r => some (createOr (createNegation l) r)
  | _ => none

/-- Embeds `LogicLaws::applyBiconditionalElimination`. -/
def applyBiconditionalElimination : Expr → Option Expr
  | .binary .BICONDITIONAL l r =>
    some (createAnd (.binary .IMPLIES l r) (.binary .IMPLIES r l))
  | _ => none

/-- Embeds `LogicLaws::applyDistributiveAndOverOr`: the right child is inspected first. -/
def applyDistributiveAndOverOr : Expr → Option Expr
  | .binary .AND left right =>
    match right with
    | .binary .OR rl rr => some (createOr (createAnd left rl) (createAnd left rr))
    | _ =>
      match left with
      | .binary .OR ll lr => some (createOr (createAnd ll right) (createAnd lr right))
      | _ => none
  | _ => none

/-- Embeds `LogicLaws::applyDistributiveOrOverAnd`: the right child is inspected first. -/
def applyDistributiveOrOverAnd : Expr → Option Expr
  | .binary .OR left right =>
    match right with
    | .binary .AND rl rr => some (createAnd (createOr left rl) (createOr left rr))
    | _ =>
      match left with
      | .binary .AND ll lr => some (createAnd (createOr ll right) (createOr lr right))
      | _ => none
  | _ => none

/-- The first `if` of `applyAbsorptionAnd` / `applyAbsorptionOr`: the right child has
tag `inner` and the left child equals one of its children. -/
def absorbRight (inner : BinOp) (left right : Expr) : Bool :=
  match right with
  | .binary op rl rr => decide (op = inner) && (left.equals rl || left.equals rr)
  | _ => false

/-- The second `if` of `applyAbsorptionAnd` / `applyAbsorptionOr`: the left child has
tag `inner` and the right child equals one of its children. -/
def absorbLeft (inner : BinOp) (left right : Expr) : Bool :=
  match left with
  | .binary op ll lr => decide (op = inner) && (right.equals ll || right.equals lr)
  | _ => false

/-- Embeds `LogicLaws::applyAbsorptionAnd`. -/
def applyAbsorptionAnd : Expr → Option Expr
  | .binary .AND left right =>
    if absorbRight .OR left right then some left
    else if absorbLeft .OR left right then some right
    else none
  | _ => none

/-- Embeds `LogicLaws::applyAbsorptionOr`. -/
def applyAbsorptionOr : Expr → Option Expr
  | .binary .OR left right =>
    if absorbRight .AND left right then some left
    else if absorbLeft .AND left right then some right
    else none
  | _ => none

/-- Embeds `LogicLaws::applyIdentityAnd`. -/
def applyIdentityAnd : Expr → Option Expr
  | .binary .AND left right =>
    if isConstantTrue left then some right
    else if isConstantTrue right then some left
    else none
  | _ => none

/-- Embeds `LogicLaws::applyIdentityOr`. -/
def applyIdentityOr : Expr → Option Expr
  | .binary .OR left right =>
    if isConstantFalse left then some right
    else if isConstantFalse right then some left
    else none
  | _ => none

/-- Embeds `LogicLaws::applyAnnihilationAnd`. -/
def applyAnnihilationAnd : Expr → Option Expr
  | .binary .AND left right =>
    if isConstantFalse left || isConstantFalse right then some (.const false) else none
  | _ => none

/-- Embeds `LogicLaws::applyAnnihilationOr`. -/
def applyAnnihilationOr : Expr → Option Expr
  | .binary .OR left right =>
    if isConstantTrue left || isConstantTrue right then some (.const true) else none
  | _ => none

/-- The test shared by the two `if`s of `applyComplementAnd` / `applyComplementOr`:
`a` is a negation whose operand equals `b`. -/
def negationOf (a b : Expr) : Bool :=
  match a with
  | .not operand => operand.equals b
  | _ => false

/-- Embeds `LogicLaws::applyComplementAnd`. -/
def applyComplementAnd : Expr → Option Expr
  | .binary .AND left right =>
    if negationOf left right then some (.const false)
    else if negationOf right left then some (.const false)
    else none
  | _ => none

/-- Embeds `LogicLaws::applyComplementOr`. -/
def applyComplementOr : Expr → Option Expr
  | .binary .OR left right =>
    if negationOf left right then some (.const true)
    else if negationOf right left then some (.const true)
    else none
  | _ => none

/-- Embeds `LogicLaws::applyIdempotentAnd`. -/
def applyIdempotentAnd : Expr → Option Expr
  | .binary .AND left right => if left.equals right then some left else none
  | _ => none

/-- Embeds `LogicLaws::applyIdempotentOr`. -/
def applyIdempotentOr : Expr → Option Expr
  | .binary .OR left right => if left.equals right then some left else none
  | _ => none

/-- Embeds `LogicLaws::applyCommutativeAnd`. -/
def applyCommutativeAnd : Expr → Option Expr
  | .binary .AND left right => some (createAnd right left)
  | _ => none

/-- Embeds `LogicLaws::applyCommutativeOr`. -/
def applyCommutativeOr : Expr → Option Expr
  | .binary .OR left right => some (createOr right left)
  | _ => none

/-- Embeds `LogicLaws::applyAssociativeAnd`: the left child is inspected first. -/
def applyAssociativeAnd : Expr → Option Expr
  | .binary .AND left right =>
    match left with
    | .binary .AND ll lr => some (createAnd ll (createAnd lr right))
    | _ =>
      match right with
      | .binary .AND rl rr => some (createAnd (createAnd left rl) rr)
      | _ => none
  | _ => none

/-- Embeds `LogicLaws::applyAssociativeOr`: the left child is inspected first. -/
def applyAssociativeOr : Expr → Option Expr
  | .binary .OR left right =>
    match left with
    | .binary .OR ll lr => some (createOr ll (createOr lr right))
    | _ =>
      match right with
      | .binary .OR rl rr => some (createOr (createOr left rl) rr)
      | _ => none
  | _ => none

/-- Embeds `EquivalenceEngine::applyLawToNode`: the dispatch from a law tag to its rule. -/
def applyLawToNode (node : Expr) : LogicLaw → Option Expr
  | .DOUBLE_NEGATION => applyDoubleNegation node
  | .DE_MORGAN_AND => applyDeMorganAnd node
  | .DE_MORGAN_OR => applyDeMorganOr node
  | .DISTRIBUTIVE_AND_OVER_OR => applyDistributiveAndOverOr node
  | .DISTRIBUTIVE_OR_OVER_AND => applyDistributiveOrOverAnd node
  | .ABSORPTION_AND => applyAbsorptionAnd node
  | .ABSORPTION_OR => applyAbsorptionOr node
  | .IDENTITY_AND => applyIdentityAnd node
  | .IDENTITY_OR => applyIdentityOr node
  | .ANNIHILATION_AND => applyAnnihilationAnd node
  | .ANNIHILATION_OR => applyAnnihilationOr node
  | .COMPLEMENT_AND => applyComplementAnd node
  | .COMPLEMENT_OR => applyComplementOr node
  | .IDEMPOTENT_AND => applyIdempotentAnd node
  | .IDEMPOTENT_OR => applyIdempotentOr node
  | .COMMUTATIVE_AND => applyCommutativeAnd node
  | .COMMUTATIVE_OR => applyCommutativeOr node
  | .ASSOCIATIVE_AND => applyAssociativeAnd node
  | .ASSOCIATIVE_OR => applyAssociativeOr node
  | .IMPLICATION_ELIMINATION => applyImplicationElimination node
  | .BICONDITIONAL_ELIMINATION => applyBiconditionalElimination node

/-! ## Contextual rewriter (`equivalence_engine.cpp`) -/

/-- Embeds `struct Transformation`, with a live `result`. -/
structure Transformation where
  law : LogicLaw
  description : String
  result : Expr
  deriving DecidableEq, Repr

/-- An element of a `std::vector<Transformation>` whose `result` pointer may be null:
the state of `left_transformations` and `right_transformations` once the wrapping loops
of `applyLawToSubexpressions` have passed `std::move(trans.result)` to the
`BinaryOpNode` constructor. -/
structure TransformationSlot where
  law : LogicLaw
  description : String
  result : Option Expr
  deriving DecidableEq, Repr

/-- What `std::move(trans.result)` leaves behind: tag and description stay, the
`unique_ptr` is null. -/
def Transformation.moved (t : Transformation) : TransformationSlot :=
  ⟨t.law, t.description, none⟩

/-- The inner loop of the "both subexpressions" block of `applyLawToSubexpressions`
for one `left_trans`: each round evaluates `left_trans.result->clone()` and
`right_trans.result->clone()`, which has no result on a null pointer. -/
def crossRow (op : BinOp) (left_trans : TransformationSlot) :
    List TransformationSlot → Option (List Transformation)
  | [] => some []
  | right_trans :: rest =>
    match left_trans.result, right_trans.result with
    | some l, some r =>
      match crossRow op left_trans rest with
      | some out =>
        some (⟨left_trans.law, left_trans.description ++ " and " ++ right_trans.description,
          .binary op l r⟩ :: out)
      | none => none
    | _, _ => none

/-- The "both subexpressions" block of `applyLawToSubexpressions`: the outer loop over
`left_transformations`. -/
def crossProduct (op : BinOp) :
    List TransformationSlot → List TransformationSlot → Option (List Transformation)
  | [], _ => some []
  | left_trans :: rest, rights =>
    match crossRow op left_trans rights with
    | some row =>
      match crossProduct op rest rights with
      | some out => some (row ++ out)
      | none => none
    | none => none

/-- The binary branch of `applyLawToSubexpressions`, given the two recursive results:
wrap every left result, wrap every right result (both loops move the results out of
their vectors), then run the cross-product over the two vectors as the loops left them. -/
def combineBinary (op : BinOp) (left right : Expr)
    (left_transformations right_transformations : List Transformation) :
    Option (List Transformation) :=
  match crossProduct op (left_transformations.map Transformation.moved)
      (right_transformations.map Transformation.moved) with
  | some both =>
    some (left_transformations.map (fun t => ⟨t.law, t.description, .binary op t.result right⟩)
      ++ right_transformations.map (fun t => ⟨t.law, t.description, .binary op left t.result⟩)
      ++ both)
  | none => none

/-- The body of `applyLawRecursively` once `applyLawToSubexpressions` has answered:
the direct result of `applyLawToNode`, when there is one, goes first. -/
def withDirectResult (expression : Expr) (law : LogicLaw) :
    Option (List Transformation) → Option (List Transformation)
  | some subexpr_transformations =>
    match applyLawToNode expression law with
    | some direct_result =>
      some (⟨law, getLawName law, direct_result⟩ :: subexpr_transformations)
    | none => some subexpr_transformations
  | none => none

/-- The `NOT` branch of `applyLawToSubexpressions`, given the recursive result. -/
def wrapOperand : Option (List Transformation) → Option (List Transformation)
  | some sub_transformations =>
    some (sub_transformations.map (fun t => ⟨t.law, t.description, .not t.result⟩))
  | none => none

/-- The binary branch of `applyLawToSubexpressions`, given the recursive results. -/
def wrapChildren (op : BinOp) (left right : Expr) :
    Option (List Transformation) → Option (List Transformation) → Option (List Transformation)
  | some left_transformations, some right_transformations =>
    combineBinary op left right left_transformations right_transformations
  | _, _ => none

/-- Embeds `EquivalenceEngine::applyLawRecursively`. The source function and
`applyLawToSubexpressions` call each other; here the second is unfolded into the first,
so that the recursion is on the children of the expression. -/
def applyLawRecursively : Expr → LogicLaw → Option (List Transformation)
  | .not operand, law =>
    withDirectResult (.not operand) law (wrapOperand (applyLawRecursively operand law))
  | .binary op left right, law =>
    withDirectResult (.binary op left right) law
      (wrapChildren op left right (applyLawRecursively left law) (applyLawRecursively right law))
  | .var name, law => withDirectResult (.var name) law (some [])
  | .const value, law => withDirectResult (.const value) law (some [])

/-- Embeds `EquivalenceEngine::applyLawToSubexpressions`. -/
def applyLawToSubexpressions : Expr → LogicLaw → Option (List Transformation)
  | .not operand, law => wrapOperand (applyLawRecursively operand law)
  | .binary op left right, law =>
    wrapChildren op left right (applyLawRecursively left law) (applyLawRecursively right law)
  | _, _ => some []

/-- The table `all_laws` of `generateAllTransformations`, in its order. -/
def all_laws : List LogicLaw :=
  [.DOUBLE_NEGATION, .DE_MORGAN_AND, .DE_MORGAN_OR, .DISTRIBUTIVE_AND_OVER_OR,
   .DISTRIBUTIVE_OR_OVER_AND, .ABSORPTION_AND, .ABSORPTION_OR, .IDENTITY_AND, .IDENTITY_OR,
   .ANNIHILATION_AND, .ANNIHILATION_OR, .COMPLEMENT_AND, .COMPLEMENT_OR, .IDEMPOTENT_AND,
   .IDEMPOTENT_OR, .COMMUTATIVE_AND, .COMMUTATIVE_OR, .ASSOCIATIVE_AND, .ASSOCIATIVE_OR,
   .IMPLICATION_ELIMINATION, .BICONDITIONAL_ELIMINATION]

/-- The loop of `generateAllTransformations` over a list of laws. -/
def generateForLaws (expression : Expr) : List LogicLaw → Option (List Transformation)
  | [] => some []
  | law :: rest =>
    match applyLawRecursively expression law with
    | some law_transformations =>
      match generateForLaws expression rest with
      | some out => some (law_transformations ++ out)
      | none => none
    | none => none

/-- Embeds `EquivalenceEngine::generateAllTransformations`. -/
def generateAllTransformations (expression : Expr) : Option (List Transformation) :=
  generateForLaws expression all_laws

/-- Embeds `EquivalenceEngine::areEquivalent`. -/
def areEquivalent (expr1 expr2 : Expr) : Bool := expr1.equals expr2

/-! ## Proof search (`proof_search.h`, `proof_search.cpp`) -/

/-- Embeds `struct ProofStep`. -/
structure ProofStep where
  expression : Expr
  law_applied : LogicLaw
  description : String
  step_number : Nat
  deriving DecidableEq, Repr

/-- Embeds `struct Proof`. -/
structure Proof where
  steps : List ProofStep
  found_target : Bool
  total_steps : Nat
  deriving DecidableEq, Repr

/-- Embeds `class ProofSearchNode`. -/
structure ProofSearchNode where
  expression : Expr
  depth : Nat
  path : List ProofStep
  deriving DecidableEq, Repr

/-- Embeds `class ProofSearch`: the visited set (a `std::unordered_set<std::string>`, here
the list of its members) and the two limits. The engine member has no state. -/
structure ProofSearch where
  visited_expressions : List String
  max_depth : Int
  max_transformations : Int
  deriving DecidableEq, Repr

/-- The constructor `ProofSearch(max_depth, max_transformations)`. -/
def ProofSearch.new (max_depth max_transformations : Int) : ProofSearch :=
  ⟨[], max_depth, max_transformations⟩

/-- A search object built with the default arguments of the constructor,
`max_depth = 10` and `max_transformations = 10000`. -/
def defaultSearch : ProofSearch := ProofSearch.new 10 10000

/-- Embeds `ProofSearch::setMaxDepth`. -/
def ProofSearch.setMaxDepth (ps : ProofSearch) (depth : Int) : ProofSearch :=
  ⟨ps.visited_expressions, depth, ps.max_transformations⟩

/-- Embeds `ProofSearch::setMaxTransformations`. -/
def ProofSearch.setMaxTransformations (ps : ProofSearch) (transformations : Int) : ProofSearch :=
  ⟨ps.visited_expressions, ps.max_depth, transformations⟩

/-- Embeds `ProofSearch::expressionToString`. -/
def expressionToString (expression : Expr) : String := expression.toString

/-- Embeds `ProofSearch::isVisited`, on the members of the visited set. -/
def isVisited (visited : List String) (expression : Expr) : Bool :=
  decide (expressionToString expression ∈ visited)

/-- Embeds `ProofSearch::markVisited`, on the members of the visited set. -/
def markVisited (visited : List String) (expression : Expr) : List String :=
  expressionToString expression :: visited

/-- Embeds `ProofSearch::shouldPrune`. -/
def shouldPrune (ps : ProofSearch) (node : ProofSearchNode) : Bool :=
  if (node.depth : Int) ≥ ps.max_depth then true
  else if (expressionToString node.expression).length > 200 then true
  else false

/-- The node that `expandNode` builds for one rewrite of `node`: the path of `node`
copied and extended by one step numbered `node.depth + 1`. -/
def successorNode (node : ProofSearchNode) (new_expr : Expr) (law : LogicLaw)
    (description : String) : ProofSearchNode :=
  ⟨new_expr, node.depth + 1, node.path ++ [⟨new_expr, law, description, node.depth + 1⟩]⟩

/-- Embeds `ProofSearch::expandNode`: the rewrites of the whole expression, then those
of each immediate child wrapped back into the root. -/
def expandNode (node : ProofSearchNode) : Option (List ProofSearchNode) :=
  match generateAllTransformations node.expression with
  | none => none
  | some transformations =>
    let whole := transformations.map
      (fun t => successorNode node t.result t.law t.description)
    match node.expression with
    | .binary op left right =>
      match generateAllTransformations left with
      | none => none
      | some left_transformations =>
        match generateAllTransformations right with
        | none => none
        | some right_transformations =>
          some (whole
            ++ left_transformations.map
              (fun t => successorNode node (.binary op t.result right) t.law t.description)
            ++ right_transformations.map
              (fun t => successorNode node (.binary op left t.result) t.law t.description))
    | .not operand =>
      match generateAllTransformations operand with
      | none => none
      | some operand_transformations =>
        some (whole ++ operand_transformations.map
          (fun t => successorNode node (.not t.result) t.law t.description))
    | _ => some whole

/-- The second loop of `reconstructProof`: `steps[i].step_number = i + 1`, for the
steps from index `i` on. -/
def renumber : Nat → List ProofStep → List ProofStep
  | _, [] => []
  | i, step :: rest =>
    ⟨step.expression, step.law_applied, step.description, i + 1⟩ :: renumber (i + 1) rest

/-- Embeds `ProofSearch::reconstructProof`. -/
def reconstructProof (path : List ProofStep) (found_target : Bool) : Proof :=
  ⟨renumber 0 path, found_target, path.length⟩

/-- The `for (auto& node : expanded_nodes)` loop of the search: a node whose text is not
in the visited set is marked and pushed at the back of the queue. -/
def enqueueUnvisited :
    List ProofSearchNode → List ProofSearchNode → List String →
      List ProofSearchNode × List String
  | [], queue, visited => (queue, visited)
  | node :: rest, queue, visited =>
    if isVisited visited node.expression then enqueueUnvisited rest queue visited
    else enqueueUnvisited rest (queue ++ [node]) (markVisited visited node.expression)

/-- The local state of the `while` loop of `findShortestProof`: the queue (front first),
`transformations_explored`, and the members of the visited set. -/
structure SearchState where
  queue : List ProofSearchNode
  transformations_explored : Nat
  visited : List String
  deriving DecidableEq, Repr

/-- What one evaluation of the loop condition and body of `findShortestProof` leads to:
the function is left (with the returned proof and the visited set, or with no result
when a null pointer was dereferenced), or the loop goes round again. -/
inductive LoopOutcome where
  | finished (result : Option (Proof × List String))
  | again (state : SearchState)
  deriving DecidableEq, Repr

/-- One round of the `while` loop of `findShortestProof`: the loop condition, then the body. -/
def searchIteration (ps : ProofSearch) (target_expression : Expr) (s : SearchState) :
    LoopOutcome :=
  match s.queue with
  | [] => .finished (some (reconstructProof [] false, s.visited))
  | current :: rest =>
    if ¬ ((s.transformations_explored : Int) < ps.max_transformations) then
      .finished (some (reconstructProof [] false, s.visited))
    else if (current.depth : Int) > ps.max_depth then
      .again ⟨rest, s.transformations_explored, s.visited⟩
    else if areEquivalent current.expression target_expression then
      .finished (some (reconstructProof current.path true, s.visited))
    else if shouldPrune ps current then
      .again ⟨rest, s.transformations_explored, s.visited⟩
    else
      match expandNode current with
      | none => .finished none
      | some expanded_nodes =>
        .again ⟨(enqueueUnvisited expanded_nodes rest s.visited).1,
          s.transformations_explored + expanded_nodes.length,
          (enqueueUnvisited expanded_nodes rest s.visited).2⟩

/-- The quantity that decreases at every round of the loop, in lexicographic order: the
room left under `max_transformations`, then the queue length. -/
def searchMeasure (ps : ProofSearch) (s : SearchState) : Nat × Nat :=
  (ps.max_transformations.toNat - s.transformations_explored, s.queue.length)

/-- The `while` loop of `findShortestProof`, from a loop state to what the function
returns. -/
def searchLoop (ps : ProofSearch) (target_expression : Expr) (s : SearchState) :
    Option (Proof × List String) :=
  match h : searchIteration ps target_expression s with
  | .finished result => result
  | .again next => searchLoop ps target_expression next
termination_by searchMeasure ps s
decreasing_by
  obtain ⟨queue, explored, visited⟩ := s
  rw [Prod.lex_def]
  unfold searchIteration at h
  cases queue with
  | nil => simp at h
  | cons current rest =>
    simp only [] at h
    split at h
    · simp at h
    · rename_i hlt
      simp only [not_not] at hlt
      split at h
      · cases h; right; simp [searchMeasure]
      · split at h
        · simp at h
        · split at h
          · cases h; right; simp [searchMeasure]
          · split at h
            · simp at h
            · rename_i expanded_nodes hexp
              cases h
              cases expanded_nodes with
              | nil => right; simp [searchMeasure, enqueueUnvisited]
              | cons n ns =>
                left
                simp only [searchMeasure, List.length_cons]
                omega

/-- Embeds `ProofSearch::findShortestProof`: the visited set is cleared, the start is
queued at depth 0 and marked, and the loop runs. The result is the returned `Proof`
together with the search object as the call leaves it. -/
def findShortestProof (ps : ProofSearch) (start_expression target_expression : Expr) :
    Option (Proof × ProofSearch) :=
  match searchLoop ps target_expression
      ⟨[⟨start_expression, 0, []⟩], 0, markVisited [] start_expression⟩ with
  | some (proof, visited) => some (proof, ⟨visited, ps.max_depth, ps.max_transformations⟩)
  | none => none

/-- Embeds `ProofSearch::findProof`. -/
def findProof (ps : ProofSearch) (start_expression target_expression : Expr) :
    Option (Proof × ProofSearch) :=
  findShortestProof ps start_expression target_expression

/-- The loop of `findShortestProof` unrolled at most `fuel` times: `none` when that many
rounds do not leave the loop. Used to evaluate the search on given inputs. -/
def searchRounds (ps : ProofSearch) (target_expression : Expr) :
    Nat → SearchState → Option (Option (Proof × List String))
  | 0, _ => none
  | fuel + 1, s =>
    match searchIteration ps target_expression s with
    | .finished result => some result
    | .again next => searchRounds ps target_expression fuel next

/-- Equality of expressions in the words of the specification: same variant and, for
variables, the same name; for constants, the same value; for `Not`, equal operands; for
the four binary connectives, children equal pairwise in order; and for `And` and `Or`
also children equal pairwise after swapping. -/
inductive SpecEqual : Expr → Expr → Prop where
  | var (name : String) : SpecEqual (.var name) (.var name)
  | const (value : Bool) : SpecEqual (.const value) (.const value)
  | not {a b : Expr} : SpecEqual a b → SpecEqual (.not a) (.not b)
  | inOrder (op : BinOp) {l r l2 r2 : Expr} :
      SpecEqual l l2 → SpecEqual r r2 → SpecEqual (.binary op l r) (.binary op l2 r2)
  | swapped (op : BinOp) {l r l2 r2 : Expr} :
      op = .AND ∨ op = .OR → SpecEqual l r2 → SpecEqual r l2 →
        SpecEqual (.binary op l r) (.binary op l2 r2)

/-- A rewrite step in the sense of the glossary: one application of the rule of `law`
at exactly one position of the tree, every other position unchanged. -/
inductive RewritesAt (law : LogicLaw) : Expr → Expr → Prop where
  | root {e e2 : Expr} : applyLawToNode e law = some e2 → RewritesAt law e e2
  | operand {a b : Expr} : RewritesAt law a b → RewritesAt law (.not a) (.not b)
  | left (op : BinOp) {l l2 : Expr} (r : Expr) :
      RewritesAt law l l2 → RewritesAt law (.binary op l r) (.binary op l2 r)
  | right (op : BinOp) (l : Expr) {r r2 : Expr} :
      RewritesAt law r r2 → RewritesAt law (.binary op l r) (.binary op l r2)

/-- The step replays its law on `prev`: its expression is the result of a
transformation, tagged with the law of the step, that `applyLawRecursively` returns for
`prev` and that law. -/
def Replays (prev : Expr) (step : ProofStep) : Prop :=
  ∃ ts, applyLawRecursively prev step.law_applied = some ts ∧
    ∃ t ∈ ts, t.law = step.law_applied ∧ t.result = step.expression

/-- The expression that the step of index `i` (from 0) of a path starts from: the start
expression for the first step, the expression of the step before otherwise. -/
def exprBefore : Expr → List ProofStep → Nat → Expr
  | start, _, 0 => start
  | start, [], _ + 1 => start
  | _, step :: rest, i + 1 => exprBefore step.expression rest i

/-- The expression a path ends in: the expression of its last step, the start expression
for the empty path. -/
def finalExpr (start : Expr) (steps : List ProofStep) : Expr :=
  exprBefore start steps steps.length

/-- Every step of the path is related by `R` to the expression before it. -/
def ChainFrom (R : Expr → ProofStep → Prop) : Expr → List ProofStep → Prop
  | _, [] => True
  | prev, step :: rest => R prev step ∧ ChainFrom R step.expression rest

/-- What the search keeps true of every queued node, for a search from `start`: every
step of its path replays its law on the expression before it, the path ends in the
expression of the node, and the path is as long as the node is deep. -/
def NodeOk (start : Expr) (node : ProofSearchNode) : Prop :=
  ChainFrom Replays start node.path ∧ finalExpr start node.path = node.expression ∧
    node.path.length = node.depth

/-- The ways through one round of the loop of `findShortestProof`, each with the tests
that lead to it and the outcome it produces. -/
inductive IterationCase (ps : ProofSearch) (target : Expr) (s : SearchState) :
    LoopOutcome → Prop where
  | empty : s.queue = [] →
      IterationCase ps target s (.finished (some (reconstructProof [] false, s.visited)))
  | limit (current : ProofSearchNode) (rest : List ProofSearchNode) :
      s.queue = current :: rest →
      ¬ ((s.transformations_explored : Int) < ps.max_transformations) →
      IterationCase ps target s (.finished (some (reconstructProof [] false, s.visited)))
  | tooDeep (current : ProofSearchNode) (rest : List ProofSearchNode) :
      s.queue = current :: rest →
      (s.transformations_explored : Int) < ps.max_transformations →
      (current.depth : Int) > ps.max_depth →
      IterationCase ps target s (.again ⟨rest, s.transformations_explored, s.visited⟩)
  | found (current : ProofSearchNode) (rest : List ProofSearchNode) :
      s.queue = current :: rest →
      (s.transformations_explored : Int) < ps.max_transformations →
      ¬ (current.depth : Int) > ps.max_depth →
      areEquivalent current.expression target = true →
      IterationCase ps target s (.finished (some (reconstructProof current.path true, s.visited)))
  | pruned (current : ProofSearchNode) (rest : List ProofSearchNode) :
      s.queue = current :: rest →
      (s.transformations_explored : Int) < ps.max_transformations →
      ¬ (current.depth : Int) > ps.max_depth →
      areEquivalent current.expression target = false →
      shouldPrune ps current = true →
      IterationCase ps target s (.again ⟨rest, s.transformations_explored, s.visited⟩)
  | nullDeref (current : ProofSearchNode) (rest : List ProofSearchNode) :
      s.queue = current :: rest →
      (s.transformations_explored : Int) < ps.max_transformations →
      ¬ (current.depth : Int) > ps.max_depth →
      areEquivalent current.expression target = false →
      shouldPrune ps current = false →
      expandNode current = none →
      IterationCase ps target s (.finished none)
  | expanded (current : ProofSearchNode) (rest expanded_nodes : List ProofSearchNode) :
      s.queue = current :: rest →
      (s.transformations_explored : Int) < ps.max_transformations →
      ¬ (current.depth : Int) > ps.max_depth →
      areEquivalent current.expression target = false →
      shouldPrune ps current = false →
      expandNode current = some expanded_nodes →
      IterationCase ps target s
        (.again ⟨(enqueueUnvisited expanded_nodes rest s.visited).1,
          s.transformations_explored + expanded_nodes.length,
          (enqueueUnvisited expanded_nodes rest s.visited).2⟩)

/-- The shape of the queue of a breadth-first search that has found nothing at depth
below `k - 1`: the front node is at some depth `d` with `d + 1 ≤ k`, it is followed by
nodes of depth `d`, and these by nodes of depth `d + 1`. -/
def Layered (k : Nat) : List ProofSearchNode → Prop
  | [] => True
  | front :: rest =>
    front.depth + 1 ≤ k ∧ ∃ xs ys, rest = xs ++ ys ∧ (∀ x ∈ xs, x.depth = front.depth) ∧
      (∀ y ∈ ys, y.depth = front.depth + 1)

/-- Number of nodes of an expression tree. -/
def Expr.nodeCount : Expr → Nat
  | .var _ => 1
  | .const _ => 1
  | .not operand => operand.nodeCount + 1
  | .binary _ left right => left.nodeCount + right.nodeCount + 1

/-- The queue after the first round of a search from `start` whose start node is
expanded: the successors of `start` that the enqueuing loop lets through, in order. -/
def firstQueue (start : Expr) : List ProofSearchNode :=
  match expandNode ⟨start, 0, []⟩ with
  | none => []
  | some expanded_nodes => (enqueueUnvisited expanded_nodes [] (markVisited [] start)).1

/-- Whether the loop of `findShortestProof`, working through the nodes `xs` at the front
of its queue with the exploration counter at `c`, reaches `max_transformations` before
it dequeues a node that equals the target and without dereferencing a null pointer. -/
def exhausts (ps : ProofSearch) (target : Expr) : List ProofSearchNode → Nat → Bool
  | [], c => decide (¬ ((c : Int) < ps.max_transformations))
  | x :: xs, c =>
    if ¬ ((c : Int) < ps.max_transformations) then true
    else if (x.depth : Int) > ps.max_depth then exhausts ps target xs c
    else if areEquivalent x.expression target then false
    else if shouldPrune ps x then exhausts ps target xs c
    else
      match expandNode x with
      | none => false
      | some expanded_nodes => exhausts ps target xs (c + expanded_nodes.length)

/-! ## Expressions used in the worked examples -/

/-- The variable `p`. -/
def varP : Expr := .var "p"

/-- The variable `q`. -/
def varQ : Expr := .var "q"

/-- The variable `r`. -/
def varR : Expr := .var "r"

/-- The variable `a`. -/
def varA : Expr := .var "a"

/-- The variable `b`. -/
def varB : Expr := .var "b"

/-- The variable `c`. -/
def varC : Expr := .var "c"

/-- Wraps `bottom` in `n` levels, alternately `(… & T)` and `(… | F)`. -/
def alternatingChain (bottom : Expr) : Nat → Expr
  | 0 => bottom
  | n + 1 =>
    if n % 2 = 0 then .binary .AND (alternatingChain bottom n) (.const true)
    else .binary .OR (alternatingChain bottom n) (.const false)

/-- Puts `n` negations in front of `bottom`. -/
def negations (bottom : Expr) : Nat → Expr
  | 0 => bottom
  | n + 1 => .not (negations bottom n)

/-- An expression of exactly 200 characters: 84 negations in front of `(p -> q)`,
wrapped in 18 alternating levels `(… & T)`, `(… | F)`. -/
def limitStart : Expr := alternatingChain (negations (.binary .IMPLIES varP varQ) 84) 18

/-- The expression that `IMPLICATION_ELIMINATION`, applied at the innermost position,
makes of `limitStart`. -/
def limitTarget : Expr := alternatingChain (negations (.binary .OR (.not varP) varQ) 84) 18

/-- The start of scenario 5, `!!(p & q) -> r`. -/
def scenario5Start : Expr := .binary .IMPLIES (.not (.not (.binary .AND varP varQ))) varR

/-- The target of scenario 5, `(p & q) -> r`. -/
def scenario5Target : Expr := .binary .IMPLIES (.binary .AND varP varQ) varR

/-- The expression `!(!a & !b) -> c`. -/
def deMorganStart : Expr :=
  .binary .IMPLIES (.not (.binary .AND (.not varA) (.not varB))) varC

/-- The expression `!!(!a & !b) | c`, which `IMPLICATION_ELIMINATION` at the root makes of
`deMorganStart`. -/
def deMorganTarget : Expr :=
  .binary .OR (.not (.not (.binary .AND (.not varA) (.not varB)))) varC

/-- The one-step proof that the search returns on scenario 5. -/
def scenario5Proof : Proof :=
  ⟨[⟨scenario5Target, .DOUBLE_NEGATION, "Double Negation", 1⟩], true, 1⟩

/-- The search object that the run of scenario 5 leaves behind. -/
def scenario5Search : ProofSearch :=
  ⟨["(!!!(p & q) | r)", "(!!(q & p) -> r)", "(!(!p | !q) -> r)", "((p & q) -> r)",
    "(!!(p & q) -> r)"], 10, 10000⟩

/-- The one-step proof that the search returns from `!!p` to `p`. -/
def doubleNegationProof : Proof :=
  ⟨[⟨varP, .DOUBLE_NEGATION, "Double Negation", 1⟩], true, 1⟩

/-- The variable names that occur in an expression, in text order. -/
def Expr.vars : Expr → List String
  | .var name => [name]
  | .const _ => []
  | .not operand => operand.vars
  | .binary _ left right => left.vars ++ right.vars

/-- A start expression of 202 characters: 201 negations in front of `p`. -/
def longStart : Expr := negations varP 201

/-- What `DOUBLE_NEGATION` at the root makes of `longStart`: 199 negations in front of
`p`. -/
def longTarget : Expr := negations varP 199

/-- The local state of the `while` loop of `generateEquivalentForms`: the queue (front
first), `transformations_explored`, the members of the visited set, and the vector
`equivalent_forms` collected so far. -/
structure FormsState where
  queue : List ProofSearchNode
  transformations_explored : Nat
  visited : List String
  equivalent_forms : List Expr
  deriving DecidableEq, Repr

/-- What one evaluation of the loop condition and body of `generateEquivalentForms`
leads to: the function is left (with the returned vector and the visited set, or with no
result when a null pointer was dereferenced), or the loop goes round again. -/
inductive FormsOutcome where
  | finished (result : Option (List Expr × List String))
  | again (state : FormsState)
  deriving DecidableEq, Repr

/-- One round of the `while` loop of `generateEquivalentForms`: the loop condition, then
the body. -/
def formsIteration (ps : ProofSearch) (max_steps : Int) (s : FormsState) : FormsOutcome :=
  match s.queue with
  | [] => .finished (some (s.equivalent_forms, s.visited))
  | current :: rest =>
    if ¬ ((s.transformations_explored : Int) < ps.max_transformations) then
      .finished (some (s.equivalent_forms, s.visited))
    else if ¬ (s.equivalent_forms.length < 50) then
      .finished (some (s.equivalent_forms, s.visited))
    else if (current.depth : Int) > max_steps then
      .again ⟨rest, s.transformations_explored, s.visited, s.equivalent_forms⟩
    else
      match expandNode current with
      | none => .finished none
      | some expanded_nodes =>
        .again ⟨(enqueueUnvisited expanded_nodes rest s.visited).1,
          s.transformations_explored + expanded_nodes.length,
          (enqueueUnvisited expanded_nodes rest s.visited).2,
          s.equivalent_forms ++ [current.expression]⟩

/-- The quantity that decreases at every round of the loop of `generateEquivalentForms`,
in lexicographic order: the room left under `max_transformations`, then the queue
length. -/
def formsMeasure (ps : ProofSearch) (s : FormsState) : Nat × Nat :=
  (ps.max_transformations.toNat - s.transformations_explored, s.queue.length)

/-- The `while` loop of `generateEquivalentForms`, from a loop state to what the
function returns. -/
def formsLoop (ps : ProofSearch) (max_steps : Int) (s : FormsState) :
    Option (List Expr × List String) :=
  match h : formsIteration ps max_steps s with
  | .finished result => result
  | .again next => formsLoop ps max_steps next
termination_by formsMeasure ps s
decreasing_by
  obtain ⟨queue, explored, visited, forms⟩ := s
  rw [Prod.lex_def]
  unfold formsIteration at h
  cases queue with
  | nil => simp at h
  | cons current rest =>
    simp only [] at h
    split at h
    · simp at h
    · rename_i hlt
      simp only [not_not] at hlt
      split at h
      · simp at h
      · split at h
        · cases h; right; simp [formsMeasure]
        · split at h
          · simp at h
          · rename_i expanded_nodes hexp
            cases h
            cases expanded_nodes with
            | nil => right; simp [formsMeasure, enqueueUnvisited]
            | cons n ns =>
              left
              simp only [formsMeasure, List.length_cons]
              omega

/-- Embeds `ProofSearch::generateEquivalentForms`: the visited set is cleared, the
expression is queued at depth 0 and marked, and the loop runs. The result is the
returned vector together with the search object as the call leaves it. -/
def generateEquivalentForms (ps : ProofSearch) (expression : Expr) (max_steps : Int) :
    Option (List Expr × ProofSearch) :=
  match formsLoop ps max_steps ⟨[⟨expression, 0, []⟩], 0, markVisited [] expression, []⟩ with
  | some (forms, visited) => some (forms, ⟨visited, ps.max_depth, ps.max_transformations⟩)
  | none => none

/-- The loop of `generateEquivalentForms` unrolled at most `fuel` times: `none` when
that many rounds do not leave the loop. Used to evaluate the function on given inputs. -/
def formsRounds (ps : ProofSearch) (max_steps : Int) :
    Nat → FormsState → Option (Option (List Expr × List String))
  | 0, _ => none
  | fuel + 1, s =>
    match formsIteration ps max_steps s with
    | .finished result => some result
    | .again next => formsRounds ps max_steps fuel next

/-- The expression `!(p & q)` of scenario 7. -/
def scenario7Start : Expr := .not (.binary .AND varP varQ)

/-- The vector that `generateEquivalentForms` returns on scenario 7. -/
def scenario7Forms : List Expr :=
  [.not (.binary .AND varP varQ), .binary .OR (.not varP) (.not varQ),
   .not (.binary .AND varQ varP), .binary .OR (.not varQ) (.not varP)]

/-- The characters of an identifier: ASCII letters, digits and the underscore. -/
def isIdentChar (c : Char) : Bool := c.isAlphanum || c == '_'

/-- A non-empty string of ASCII letters, digits and underscores that starts with a
letter or an underscore. -/
def isIdentifier (name : String) : Bool :=
  match name.data with
  | [] => false
  | c :: rest => (c.isAlpha || c == '_') && rest.all isIdentChar

/-- An identifier other than the single-letter names `T` and `F`. -/
def isProperName (name : String) : Bool :=
  isIdentifier name && !(name == "T") && !(name == "F")

/-- Whether every variable name of the expression satisfies `ok`. -/
def Expr.namesAll (ok : String → Bool) : Expr → Bool
  | .var name => ok name
  | .const _ => true
  | .not operand => operand.namesAll ok
  | .binary _ left right => left.namesAll ok && right.namesAll ok

/-- The node `(!!p & q)` at depth 0, whose left child has a rewrite of its own. -/
def childPassNode : ProofSearchNode := ⟨.binary .AND (.not (.not varP)) varQ, 0, []⟩

/-- What may follow the text of an expression inside a larger text: nothing, or a
character that is not an identifier character. -/
def Delimited (s : List Char) : Prop :=
  s = [] ∨ ∃ c rest, s = c :: rest ∧ isIdentChar c = false

/-! ## Lexer and parser (`parser.h`, `parser.cpp`) -/

/-- The enum `TokenType`. -/
inductive TokenType where
  | VARIABLE
  | CONSTANT_TRUE
  | CONSTANT_FALSE
  | NOT
  | AND
  | OR
  | IMPLIES
  | BICONDITIONAL
  | LPAREN
  | RPAREN
  | END_OF_INPUT
  | INVALID
  deriving DecidableEq, Repr

/-- Embeds `struct Token`. The member `position`, which only error reports read, is left
out. -/
structure Token where
  type : TokenType
  value : String
  deriving DecidableEq, Repr

/-- The function `std::isspace` of the "C" locale: space, `\t`, `\n`, `\v`, `\f`, `\r`. -/
def isspace (ch : Char) : Bool :=
  ch == ' ' || ch == Char.ofNat 9 || ch == Char.ofNat 10 || ch == Char.ofNat 11 ||
    ch == Char.ofNat 12 || ch == Char.ofNat 13

/-- The function `std::isalpha` of the "C" locale: the ASCII letters. -/
def isalpha (ch : Char) : Bool := ch.isAlpha

/-- The function `std::isalnum` of the "C" locale: the ASCII letters and digits. -/
def isalnum (ch : Char) : Bool := ch.isAlphanum

/-- Embeds `Lexer::currentChar`, on the input that is left: its first character, or
`\0` at the end. -/
def currentChar (input : List Char) : Char := input.headD (Char.ofNat 0)

/-- Embeds `Lexer::peekChar`, on the input that is left: its second character, or `\0`. -/
def peekChar (input : List Char) : Char := (input.drop 1).headD (Char.ofNat 0)

/-- Embeds `Lexer::skipWhitespace`, on the input that is left. -/
def skipWhitespace (input : List Char) : List Char := input.dropWhile isspace

/-- Embeds `Lexer::readVariable`: the token, and the input that is left. -/
def readVariable (input : List Char) : Token × List Char :=
  (⟨.VARIABLE, String.mk (input.takeWhile (fun ch => isalnum ch || ch == '_'))⟩,
    input.dropWhile (fun ch => isalnum ch || ch == '_'))

/-- The lookup `operators.find(op_str)` of `readOperator`. An `op_str` is made of one to
three one-byte characters, so the keys of the table that are spelled with a multi-byte
character never match and are left out. -/
def operatorType (op_str : String) : TokenType :=
  if op_str = "!" then .NOT
  else if op_str = "~" then .NOT
  else if op_str = "&" then .AND
  else if op_str = "&&" then .AND
  else if op_str = "|" then .OR
  else if op_str = "||" then .OR
  else if op_str = "->" then .IMPLIES
  else if op_str = "<->" then .BICONDITIONAL
  else .INVALID

/-- Embeds `Lexer::readOperator`, called with `ch` the current character and `rest` the
input after it: the token, and the input that is left. -/
def readOperator (ch : Char) (rest : List Char) : Token × List Char :=
  if ch == '-' && currentChar rest == '>' then
    (⟨operatorType (String.mk [ch, currentChar rest]), String.mk [ch, currentChar rest]⟩,
      rest.drop 1)
  else if ch == '<' && currentChar rest == '-' && peekChar rest == '>' then
    (⟨operatorType (String.mk [ch, currentChar rest, peekChar rest]),
        String.mk [ch, currentChar rest, peekChar rest]⟩,
      rest.drop 2)
  else if (ch == '&' || ch == '|') && currentChar rest == ch then
    (⟨operatorType (String.mk [ch, currentChar rest]), String.mk [ch, currentChar rest]⟩,
      rest.drop 1)
  else (⟨operatorType (String.mk [ch]), String.mk [ch]⟩, rest)

/-- The `while` loop of `Lexer::tokenize` followed by the final `END_OF_INPUT`, on the
input that is left. Every round takes at least one character, so a `fuel` above the
length of the input is never used up (`tokenizeLoop_fuel`). -/
def tokenizeLoop : Nat → List Char → List Token
  | 0, _ => [⟨.END_OF_INPUT, ""⟩]
  | fuel + 1, input =>
    match skipWhitespace input with
    | [] => [⟨.END_OF_INPUT, ""⟩]
    | ch :: rest =>
      if ch == 'T' || ch == 'F' then
        (if ch == 'T' then ⟨.CONSTANT_TRUE, "T"⟩ else ⟨.CONSTANT_FALSE, "F"⟩)
          :: tokenizeLoop fuel rest
      else if isalpha ch || ch == '_' then
        (readVariable (ch :: rest)).1 :: tokenizeLoop fuel (readVariable (ch :: rest)).2
      else if ch == '(' then ⟨.LPAREN, "("⟩ :: tokenizeLoop fuel rest
      else if ch == ')' then ⟨.RPAREN, ")"⟩ :: tokenizeLoop fuel rest
      else (readOperator ch rest).1 :: tokenizeLoop fuel (readOperator ch rest).2

/-- Embeds `Lexer::tokenize`. -/
def tokenize (input : String) : List Token := tokenizeLoop (input.length + 1) input.data

/-- What a parsing function comes to: a tree and the tokens from the current one on, a
thrown `ParseError` with its message, or the end of the recursion allowance of the
embedding. -/
inductive ParseResult where
  | ok (node : Expr) (tokens : List Token)
  | error (message : String)
  | outOfFuel
  deriving DecidableEq, Repr

/-- Embeds `Parser::currentToken`, on the tokens from the current one on. -/
def currentToken (tokens : List Token) : Token := tokens.headD ⟨.END_OF_INPUT, ""⟩

/-- Embeds `Parser::advance`: the index moves unless it is at the last token. -/
def advance : List Token → List Token
  | _ :: next :: rest => next :: rest
  | tokens => tokens

/-- Embeds `Parser::match`. -/
def matchToken (tokens : List Token) (type : TokenType) : Bool :=
  decide ((currentToken tokens).type = type)

mutual

/-- Embeds `Parser::parseExpression`. -/
def parseExpression : Nat → List Token → ParseResult
  | 0, _ => .outOfFuel
  | fuel + 1, tokens => parseBiconditional fuel tokens

/-- Embeds `Parser::parseBiconditional`. -/
def parseBiconditional : Nat → List Token → ParseResult
  | 0, _ => .outOfFuel
  | fuel + 1, tokens =>
    match parseImplication fuel tokens with
    | .ok left tokens => biconditionalLoop fuel left tokens
    | r => r

/-- The `while` loop of `Parser::parseBiconditional`. -/
def biconditionalLoop : Nat → Expr → List Token → ParseResult
  | 0, _, _ => .outOfFuel
  | fuel + 1, left, tokens =>
    if matchToken tokens .BICONDITIONAL then
      match parseImplication fuel (advance tokens) with
      | .ok right tokens => biconditionalLoop fuel (.binary .BICONDITIONAL left right) tokens
      | r => r
    else .ok left tokens

/-- Embeds `Parser::parseImplication`. -/
def parseImplication : Nat → List Token → ParseResult
  | 0, _ => .outOfFuel
  | fuel + 1, tokens =>
    match parseDisjunction fuel tokens with
    | .ok left tokens =>
      if matchToken tokens .IMPLIES then
        match parseImplication fuel (advance tokens) with
        | .ok right tokens => .ok (.binary .IMPLIES left right) tokens
        | r => r
      else .ok left tokens
    | r => r

/-- Embeds `Parser::parseDisjunction`. -/
def parseDisjunction : Nat → List Token → ParseResult
  | 0, _ => .outOfFuel
  | fuel + 1, tokens =>
    match parseConjunction fuel tokens with
    | .ok left tokens => disjunctionLoop fuel left tokens
    | r => r

/-- The `while` loop of `Parser::parseDisjunction`. -/
def disjunctionLoop : Nat → Expr → List Token → ParseResult
  | 0, _, _ => .outOfFuel
  | fuel + 1, left, tokens =>
    if matchToken tokens .OR then
      match parseConjunction fuel (advance tokens) with
      | .ok right tokens => disjunctionLoop fuel (.binary .OR left right) tokens
      | r => r
    else .ok left tokens

/-- Embeds `Parser::parseConjunction`. -/
def parseConjunction : Nat → List Token → ParseResult
  | 0, _ => .outOfFuel
  | fuel + 1, tokens =>
    match parseNegation fuel tokens with
    | .ok left tokens => conjunctionLoop fuel left tokens
    | r => r

/-- The `while` loop of `Parser::parseConjunction`. -/
def conjunctionLoop : Nat → Expr → List Token → ParseResult
  | 0, _, _ => .outOfFuel
  | fuel + 1, left, tokens =>
    if matchToken tokens .AND then
      match parseNegation fuel (advance tokens) with
      | .ok right tokens => conjunctionLoop fuel (.binary .AND left right) tokens
      | r => r
    else .ok left tokens

/-- Embeds `Parser::parseNegation`. -/
def parseNegation : Nat → List Token → ParseResult
  | 0, _ => .outOfFuel
  | fuel + 1, tokens =>
    if matchToken tokens .NOT then
      match parseNegation fuel (advance tokens) with
      | .ok operand tokens => .ok (.not operand) tokens
      | r => r
    else parsePrimary fuel tokens

/-- Embeds `Parser::parsePrimary`, `consume(TokenType::RPAREN)` included. -/
def parsePrimary : Nat → List Token → ParseResult
  | 0, _ => .outOfFuel
  | fuel + 1, tokens =>
    if matchToken tokens .VARIABLE then
      .ok (.var (currentToken tokens).value) (advance tokens)
    else if matchToken tokens .CONSTANT_TRUE then .ok (.const true) (advance tokens)
    else if matchToken tokens .CONSTANT_FALSE then .ok (.const false) (advance tokens)
    else if matchToken tokens .LPAREN then
      match parseExpression fuel (advance tokens) with
      | .ok expr tokens =>
        if ¬ matchToken tokens .RPAREN then .error "Expected different token type"
        else .ok expr (advance tokens)
      | r => r
    else .error "Expected variable, constant, or parenthesized expression"

end

/-- Embeds `Parser::parse`. The recursion allowance grows with the number of tokens. -/
def Parser.parse (tokens : List Token) : ParseResult :=
  match parseExpression (10 * tokens.length + 10) tokens with
  | .ok result tokens =>
    if (currentToken tokens).type ≠ .END_OF_INPUT then
      .error "Unexpected token after expression"
    else .ok result tokens
  | r => r

/-- Embeds `ExpressionParser::parse`: the tree, or the thrown error. -/
def ExpressionParser.parse (expression : String) : ParseResult :=
  Parser.parse (tokenize expression)


/-- The tokens of the input that is left, with the least recursion allowance that is
never used up. -/
def tokenizeFrom (input : List Char) : List Token := tokenizeLoop (input.length + 1) input

/-- Whether a name begins with the letter `T` or `F`. -/
def startsWithConstantLetter (name : String) : Bool :=
  match name.data with
  | c :: _ => c == 'T' || c == 'F'
  | [] => false

/-- An identifier that does not begin with the letter `T` or `F`. -/
def isLexerName (name : String) : Bool :=
  isIdentifier name && !startsWithConstantLetter name

/-- The token that spells a binary connective in the canonical text. -/
def operatorToken : BinOp → Token
  | .AND => ⟨.AND, "&"⟩
  | .OR => ⟨.OR, "|"⟩
  | .IMPLIES => ⟨.IMPLIES, "->"⟩
  | .BICONDITIONAL => ⟨.BICONDITIONAL, "<->"⟩

/-- The tokens of the canonical text of an expression. -/
def Expr.tokens : Expr → List Token
  | .var name => [⟨.VARIABLE, name⟩]
  | .const value => [if value then ⟨.CONSTANT_TRUE, "T"⟩ else ⟨.CONSTANT_FALSE, "F"⟩]
  | .not operand => ⟨.NOT, "!"⟩ :: operand.tokens
  | .binary op left right =>
    ⟨.LPAREN, "("⟩ :: (left.tokens ++ operatorToken op :: (right.tokens ++ [⟨.RPAREN, ")"⟩]))

/-- A recursion allowance that suffices to parse the canonical text of an expression. -/
def Expr.parseFuel : Expr → Nat
  | .var _ => 2
  | .const _ => 2
  | .not operand => operand.parseFuel + 1
  | .binary _ left right => left.parseFuel + right.parseFuel + 12

/-- What may follow the text of an expression inside a canonical text: nothing, a
blank or a closing parenthesis. -/
def Closed (rest : List Char) : Prop :=
  rest = [] ∨ ∃ c tail, rest = c :: tail ∧ (c = ' ' ∨ c = ')')

/-- Whether an expression is a variable or a constant. -/
def Expr.isLeaf : Expr → Bool
  | .var _ => true
  | .const _ => true
  | _ => false

/-- Whether every binary node of the expression has a variable or a constant among its
two children. In such an expression no law applies inside both children of a node, so
the cross-product loop of `applyLawToSubexpressions` never runs its body. -/
def Expr.oneSided : Expr → Bool
  | .var _ => true
  | .const _ => true
  | .not operand => operand.oneSided
  | .binary _ left right =>
    (left.isLeaf && right.oneSided) || (right.isLeaf && left.oneSided)

/-- The number of positions of an expression at which the rule of a law applies. -/
def ruleCount (law : LogicLaw) : Expr → Nat
  | .var name => if (applyLawToNode (.var name) law).isSome then 1 else 0
  | .const value => if (applyLawToNode (.const value) law).isSome then 1 else 0
  | .not operand =>
    (if (applyLawToNode (.not operand) law).isSome then 1 else 0) + ruleCount law operand
  | .binary op left right =>
    (if (applyLawToNode (.binary op left right) law).isSome then 1 else 0)
      + ruleCount law left + ruleCount law right

/-- The number of pairs of a law and a position at which the rule of the law applies. -/
def rewriteCount (e : Expr) : Nat := (all_laws.map (fun law => ruleCount law e)).sum

/-- The number of nodes that `expandNode` returns on a one-sided expression: the
rewrites of the whole expression, then those of each immediate child once more. -/
def expandCount : Expr → Nat
  | .binary op left right =>
    rewriteCount (.binary op left right) + rewriteCount left + rewriteCount right
  | .not operand => rewriteCount (.not operand) + rewriteCount operand
  | .var name => rewriteCount (.var name)
  | .const value => rewriteCount (.const value)

/-- The length of the canonical text, computed on the tree. -/
def Expr.textLength : Expr → Nat
  | .var name => name.length
  | .const _ => 1
  | .not operand => operand.textLength + 1
  | .binary op left right => left.textLength + right.textLength + op.text.length + 2

/-- Whether two expressions are the same tree. -/
def Expr.same : Expr → Expr → Bool
  | .var n, .var m => n == m
  | .const a, .const b => a == b
  | .not a, .not b => a.same b
  | .binary op l r, .binary op2 l2 r2 => decide (op = op2) && l.same l2 && r.same r2
  | _, _ => false

/-- The loop of `enqueueUnvisited` on the expressions themselves: an expression that is
not among the visited ones is put at the back of the queue and among the visited. -/
def enqueueTrees : List Expr → List Expr → List Expr → List Expr × List Expr
  | [], queue, visited => (queue, visited)
  | e :: rest, queue, visited =>
    if visited.any (fun v => e.same v) then enqueueTrees rest queue visited
    else enqueueTrees rest (queue ++ [e]) (e :: visited)

/-- The test `exhausts` for queued nodes of depth 1, read off their expressions: the
text length and the number of successors are computed on the tree, and an expression
that is not one-sided counts as a failure of the test. -/
def exhaustsFast (ps : ProofSearch) (target : Expr) : List Expr → Nat → Bool
  | [], c => decide (¬ ((c : Int) < ps.max_transformations))
  | x :: xs, c =>
    if ¬ ((c : Int) < ps.max_transformations) then true
    else if areEquivalent x target then false
    else if x.textLength > 200 then exhaustsFast ps target xs c
    else if x.oneSided then exhaustsFast ps target xs (c + expandCount x)
    else false

/-- Whether the search from `start` reaches `max_transformations` although a successor
of `start` equals `target`: `start` is one-sided, all names in its rewrites are proper,
one rewrite equals `target`, and the rewrites that the enqueuing loop lets through pass
`exhaustsFast`. -/
def limitBeforeTarget (ps : ProofSearch) (start target : Expr) : Bool :=
  start.oneSided &&
    match generateAllTransformations start with
    | none => false
    | some ts =>
      (ts.map (fun t => t.result)).all (fun e => e.namesAll isProperName) &&
        (ts.map (fun t => t.result)).any (fun e => areEquivalent e target) &&
        exhaustsFast ps target
          (enqueueTrees (ts.map (fun t => t.result)) [] [start]).1 (expandCount start)

/-- The number of transformations that the loop of `findShortestProof` adds to its
exploration counter while it works through `nodes`, none of which equals the target: the
successors of every node that `shouldPrune` lets through. -/
def exploredBy (ps : ProofSearch) : List ProofSearchNode → Nat
  | [] => 0
  | x :: xs =>
    (if shouldPrune ps x then 0 else ((expandNode x).getD []).length) + exploredBy ps xs

/-- The expression `!!p & (q -> r)`. -/
def thirdStart : Expr := .binary .AND (.not (.not varP)) (.binary .IMPLIES varQ varR)

/-- The expression `!!p & (!q | r)`, which `IMPLICATION_ELIMINATION` on the right child
makes of `thirdStart`. -/
def thirdTarget : Expr := .binary .AND (.not (.not varP)) (.binary .OR (.not varQ) varR)

/-- The two successors of `thirdStart` that are queued before the one that equals
`thirdTarget`: `p & (q -> r)` and `(q -> r) & !!p`. -/
def thirdBefore : List ProofSearchNode :=
  [successorNode ⟨thirdStart, 0, []⟩ (.binary .AND varP (.binary .IMPLIES varQ varR))
      .DOUBLE_NEGATION "Double Negation",
    successorNode ⟨thirdStart, 0, []⟩ (.binary .AND (.binary .IMPLIES varQ varR)
      (.not (.not varP))) .COMMUTATIVE_AND "Commutative Law (AND)"]

/-- The successor of `thirdStart` that equals `thirdTarget`. -/
def thirdNode : ProofSearchNode :=
  successorNode ⟨thirdStart, 0, []⟩ thirdTarget .IMPLICATION_ELIMINATION
    "Implication Elimination"

/-- The successors that `expandNode` returns for `thirdStart`, in order: three from the
whole expression, then one from each child, which repeat the first and the third. -/
def thirdNodes : List ProofSearchNode :=
  thirdBefore ++ [thirdNode,
    successorNode ⟨thirdStart, 0, []⟩ (.binary .AND varP (.binary .IMPLIES varQ varR))
      .DOUBLE_NEGATION "Double Negation",
    thirdNode]

/-! ## Properties of `equals` and of the rule catalogue -/

theorem equals_var_iff (n : String) (b : Expr) :
    (Expr.var n).equals b = true ↔ b = .var n := by
  cases b <;> simp [Expr.equals, eq_comm]

theorem equals_const_iff (v : Bool) (b : Expr) :
    (Expr.const v).equals b = true ↔ b = .const v := by
  cases b <;> simp [Expr.equals, eq_comm]

theorem equals_not_iff (a b : Expr) :
    (Expr.not a).equals b = true ↔ ∃ c, b = .not c ∧ a.equals c = true := by
  cases b <;> simp [Expr.equals]

theorem equals_binary_iff (op : BinOp) (l r b : Expr) :
    (Expr.binary op l r).equals b = true ↔
      ∃ l2 r2, b = .binary op l2 r2 ∧
        ((l.equals l2 = true ∧ r.equals r2 = true) ∨
          ((op = .AND ∨ op = .OR) ∧ l.equals r2 = true ∧ r.equals l2 = true)) := by
  cases b with
  | binary op2 l2 r2 =>
    by_cases hop : op2 = op
    · subst hop
      by_cases hc : op2 = .AND ∨ op2 = .OR <;> simp [Expr.equals, hc] <;>
        exact ⟨fun h => ⟨l2, r2, ⟨rfl, rfl⟩, h⟩, fun ⟨_, _, ⟨h1, h2⟩, h⟩ => by subst h1 h2; exact h⟩
    · have hop2 : ¬ op = op2 := fun h => hop h.symm
      simp [Expr.equals, hop, hop2]
  | _ => simp [Expr.equals]

/-- Expressions that `equals` identifies have the same truth value under every
assignment. -/
theorem equals_eval (env : String → Bool) :
    ∀ a b : Expr, a.equals b = true → a.eval env = b.eval env := by
  intro a
  induction a with
  | var n => intro b h; rw [(equals_var_iff n b).1 h]
  | const v => intro b h; rw [(equals_const_iff v b).1 h]
  | not a ih =>
    intro b h
    obtain ⟨c, rfl, hc⟩ := (equals_not_iff a b).1 h
    simp [Expr.eval, ih c hc]
  | binary op l r ihl ihr =>
    intro b h
    obtain ⟨l2, r2, rfl, h2⟩ := (equals_binary_iff op l r b).1 h
    rcases h2 with ⟨h1, h2⟩ | ⟨hop, h1, h2⟩
    · cases op <;> simp [Expr.eval, ihl l2 h1, ihr r2 h2]
    · rcases hop with rfl | rfl
      · simp [Expr.eval, ihl r2 h1, ihr l2 h2, Bool.and_comm]
      · simp [Expr.eval, ihl r2 h1, ihr l2 h2, Bool.or_comm]

theorem absorbRight_eval (env : String → Bool) (inner : BinOp) (left right : Expr)
    (h : absorbRight inner left right = true) :
    ∃ rl rr, right = .binary inner rl rr ∧
      (left.eval env = rl.eval env ∨ left.eval env = rr.eval env) := by
  unfold absorbRight at h
  split at h
  · rename_i op rl rr
    simp only [Bool.and_eq_true, decide_eq_true_eq, Bool.or_eq_true] at h
    obtain ⟨rfl, h | h⟩ := h
    · exact ⟨rl, rr, rfl, Or.inl (equals_eval env _ _ h)⟩
    · exact ⟨rl, rr, rfl, Or.inr (equals_eval env _ _ h)⟩
  · simp at h

theorem absorbLeft_eval (env : String → Bool) (inner : BinOp) (left right : Expr)
    (h : absorbLeft inner left right = true) :
    ∃ ll lr, left = .binary inner ll lr ∧
      (right.eval env = ll.eval env ∨ right.eval env = lr.eval env) := by
  unfold absorbLeft at h
  split at h
  · rename_i op ll lr
    simp only [Bool.and_eq_true, decide_eq_true_eq, Bool.or_eq_true] at h
    obtain ⟨rfl, h | h⟩ := h
    · exact ⟨ll, lr, rfl, Or.inl (equals_eval env _ _ h)⟩
    · exact ⟨ll, lr, rfl, Or.inr (equals_eval env _ _ h)⟩
  · simp at h

theorem negationOf_eval (env : String → Bool) (a b : Expr) (h : negationOf a b = true) :
    a.eval env = !(b.eval env) := by
  unfold negationOf at h
  split at h
  · simp [Expr.eval, equals_eval env _ _ h]
  · simp at h

theorem isConstantTrue_eval (env : String → Bool) (e : Expr) (h : isConstantTrue e = true) :
    e.eval env = true := by
  cases e <;> simp_all [isConstantTrue, Expr.eval]

theorem isConstantFalse_eval (env : String → Bool) (e : Expr) (h : isConstantFalse e = true) :
    e.eval env = false := by
  cases e <;> simp_all [isConstantFalse, Expr.eval]

/-- Every rule of the catalogue preserves the truth value, whichever law is dispatched. -/
theorem applyLawToNode_eval (env : String → Bool) (law : LogicLaw) (e e2 : Expr)
    (h : applyLawToNode e law = some e2) : e2.eval env = e.eval env := by
  cases law <;> simp only [applyLawToNode] at h
  case DOUBLE_NEGATION =>
    unfold applyDoubleNegation at h
    split at h <;> simp at h
    subst h; simp [Expr.eval]
  case DE_MORGAN_AND =>
    unfold applyDeMorganAnd at h
    split at h <;> simp at h
    subst h; simp [Expr.eval, createOr, createNegation]
  case DE_MORGAN_OR =>
    unfold applyDeMorganOr at h
    split at h <;> simp at h
    subst h; simp [Expr.eval, createAnd, createNegation]
  case IMPLICATION_ELIMINATION =>
    unfold applyImplicationElimination at h
    split at h <;> simp at h
    subst h; simp [Expr.eval, createOr, createNegation]
  case BICONDITIONAL_ELIMINATION =>
    unfold applyBiconditionalElimination at h
    split at h <;> simp at h
    subst h
    rename_i l r
    simp only [Expr.eval, createAnd]
    cases l.eval env <;> cases r.eval env <;> rfl
  case DISTRIBUTIVE_AND_OVER_OR =>
    unfold applyDistributiveAndOverOr at h
    split at h
    · split at h
      · simp at h; subst h
        simp only [Expr.eval, createAnd, createOr, Bool.and_or_distrib_left]
      · split at h <;> simp at h
        subst h
        simp only [Expr.eval, createAnd, createOr, Bool.and_or_distrib_right]
    · simp at h
  case DISTRIBUTIVE_OR_OVER_AND =>
    unfold applyDistributiveOrOverAnd at h
    split at h
    · split at h
      · simp at h; subst h
        simp only [Expr.eval, createAnd, createOr, Bool.or_and_distrib_left]
      · split at h <;> simp at h
        subst h
        simp only [Expr.eval, createAnd, createOr, Bool.or_and_distrib_right]
    · simp at h
  case ABSORPTION_AND =>
    unfold applyAbsorptionAnd at h
    split at h
    · rename_i left right
      split at h
      · rename_i hc
        simp at h; subst h
        obtain ⟨rl, rr, rfl, hv⟩ := absorbRight_eval env _ _ _ hc
        simp only [Expr.eval]
        rcases hv with hv | hv <;> rw [← hv] <;>
          cases left.eval env <;> simp
      · split at h
        · rename_i hc
          simp at h; subst h
          obtain ⟨ll, lr, rfl, hv⟩ := absorbLeft_eval env _ _ _ hc
          simp only [Expr.eval]
          rcases hv with hv | hv <;> rw [← hv] <;>
            cases right.eval env <;> simp
        · simp at h
    · simp at h
  case ABSORPTION_OR =>
    unfold applyAbsorptionOr at h
    split at h
    · rename_i left right
      split at h
      · rename_i hc
        simp at h; subst h
        obtain ⟨rl, rr, rfl, hv⟩ := absorbRight_eval env _ _ _ hc
        simp only [Expr.eval]
        rcases hv with hv | hv <;> rw [← hv] <;>
          cases left.eval env <;> simp
      · split at h
        · rename_i hc
          simp at h; subst h
          obtain ⟨ll, lr, rfl, hv⟩ := absorbLeft_eval env _ _ _ hc
          simp only [Expr.eval]
          rcases hv with hv | hv <;> rw [← hv] <;>
            cases right.eval env <;> simp
        · simp at h
    · simp at h
  case IDENTITY_AND =>
    unfold applyIdentityAnd at h
    split at h
    · split at h
      · rename_i hc
        simp at h; subst h
        simp [Expr.eval, isConstantTrue_eval env _ hc]
      · split at h
        · rename_i hc
          simp at h; subst h
          simp [Expr.eval, isConstantTrue_eval env _ hc]
        · simp at h
    · simp at h
  case IDENTITY_OR =>
    unfold applyIdentityOr at h
    split at h
    · split at h
      · rename_i hc
        simp at h; subst h
        simp [Expr.eval, isConstantFalse_eval env _ hc]
      · split at h
        · rename_i hc
          simp at h; subst h
          simp [Expr.eval, isConstantFalse_eval env _ hc]
        · simp at h
    · simp at h
  case ANNIHILATION_AND =>
    unfold applyAnnihilationAnd at h
    split at h
    · split at h
      · rename_i hc
        simp at h; subst h
        simp only [Bool.or_eq_true] at hc
        rcases hc with hc | hc <;> simp [Expr.eval, isConstantFalse_eval env _ hc]
      · simp at h
    · simp at h
  case ANNIHILATION_OR =>
    unfold applyAnnihilationOr at h
    split at h
    · split at h
      · rename_i hc
        simp at h; subst h
        simp only [Bool.or_eq_true] at hc
        rcases hc with hc | hc <;> simp [Expr.eval, isConstantTrue_eval env _ hc]
      · simp at h
    · simp at h
  case COMPLEMENT_AND =>
    unfold applyComplementAnd at h
    split at h
    · split at h
      · rename_i hc
        simp at h; subst h
        simp [Expr.eval, negationOf_eval env _ _ hc]
      · split at h
        · rename_i hc
          simp at h; subst h
          simp [Expr.eval, negationOf_eval env _ _ hc]
        · simp at h
    · simp at h
  case COMPLEMENT_OR =>
    unfold applyComplementOr at h
    split at h
    · split at h
      · rename_i hc
        simp at h; subst h
        simp [Expr.eval, negationOf_eval env _ _ hc]
      · split at h
        · rename_i hc
          simp at h; subst h
          simp [Expr.eval, negationOf_eval env _ _ hc]
        · simp at h
    · simp at h
  case IDEMPOTENT_AND =>
    unfold applyIdempotentAnd at h
    split at h
    · split at h
      · rename_i hc
        simp at h; subst h
        simp [Expr.eval, ← equals_eval env _ _ hc]
      · simp at h
    · simp at h
  case IDEMPOTENT_OR =>
    unfold applyIdempotentOr at h
    split at h
    · split at h
      · rename_i hc
        simp at h; subst h
        simp [Expr.eval, ← equals_eval env _ _ hc]
      · simp at h
    · simp at h
  case COMMUTATIVE_AND =>
    unfold applyCommutativeAnd at h
    split at h <;> simp at h
    subst h; simp [Expr.eval, createAnd, Bool.and_comm]
  case COMMUTATIVE_OR =>
    unfold applyCommutativeOr at h
    split at h <;> simp at h
    subst h; simp [Expr.eval, createOr, Bool.or_comm]
  case ASSOCIATIVE_AND =>
    unfold applyAssociativeAnd at h
    split at h
    · split at h
      · simp at h; subst h
        simp [Expr.eval, createAnd, Bool.and_assoc]
      · split at h <;> simp at h
        subst h
        simp [Expr.eval, createAnd, Bool.and_assoc]
    · simp at h
  case ASSOCIATIVE_OR =>
    unfold applyAssociativeOr at h
    split at h
    · split at h
      · simp at h; subst h
        simp [Expr.eval, createOr, Bool.or_assoc]
      · split at h <;> simp at h
        subst h
        simp [Expr.eval, createOr, Bool.or_assoc]
    · simp at h

theorem equals_refl : ∀ a : Expr, a.equals a = true := by
  intro a
  induction a with
  | var n => simp [Expr.equals]
  | const v => simp [Expr.equals]
  | not a ih => simpa [Expr.equals] using ih
  | binary op l r ihl ihr =>
    rw [equals_binary_iff]
    exact ⟨l, r, rfl, Or.inl ⟨ihl, ihr⟩⟩

theorem specEqual_of_equals : ∀ a b : Expr, a.equals b = true → SpecEqual a b := by
  intro a
  induction a with
  | var n => intro b h; rw [(equals_var_iff n b).1 h]; exact .var n
  | const v => intro b h; rw [(equals_const_iff v b).1 h]; exact .const v
  | not a ih =>
    intro b h
    obtain ⟨c, rfl, hc⟩ := (equals_not_iff a b).1 h
    exact .not (ih c hc)
  | binary op l r ihl ihr =>
    intro b h
    obtain ⟨l2, r2, rfl, h2⟩ := (equals_binary_iff op l r b).1 h
    rcases h2 with ⟨h1, h2⟩ | ⟨hop, h1, h2⟩
    · exact .inOrder op (ihl l2 h1) (ihr r2 h2)
    · exact .swapped op hop (ihl r2 h1) (ihr l2 h2)

theorem equals_of_specEqual {a b : Expr} (h : SpecEqual a b) : a.equals b = true := by
  induction h with
  | var n => simp [Expr.equals]
  | const v => simp [Expr.equals]
  | not _ ih => simpa [Expr.equals] using ih
  | inOrder op _ _ ih1 ih2 =>
    rw [equals_binary_iff]; exact ⟨_, _, rfl, Or.inl ⟨ih1, ih2⟩⟩
  | swapped op hop _ _ ih1 ih2 =>
    rw [equals_binary_iff]; exact ⟨_, _, rfl, Or.inr ⟨hop, ih1, ih2⟩⟩

/-! ## Properties of the contextual rewriter -/

theorem crossRow_moved (op : BinOp) (lt : TransformationSlot) (hlt : lt.result = none)
    (rs : List TransformationSlot) (out : List Transformation)
    (h : crossRow op lt rs = some out) : rs = [] ∧ out = [] := by
  cases rs with
  | nil => simp [crossRow] at h; exact ⟨rfl, h⟩
  | cons r rest => simp [crossRow, hlt] at h

/-- Over two vectors whose results were all moved out, the cross-product loop returns
only when one of them is empty, and then adds nothing. -/
theorem crossProduct_moved (op : BinOp) (ls rs : List Transformation)
    (out : List Transformation)
    (h : crossProduct op (ls.map Transformation.moved) (rs.map Transformation.moved) = some out) :
    out = [] ∧ (ls = [] ∨ rs = []) := by
  induction ls generalizing out with
  | nil => simp [crossProduct] at h; exact ⟨h, Or.inl rfl⟩
  | cons l rest ih =>
    simp only [List.map_cons, crossProduct] at h
    split at h
    · rename_i row hrow
      obtain ⟨hrs, hrow2⟩ := crossRow_moved op _ rfl _ _ hrow
      split at h
      · rename_i out2 hout2
        obtain ⟨ho, _⟩ := ih out2 hout2
        simp at h
        subst h
        refine ⟨by simp [hrow2, ho], Or.inr ?_⟩
        simpa using hrs
      · simp at h
    · simp at h

theorem crossProduct_moved_nil_left (op : BinOp) (rs : List TransformationSlot) :
    crossProduct op [] rs = some [] := rfl

theorem crossProduct_moved_nil_right (op : BinOp) (ls : List TransformationSlot) :
    crossProduct op ls [] = some [] := by
  induction ls with
  | nil => rfl
  | cons l rest ih => simp [crossProduct, crossRow, ih]

/-- When the binary branch returns, its output is the wrapped left results followed by
the wrapped right results, and one of the two lists is empty. -/
theorem combineBinary_some (op : BinOp) (left right : Expr) (lts rts out : List Transformation)
    (h : combineBinary op left right lts rts = some out) :
    out = lts.map (fun t => ⟨t.law, t.description, .binary op t.result right⟩)
        ++ rts.map (fun t => ⟨t.law, t.description, .binary op left t.result⟩)
      ∧ (lts = [] ∨ rts = []) := by
  unfold combineBinary at h
  split at h
  · rename_i both hboth
    obtain ⟨hb, hor⟩ := crossProduct_moved op lts rts both hboth
    simp at h
    subst h
    simp [hb, hor]
  · simp at h

theorem withDirectResult_some (e : Expr) (law : LogicLaw) (subs : Option (List Transformation))
    (ts : List Transformation) (h : withDirectResult e law subs = some ts) :
    ∃ sub, subs = some sub ∧
      ((∃ d, applyLawToNode e law = some d ∧ ts = ⟨law, getLawName law, d⟩ :: sub) ∨
        (applyLawToNode e law = none ∧ ts = sub)) := by
  unfold withDirectResult at h
  split at h
  · rename_i sub
    refine ⟨sub, rfl, ?_⟩
    split at h
    · rename_i d hd
      simp at h
      exact Or.inl ⟨d, hd, h.symm⟩
    · rename_i hd
      simp at h
      exact Or.inr ⟨hd, h.symm⟩
  · simp at h

/-- Every transformation returned by `applyLawRecursively` carries the law it was asked
for and rewrites the expression at exactly one position. -/
theorem applyLawRecursively_rewritesAt (law : LogicLaw) :
    ∀ (e : Expr) (ts : List Transformation), applyLawRecursively e law = some ts →
      ∀ t ∈ ts, t.law = law ∧ RewritesAt law e t.result := by
  intro e
  induction e with
  | var n =>
    intro ts h t ht
    simp only [applyLawRecursively] at h
    obtain ⟨sub, hsub, hd | hd⟩ := withDirectResult_some _ _ _ _ h
    · obtain ⟨d, hd, rfl⟩ := hd
      simp at hsub; subst hsub
      simp at ht; subst ht
      exact ⟨rfl, .root hd⟩
    · obtain ⟨_, rfl⟩ := hd
      simp at hsub; subst hsub
      simp at ht
  | const v =>
    intro ts h t ht
    simp only [applyLawRecursively] at h
    obtain ⟨sub, hsub, hd | hd⟩ := withDirectResult_some _ _ _ _ h
    · obtain ⟨d, hd, rfl⟩ := hd
      simp at hsub; subst hsub
      simp at ht; subst ht
      exact ⟨rfl, .root hd⟩
    · obtain ⟨_, rfl⟩ := hd
      simp at hsub; subst hsub
      simp at ht
  | not a ih =>
    intro ts h t ht
    simp only [applyLawRecursively] at h
    obtain ⟨sub, hsub, hd⟩ := withDirectResult_some _ _ _ _ h
    have hsubs : ∀ t ∈ sub, t.law = law ∧ RewritesAt law (.not a) t.result := by
      unfold wrapOperand at hsub
      split at hsub
      · rename_i sts hsts
        simp at hsub; subst hsub
        intro t ht
        simp only [List.mem_map] at ht
        obtain ⟨u, hu, rfl⟩ := ht
        exact ⟨(ih sts hsts u hu).1, .operand (ih sts hsts u hu).2⟩
      · simp at hsub
    rcases hd with ⟨d, hd, rfl⟩ | ⟨_, rfl⟩
    · rcases List.mem_cons.1 ht with rfl | ht
      · exact ⟨rfl, .root hd⟩
      · exact hsubs t ht
    · exact hsubs t ht
  | binary op l r ihl ihr =>
    intro ts h t ht
    simp only [applyLawRecursively] at h
    obtain ⟨sub, hsub, hd⟩ := withDirectResult_some _ _ _ _ h
    have hsubs : ∀ t ∈ sub, t.law = law ∧ RewritesAt law (.binary op l r) t.result := by
      unfold wrapChildren at hsub
      split at hsub
      · rename_i lts rts hl hr
        obtain ⟨rfl, _⟩ := combineBinary_some op l r lts rts sub hsub
        intro t ht
        simp only [List.mem_append, List.mem_map] at ht
        rcases ht with ⟨u, hu, rfl⟩ | ⟨u, hu, rfl⟩
        · exact ⟨(ihl lts hl u hu).1, .left op r (ihl lts hl u hu).2⟩
        · exact ⟨(ihr rts hr u hu).1, .right op l (ihr rts hr u hu).2⟩
      · simp at hsub
    rcases hd with ⟨d, hd, rfl⟩ | ⟨_, rfl⟩
    · rcases List.mem_cons.1 ht with rfl | ht
      · exact ⟨rfl, .root hd⟩
      · exact hsubs t ht
    · exact hsubs t ht

/-- A rewrite at one position preserves the truth value under every assignment. -/
theorem RewritesAt.eval_eq {law : LogicLaw} {e e2 : Expr} (h : RewritesAt law e e2)
    (env : String → Bool) : e2.eval env = e.eval env := by
  induction h with
  | root h => exact applyLawToNode_eval env law _ _ h
  | operand _ ih => simp [Expr.eval, ih]
  | left op r _ ih => cases op <;> simp [Expr.eval, ih]
  | right op l _ ih => cases op <;> simp [Expr.eval, ih]

/-! ## Properties of the search loop -/

theorem searchLoop_unfold (ps : ProofSearch) (t : Expr) (s : SearchState) :
    searchLoop ps t s =
      match searchIteration ps t s with
      | .finished result => result
      | .again next => searchLoop ps t next := by
  rw [searchLoop]
  split <;> rename_i h <;> simp [h]

theorem searchLoop_finished {ps : ProofSearch} {t : Expr} {s : SearchState}
    {r : Option (Proof × List String)} (h : searchIteration ps t s = .finished r) :
    searchLoop ps t s = r := by
  rw [searchLoop_unfold, h]

theorem searchLoop_again {ps : ProofSearch} {t : Expr} {s next : SearchState}
    (h : searchIteration ps t s = .again next) :
    searchLoop ps t s = searchLoop ps t next := by
  rw [searchLoop_unfold, h]

/-- If some number of unrolled rounds leaves the loop with a result, the loop returns
that result. -/
theorem searchLoop_of_rounds (ps : ProofSearch) (t : Expr) :
    ∀ (fuel : Nat) (s : SearchState) (r : Option (Proof × List String)),
      searchRounds ps t fuel s = some r → searchLoop ps t s = r := by
  intro fuel
  induction fuel with
  | zero => intro s r h; simp [searchRounds] at h
  | succ n ih =>
    intro s r h
    simp only [searchRounds] at h
    cases hres : searchIteration ps t s with
    | finished res =>
      rw [hres] at h
      rw [searchLoop_finished hres]
      simpa using h
    | again nxt =>
      rw [hres] at h
      rw [searchLoop_again hres]
      exact ih _ _ h

/-- Every round of the loop goes one of the ways listed by `IterationCase`. -/
theorem searchIteration_case (ps : ProofSearch) (t : Expr) (s : SearchState) :
    IterationCase ps t s (searchIteration ps t s) := by
  unfold searchIteration
  cases hq : s.queue with
  | nil => exact .empty hq
  | cons current rest =>
    simp only []
    by_cases h1 : (s.transformations_explored : Int) < ps.max_transformations
    · rw [if_neg (not_not.2 h1)]
      by_cases h2 : (current.depth : Int) > ps.max_depth
      · rw [if_pos h2]; exact .tooDeep current rest hq h1 h2
      · rw [if_neg h2]
        cases h3 : areEquivalent current.expression t with
        | true => simp only [if_true]; exact .found current rest hq h1 h2 h3
        | false =>
          simp only [Bool.false_eq_true, if_false]
          cases h4 : shouldPrune ps current with
          | true => simp only [if_true]; exact .pruned current rest hq h1 h2 h3 h4
          | false =>
            simp only [Bool.false_eq_true, if_false]
            cases h5 : expandNode current with
            | none => exact .nullDeref current rest hq h1 h2 h3 h4 h5
            | some expanded_nodes => exact .expanded current rest expanded_nodes hq h1 h2 h3 h4 h5
    · rw [if_pos h1]; exact .limit current rest hq h1

/-! ## Paths and chains -/

theorem finalExpr_nil (start : Expr) : finalExpr start [] = start := rfl

theorem finalExpr_cons (start : Expr) (step : ProofStep) (rest : List ProofStep) :
    finalExpr start (step :: rest) = finalExpr step.expression rest := rfl

theorem finalExpr_append_singleton (start : Expr) (path : List ProofStep) (step : ProofStep) :
    finalExpr start (path ++ [step]) = step.expression := by
  induction path generalizing start with
  | nil => rfl
  | cons s rest ih => rw [List.cons_append, finalExpr_cons, ih]

theorem chainFrom_append_singleton (R : Expr → ProofStep → Prop) (start : Expr)
    (path : List ProofStep) (step : ProofStep) :
    ChainFrom R start (path ++ [step]) ↔
      ChainFrom R start path ∧ R (finalExpr start path) step := by
  induction path generalizing start with
  | nil => simp [ChainFrom, finalExpr_nil]
  | cons s rest ih =>
    rw [List.cons_append]
    simp only [ChainFrom, finalExpr_cons, ih, and_assoc]

theorem chainFrom_mono {R S : Expr → ProofStep → Prop} (hRS : ∀ e s, R e s → S e s) :
    ∀ (start : Expr) (path : List ProofStep), ChainFrom R start path → ChainFrom S start path := by
  intro start path
  induction path generalizing start with
  | nil => intro _; trivial
  | cons s rest ih => intro h; exact ⟨hRS _ _ h.1, ih _ h.2⟩

/-- A chain, read by index: every step is related to the expression before it. -/
theorem chainFrom_iff_index (R : Expr → ProofStep → Prop) :
    ∀ (start : Expr) (steps : List ProofStep),
      ChainFrom R start steps ↔
        ∀ (i : Nat) (step : ProofStep), steps[i]? = some step →
          R (exprBefore start steps i) step := by
  intro start steps
  induction steps generalizing start with
  | nil => simp [ChainFrom]
  | cons s rest ih =>
    simp only [ChainFrom, ih]
    constructor
    · rintro ⟨h0, hrest⟩ i step hi
      cases i with
      | zero =>
        simp at hi; subst hi
        simpa [exprBefore] using h0
      | succ j =>
        simp at hi
        simpa [exprBefore] using hrest j step hi
    · intro h
      refine ⟨by simpa [exprBefore] using h 0 s (by simp), ?_⟩
      intro j step hj
      simpa [exprBefore] using h (j + 1) step (by simpa using hj)

theorem renumber_length (n : Nat) (path : List ProofStep) :
    (renumber n path).length = path.length := by
  induction path generalizing n with
  | nil => rfl
  | cons s rest ih => simp [renumber, ih]

theorem finalExpr_renumber (start : Expr) (n : Nat) (path : List ProofStep) :
    finalExpr start (renumber n path) = finalExpr start path := by
  induction path generalizing start n with
  | nil => rfl
  | cons s rest ih => simp only [renumber, finalExpr_cons, ih]

theorem chainFrom_renumber {R : Expr → ProofStep → Prop}
    (hR : ∀ e s n, R e s → R e ⟨s.expression, s.law_applied, s.description, n⟩)
    (start : Expr) (n : Nat) (path : List ProofStep) (h : ChainFrom R start path) :
    ChainFrom R start (renumber n path) := by
  induction path generalizing start n with
  | nil => trivial
  | cons s rest ih => exact ⟨hR _ _ _ h.1, ih _ _ h.2⟩

theorem replays_renumbered (e : Expr) (s : ProofStep) (n : Nat) (h : Replays e s) :
    Replays e ⟨s.expression, s.law_applied, s.description, n⟩ := h

/-! ## Properties of `generateAllTransformations` and `expandNode` -/

theorem mem_all_laws (law : LogicLaw) : law ∈ all_laws := by
  cases law <;> simp [all_laws]

theorem generateForLaws_some (e : Expr) :
    ∀ (laws : List LogicLaw) (ts : List Transformation), generateForLaws e laws = some ts →
      (∀ t ∈ ts, ∃ law ∈ laws, ∃ lts, applyLawRecursively e law = some lts ∧ t ∈ lts) ∧
      (∀ law ∈ laws, ∃ lts, applyLawRecursively e law = some lts ∧ ∀ t ∈ lts, t ∈ ts) := by
  intro laws
  induction laws with
  | nil =>
    intro ts h
    simp [generateForLaws] at h
    subst h
    simp
  | cons law rest ih =>
    intro ts h
    simp only [generateForLaws] at h
    split at h
    · rename_i lts hlts
      split at h
      · rename_i out hout
        simp at h; subst h
        obtain ⟨ih1, ih2⟩ := ih out hout
        constructor
        · intro t ht
          rcases List.mem_append.1 ht with ht | ht
          · exact ⟨law, by simp, lts, hlts, ht⟩
          · obtain ⟨l2, hl2, lts2, h2, h3⟩ := ih1 t ht
            exact ⟨l2, by simp [hl2], lts2, h2, h3⟩
        · intro l2 hl2
          rcases List.mem_cons.1 hl2 with rfl | hl2
          · exact ⟨lts, hlts, fun t ht => List.mem_append.2 (Or.inl ht)⟩
          · obtain ⟨lts2, h2, h3⟩ := ih2 l2 hl2
            exact ⟨lts2, h2, fun t ht => List.mem_append.2 (Or.inr (h3 t ht))⟩
      · simp at h
    · simp at h

/-- When `generateAllTransformations` returns, each of its transformations is one that
`applyLawRecursively` returns for the law it is tagged with. -/
theorem generateAllTransformations_mem (e : Expr) (ts : List Transformation)
    (h : generateAllTransformations e = some ts) (t : Transformation) (ht : t ∈ ts) :
    ∃ lts, applyLawRecursively e t.law = some lts ∧ t ∈ lts := by
  obtain ⟨law, _, lts, hlts, hmem⟩ := (generateForLaws_some e all_laws ts h).1 t ht
  have hlaw := (applyLawRecursively_rewritesAt law e lts hlts t hmem).1
  rw [hlaw]
  exact ⟨lts, hlts, hmem⟩

theorem generateAllTransformations_law (e : Expr) (ts : List Transformation)
    (h : generateAllTransformations e = some ts) (law : LogicLaw) :
    ∃ lts, applyLawRecursively e law = some lts ∧ ∀ t ∈ lts, t ∈ ts :=
  (generateForLaws_some e all_laws ts h).2 law (mem_all_laws law)

theorem applyLawRecursively_not (law : LogicLaw) (a : Expr) (ts : List Transformation)
    (h : applyLawRecursively (.not a) law = some ts) :
    ∃ sts, applyLawRecursively a law = some sts ∧
      ∀ u ∈ sts, (⟨u.law, u.description, .not u.result⟩ : Transformation) ∈ ts := by
  simp only [applyLawRecursively] at h
  obtain ⟨sub, hsub, hd⟩ := withDirectResult_some _ _ _ _ h
  unfold wrapOperand at hsub
  split at hsub
  · rename_i sts hsts
    simp at hsub; subst hsub
    refine ⟨sts, hsts, ?_⟩
    intro u hu
    have : (⟨u.law, u.description, .not u.result⟩ : Transformation) ∈
        sts.map (fun t => (⟨t.law, t.description, .not t.result⟩ : Transformation)) :=
      List.mem_map.2 ⟨u, hu, rfl⟩
    rcases hd with ⟨d, _, rfl⟩ | ⟨_, rfl⟩
    · exact List.mem_cons_of_mem _ this
    · exact this
  · simp at hsub

theorem applyLawRecursively_binary (law : LogicLaw) (op : BinOp) (l r : Expr)
    (ts : List Transformation) (h : applyLawRecursively (.binary op l r) law = some ts) :
    ∃ lts rts, applyLawRecursively l law = some lts ∧ applyLawRecursively r law = some rts ∧
      (∀ u ∈ lts, (⟨u.law, u.description, .binary op u.result r⟩ : Transformation) ∈ ts) ∧
      (∀ u ∈ rts, (⟨u.law, u.description, .binary op l u.result⟩ : Transformation) ∈ ts) := by
  simp only [applyLawRecursively] at h
  obtain ⟨sub, hsub, hd⟩ := withDirectResult_some _ _ _ _ h
  unfold wrapChildren at hsub
  split at hsub
  · rename_i lts rts hl hr
    obtain ⟨rfl, _⟩ := combineBinary_some op l r lts rts sub hsub
    refine ⟨lts, rts, hl, hr, ?_, ?_⟩
    · intro u hu
      have : (⟨u.law, u.description, .binary op u.result r⟩ : Transformation) ∈
          lts.map (fun t => (⟨t.law, t.description, .binary op t.result r⟩ : Transformation))
            ++ rts.map (fun t => (⟨t.law, t.description, .binary op l t.result⟩ : Transformation)) :=
        List.mem_append.2 (Or.inl (List.mem_map.2 ⟨u, hu, rfl⟩))
      rcases hd with ⟨d, _, rfl⟩ | ⟨_, rfl⟩
      · exact List.mem_cons_of_mem _ this
      · exact this
    · intro u hu
      have : (⟨u.law, u.description, .binary op l u.result⟩ : Transformation) ∈
          lts.map (fun t => (⟨t.law, t.description, .binary op t.result r⟩ : Transformation))
            ++ rts.map (fun t => (⟨t.law, t.description, .binary op l t.result⟩ : Transformation)) :=
        List.mem_append.2 (Or.inr (List.mem_map.2 ⟨u, hu, rfl⟩))
      rcases hd with ⟨d, _, rfl⟩ | ⟨_, rfl⟩
      · exact List.mem_cons_of_mem _ this
      · exact this
  · simp at hsub

/-- Every node that `expandNode` returns extends the path of its parent by one step,
one level deeper, and that step replays its law on the expression of the parent. -/
theorem expandNode_successor (node : ProofSearchNode) (nodes : List ProofSearchNode)
    (h : expandNode node = some nodes) :
    ∀ n ∈ nodes, ∃ step : ProofStep,
      n = ⟨step.expression, node.depth + 1, node.path ++ [step]⟩ ∧
        Replays node.expression step := by
  obtain ⟨e, d, path⟩ := node
  unfold expandNode at h
  simp only [] at h
  split at h
  · simp at h
  · rename_i ts hts
    have hwhole : ∀ t ∈ ts, ∃ step : ProofStep,
        successorNode ⟨e, d, path⟩ t.result t.law t.description
            = ⟨step.expression, d + 1, path ++ [step]⟩ ∧ Replays e step := by
      intro t ht
      obtain ⟨lts, hlts, hmem⟩ := generateAllTransformations_mem e ts hts t ht
      exact ⟨⟨t.result, t.law, t.description, d + 1⟩, rfl, lts, hlts, t, hmem, rfl, rfl⟩
    cases e with
    | var name =>
      simp at h; subst h
      intro n hn
      obtain ⟨t, ht, rfl⟩ := List.mem_map.1 hn
      exact hwhole t ht
    | const value =>
      simp at h; subst h
      intro n hn
      obtain ⟨t, ht, rfl⟩ := List.mem_map.1 hn
      exact hwhole t ht
    | not operand =>
      simp only [] at h
      split at h
      · simp at h
      · rename_i ots hots
        simp at h; subst h
        intro n hn
        rcases List.mem_append.1 hn with hn | hn
        · obtain ⟨t, ht, rfl⟩ := List.mem_map.1 hn
          exact hwhole t ht
        · obtain ⟨t, ht, rfl⟩ := List.mem_map.1 hn
          obtain ⟨lts, hlts, hmem⟩ := generateAllTransformations_mem operand ots hots t ht
          obtain ⟨wts, hwts, _⟩ := generateAllTransformations_law (.not operand) ts hts t.law
          obtain ⟨sts, hsts, hin⟩ := applyLawRecursively_not t.law operand wts hwts
          rw [hlts] at hsts
          cases hsts
          exact ⟨⟨.not t.result, t.law, t.description, d + 1⟩, rfl, wts, hwts,
            ⟨t.law, t.description, .not t.result⟩, hin t hmem, rfl, rfl⟩
    | binary op l r =>
      simp only [] at h
      split at h
      · simp at h
      · rename_i lts0 hlts0
        split at h
        · simp at h
        · rename_i rts0 hrts0
          simp at h; subst h
          intro n hn
          rcases List.mem_append.1 hn with hn | hn
          · obtain ⟨t, ht, rfl⟩ := List.mem_map.1 hn
            exact hwhole t ht
          rcases List.mem_append.1 hn with hn | hn
          · obtain ⟨t, ht, rfl⟩ := List.mem_map.1 hn
            obtain ⟨lts, hlts, hmem⟩ := generateAllTransformations_mem l lts0 hlts0 t ht
            obtain ⟨wts, hwts, _⟩ :=
              generateAllTransformations_law (.binary op l r) ts hts t.law
            obtain ⟨lts2, rts2, hl2, _, hinl, _⟩ :=
              applyLawRecursively_binary t.law op l r wts hwts
            rw [hlts] at hl2
            cases hl2
            exact ⟨⟨.binary op t.result r, t.law, t.description, d + 1⟩, rfl, wts, hwts,
              ⟨t.law, t.description, .binary op t.result r⟩, hinl t hmem, rfl, rfl⟩
          · obtain ⟨t, ht, rfl⟩ := List.mem_map.1 hn
            obtain ⟨rts, hrts, hmem⟩ := generateAllTransformations_mem r rts0 hrts0 t ht
            obtain ⟨wts, hwts, _⟩ :=
              generateAllTransformations_law (.binary op l r) ts hts t.law
            obtain ⟨lts2, rts2, _, hr2, _, hinr⟩ :=
              applyLawRecursively_binary t.law op l r wts hwts
            rw [hrts] at hr2
            cases hr2
            exact ⟨⟨.binary op l t.result, t.law, t.description, d + 1⟩, rfl, wts, hwts,
              ⟨t.law, t.description, .binary op l t.result⟩, hinr t hmem, rfl, rfl⟩

theorem expandNode_nodeOk (start : Expr) (node : ProofSearchNode) (nodes : List ProofSearchNode)
    (hok : NodeOk start node) (h : expandNode node = some nodes) :
    ∀ n ∈ nodes, NodeOk start n ∧ n.depth = node.depth + 1 := by
  intro n hn
  obtain ⟨step, rfl, hrep⟩ := expandNode_successor node nodes h n hn
  obtain ⟨hchain, hfinal, hlen⟩ := hok
  refine ⟨⟨?_, ?_, ?_⟩, rfl⟩
  · exact (chainFrom_append_singleton _ _ _ _).2 ⟨hchain, by rw [hfinal]; exact hrep⟩
  · exact finalExpr_append_singleton _ _ _
  · simp [hlen]

/-- The queue after the enqueuing loop is the old queue followed by some of the new
nodes. -/
theorem enqueueUnvisited_queue :
    ∀ (new queue : List ProofSearchNode) (visited : List String),
      ∃ added, (enqueueUnvisited new queue visited).1 = queue ++ added ∧
        ∀ n ∈ added, n ∈ new := by
  intro new
  induction new with
  | nil => intro queue visited; exact ⟨[], by simp [enqueueUnvisited], by simp⟩
  | cons node rest ih =>
    intro queue visited
    simp only [enqueueUnvisited]
    split
    · obtain ⟨added, h1, h2⟩ := ih queue visited
      exact ⟨added, h1, fun n hn => List.mem_cons_of_mem _ (h2 n hn)⟩
    · obtain ⟨added, h1, h2⟩ := ih (queue ++ [node]) (markVisited visited node.expression)
      refine ⟨node :: added, by simp [h1], ?_⟩
      intro n hn
      rcases List.mem_cons.1 hn with rfl | hn
      · simp
      · exact List.mem_cons_of_mem _ (h2 n hn)

/-! ## Soundness of the search -/

/-- One more round keeps `NodeOk` true of every queued node. -/
theorem searchIteration_nodeOk (ps : ProofSearch) (t start : Expr) (s next : SearchState)
    (hinv : ∀ n ∈ s.queue, NodeOk start n)
    (h : searchIteration ps t s = .again next) : ∀ n ∈ next.queue, NodeOk start n := by
  have hc := searchIteration_case ps t s
  rw [h] at hc
  cases hc with
  | tooDeep current rest hq _ _ =>
    intro n hn
    exact hinv n (by rw [hq]; exact List.mem_cons_of_mem _ hn)
  | pruned current rest hq _ _ _ _ =>
    intro n hn
    exact hinv n (by rw [hq]; exact List.mem_cons_of_mem _ hn)
  | expanded current rest expanded_nodes hq _ _ _ _ hexp =>
    intro n hn
    obtain ⟨added, hadd, hsub⟩ := enqueueUnvisited_queue expanded_nodes rest s.visited
    simp only [hadd] at hn
    rcases List.mem_append.1 hn with hn | hn
    · exact hinv n (by rw [hq]; exact List.mem_cons_of_mem _ hn)
    · exact (expandNode_nodeOk start current expanded_nodes (hinv current (by rw [hq]; simp))
        hexp n (hsub n hn)).1

/-- A proof with `found_target` set comes from a dequeued node that equals the target,
is not deeper than `max_depth`, and whose path is the returned list of steps before
renumbering. -/
theorem searchLoop_found (ps : ProofSearch) (t start : Expr) :
    ∀ s : SearchState, (∀ n ∈ s.queue, NodeOk start n) →
      ∀ (proof : Proof) (v : List String), searchLoop ps t s = some (proof, v) →
        proof.found_target = true →
        ∃ node, NodeOk start node ∧ ¬ ((node.depth : Int) > ps.max_depth) ∧
          areEquivalent node.expression t = true ∧ proof = reconstructProof node.path true := by
  intro s
  induction s using searchLoop.induct ps t with
  | case1 s result hfin =>
    intro hinv proof v hres hfound
    rw [searchLoop_finished hfin] at hres
    subst hres
    have hc := searchIteration_case ps t s
    rw [hfin] at hc
    generalize hr : (some (proof, v) : Option (Proof × List String)) = r at hc
    cases hc with
    | empty hq =>
      simp at hr
      rw [hr.1] at hfound
      simp [reconstructProof] at hfound
    | limit current rest hq _ =>
      simp at hr
      rw [hr.1] at hfound
      simp [reconstructProof] at hfound
    | found current rest hq _ hdepth heq =>
      simp at hr
      exact ⟨current, hinv current (by rw [hq]; simp), hdepth, heq, hr.1⟩
    | nullDeref current rest _ _ _ _ _ _ => simp at hr
  | case2 s next hag ih =>
    intro hinv proof v hres hfound
    rw [searchLoop_again hag] at hres
    exact ih (searchIteration_nodeOk ps t start s next hinv hag) proof v hres hfound

theorem nodeOk_start (start : Expr) : NodeOk start ⟨start, 0, []⟩ :=
  ⟨trivial, rfl, rfl⟩

theorem findProof_eq_some (ps : ProofSearch) (start target : Expr) (proof : Proof)
    (ps2 : ProofSearch) (h : findProof ps start target = some (proof, ps2)) :
    ∃ v, searchLoop ps target ⟨[⟨start, 0, []⟩], 0, markVisited [] start⟩ = some (proof, v) := by
  unfold findProof findShortestProof at h
  split at h
  · rename_i p v hloop
    simp at h
    exact ⟨v, by rw [hloop, h.1]⟩
  · simp at h

/-- A proof returned with `found_target` set: its steps form a chain in which every step
replays its law on the expression before it, the chain ends in an expression that equals
the target, it is no longer than `max_depth`, and `total_steps` counts its steps. -/
theorem findProof_found (ps : ProofSearch) (start target : Expr) (proof : Proof)
    (ps2 : ProofSearch) (h : findProof ps start target = some (proof, ps2))
    (hfound : proof.found_target = true) :
    ChainFrom Replays start proof.steps ∧
      (finalExpr start proof.steps).equals target = true ∧
      ((proof.steps.length : Nat) : Int) ≤ ps.max_depth ∧
      proof.total_steps = proof.steps.length := by
  obtain ⟨v, hloop⟩ := findProof_eq_some ps start target proof ps2 h
  obtain ⟨node, ⟨hchain, hfinal, hlen⟩, hdepth, heq, rfl⟩ :=
    searchLoop_found ps target start _
      (by intro n hn; simp at hn; subst hn; exact nodeOk_start start) proof v hloop hfound
  refine ⟨?_, ?_, ?_, ?_⟩
  · exact chainFrom_renumber replays_renumbered start 0 node.path hchain
  · simp only [reconstructProof, finalExpr_renumber, hfinal]
    exact heq
  · simp only [reconstructProof, renumber_length, hlen]
    omega
  · simp [reconstructProof, renumber_length]

theorem findProof_of_rounds (ps : ProofSearch) (start target : Expr) (fuel : Nat)
    (proof : Proof) (v : List String)
    (h : searchRounds ps target fuel ⟨[⟨start, 0, []⟩], 0, markVisited [] start⟩
      = some (some (proof, v))) :
    findProof ps start target = some (proof, ⟨v, ps.max_depth, ps.max_transformations⟩) := by
  unfold findProof findShortestProof
  rw [searchLoop_of_rounds ps target fuel _ _ h]

theorem findProof_none_of_rounds (ps : ProofSearch) (start target : Expr) (fuel : Nat)
    (h : searchRounds ps target fuel ⟨[⟨start, 0, []⟩], 0, markVisited [] start⟩ = some none) :
    findProof ps start target = none := by
  unfold findProof findShortestProof
  rw [searchLoop_of_rounds ps target fuel _ _ h]

/-- When `generateAllTransformations` returns, it contains every rewrite of the
expression by one rule at one position, tagged with the law of the rule. -/
theorem generateAllTransformations_complete (law : LogicLaw) :
    ∀ (e e2 : Expr), RewritesAt law e e2 → ∀ ts, applyLawRecursively e law = some ts →
      ∃ t ∈ ts, t.law = law ∧ t.result = e2 := by
  intro e e2 h
  induction h with
  | @root e e2 hroot =>
    intro ts hts
    have hts2 : withDirectResult e law (applyLawToSubexpressions e law) = some ts := by
      cases e <;> exact hts
    obtain ⟨sub, _, hd | hd⟩ := withDirectResult_some _ _ _ _ hts2
    · obtain ⟨d, hd, rfl⟩ := hd
      rw [hroot] at hd
      cases hd
      exact ⟨⟨law, getLawName law, e2⟩, List.mem_cons_self _ _, rfl, rfl⟩
    · rw [hroot] at hd
      simp at hd
  | @operand a b _ ih =>
    intro ts hts
    obtain ⟨sts, hsts, hin⟩ := applyLawRecursively_not law a ts hts
    obtain ⟨u, hu, hlaw, hres⟩ := ih sts hsts
    exact ⟨_, hin u hu, hlaw, by simp [hres]⟩
  | @left op l l2 r _ ih =>
    intro ts hts
    obtain ⟨lts, rts, hl, _, hinl, _⟩ := applyLawRecursively_binary law op l r ts hts
    obtain ⟨u, hu, hlaw, hres⟩ := ih lts hl
    exact ⟨_, hinl u hu, hlaw, by simp [hres]⟩
  | @right op l r r2 _ ih =>
    intro ts hts
    obtain ⟨lts, rts, _, hr, _, hinr⟩ := applyLawRecursively_binary law op l r ts hts
    obtain ⟨u, hu, hlaw, hres⟩ := ih rts hr
    exact ⟨_, hinr u hu, hlaw, by simp [hres]⟩

/-! ## Breadth-first order: no shorter proof is missed -/

/-- Induction along the rounds of the loop. -/
theorem searchLoop_induction (ps : ProofSearch) (t : Expr) (P : SearchState → Prop)
    (step : ∀ s, (∀ next, searchIteration ps t s = .again next → P next) → P s) :
    ∀ s, P s := by
  intro s
  induction s using searchLoop.induct ps t with
  | case1 s r h => exact step s (fun next hn => by rw [h] at hn; cases hn)
  | case2 s next h ih => exact step s (fun n hn => by rw [h] at hn; cases hn; exact ih)

theorem shouldPrune_of_depth (ps : ProofSearch) (node : ProofSearchNode)
    (h : (node.depth : Int) ≥ ps.max_depth) : shouldPrune ps node = true := by
  simp [shouldPrune, h]

/-- A queue in which every node is deeper than `max_depth`, or at `max_depth` and
different from the target, leads to a proof that is not found. -/
theorem searchLoop_all_deep (ps : ProofSearch) (t : Expr) :
    ∀ s : SearchState,
      (∀ n ∈ s.queue, (n.depth : Int) > ps.max_depth ∨
        ((n.depth : Int) ≥ ps.max_depth ∧ areEquivalent n.expression t = false)) →
      ∃ v, searchLoop ps t s = some (reconstructProof [] false, v) := by
  intro s
  induction s using searchLoop_induction ps t with
  | step s ih =>
    intro hq
    have hc := searchIteration_case ps t s
    cases ho : searchIteration ps t s with
    | finished r =>
      rw [searchLoop_finished ho]
      rw [ho] at hc
      cases hc with
      | empty _ => exact ⟨_, rfl⟩
      | limit _ _ _ _ => exact ⟨_, rfl⟩
      | found current rest hcur _ hdepth heq =>
        rcases hq current (by rw [hcur]; simp) with h | ⟨_, h⟩
        · exact absurd h hdepth
        · rw [heq] at h; cases h
      | nullDeref current rest hcur _ hdepth _ hprune _ =>
        rcases hq current (by rw [hcur]; simp) with h | ⟨h, _⟩
        · exact absurd h hdepth
        · rw [shouldPrune_of_depth ps current h] at hprune; cases hprune
    | again next =>
      rw [searchLoop_again ho]
      rw [ho] at hc
      apply ih next ho
      cases hc with
      | tooDeep current rest hcur _ _ =>
        intro n hn
        exact hq n (by rw [hcur]; exact List.mem_cons_of_mem _ hn)
      | pruned current rest hcur _ _ _ _ =>
        intro n hn
        exact hq n (by rw [hcur]; exact List.mem_cons_of_mem _ hn)
      | expanded current rest expanded_nodes hcur _ hdepth _ hprune _ =>
        rcases hq current (by rw [hcur]; simp) with h | ⟨h, _⟩
        · exact absurd h hdepth
        · rw [shouldPrune_of_depth ps current h] at hprune; cases hprune

theorem reconstructProof_steps_length (path : List ProofStep) (b : Bool) :
    (reconstructProof path b).steps.length = path.length := by
  simp [reconstructProof, renumber_length]

/-- If the search returns a proof of `k` steps, no node with a path of `k - 1` steps at
the front of the queue equals the target. -/
theorem searchLoop_prefix_not_target (ps : ProofSearch) (t : Expr) (k : Nat) :
    ∀ (xs ys : List ProofSearchNode) (c : Nat) (v : List String),
      (∀ x ∈ xs, x.path.length + 1 = k ∧ ¬ ((x.depth : Int) > ps.max_depth)) →
      ∀ (proof : Proof) (v2 : List String),
        searchLoop ps t ⟨xs ++ ys, c, v⟩ = some (proof, v2) →
        proof.found_target = true → proof.steps.length = k →
        ∀ x ∈ xs, areEquivalent x.expression t = false := by
  intro xs
  induction xs with
  | nil => intro ys c v _ proof v2 _ _ _ x hx; cases hx
  | cons x0 xs ih =>
    intro ys c v hxs proof v2 hloop hfound hlen
    have hc := searchIteration_case ps t ⟨(x0 :: xs) ++ ys, c, v⟩
    have hx0 := hxs x0 (by simp)
    have htail : ∀ x ∈ xs, x.path.length + 1 = k ∧ ¬ ((x.depth : Int) > ps.max_depth) :=
      fun x hx => hxs x (List.mem_cons_of_mem _ hx)
    cases ho : searchIteration ps t ⟨(x0 :: xs) ++ ys, c, v⟩ with
    | finished r =>
      rw [searchLoop_finished ho] at hloop
      subst hloop
      rw [ho] at hc
      generalize hr : (some (proof, v2) : Option (Proof × List String)) = r at hc
      cases hc with
      | empty hq => simp at hq
      | limit _ _ _ _ =>
        simp at hr
        rw [hr.1] at hfound
        simp [reconstructProof] at hfound
      | found current rest hq _ _ _ =>
        simp at hr
        simp at hq
        rw [hr.1, reconstructProof_steps_length, ← hq.1] at hlen
        omega
      | nullDeref _ _ _ _ _ _ _ _ => simp at hr
    | again next =>
      rw [searchLoop_again ho] at hloop
      rw [ho] at hc
      cases hc with
      | tooDeep current rest hq _ hdepth =>
        simp at hq
        rw [← hq.1] at hdepth
        exact absurd hdepth hx0.2
      | pruned current rest hq _ _ heq _ =>
        simp at hq
        obtain ⟨rfl, rfl⟩ := hq
        have hrest := ih ys c v htail proof v2 hloop hfound hlen
        intro x hx
        rcases List.mem_cons.1 hx with rfl | hx
        · exact heq
        · exact hrest x hx
      | expanded current rest expanded_nodes hq _ _ heq _ _ =>
        simp at hq
        obtain ⟨rfl, rfl⟩ := hq
        obtain ⟨added, hadd, _⟩ := enqueueUnvisited_queue expanded_nodes (xs ++ ys) v
        simp only [hadd, List.append_assoc] at hloop
        have hrest := ih (ys ++ added) _ _ htail proof v2 hloop hfound hlen
        intro x hx
        rcases List.mem_cons.1 hx with rfl | hx
        · exact heq
        · exact hrest x hx

/-- The last phase of the comparison: the queue holds nodes of depth `k - 1` followed by
nodes of depth `k`. If the search with the larger depth limit returns a proof of `k`
steps from here, the search with `max_depth = k - 1` returns without a proof. -/
theorem shallow_run_fails (psA psB : ProofSearch) (t : Expr) (k : Nat)
    (hB : psB.max_depth = (k : Int) - 1) (hk : (k : Int) ≤ psA.max_depth)
    (xs ys : List ProofSearchNode) (c : Nat) (v : List String)
    (hxs : ∀ x ∈ xs, x.depth + 1 = k ∧ x.path.length = x.depth)
    (hys : ∀ y ∈ ys, y.depth = k)
    (proof : Proof) (v2 : List String)
    (hA : searchLoop psA t ⟨xs ++ ys, c, v⟩ = some (proof, v2))
    (hfound : proof.found_target = true) (hlen : proof.steps.length = k) :
    ∃ v3, searchLoop psB t ⟨xs ++ ys, c, v⟩ = some (reconstructProof [] false, v3) := by
  have hne := searchLoop_prefix_not_target psA t k xs ys c v
    (fun x hx => ⟨by rw [(hxs x hx).2]; exact (hxs x hx).1, by have := (hxs x hx).1; omega⟩)
    proof v2 hA hfound hlen
  apply searchLoop_all_deep
  intro n hn
  rcases List.mem_append.1 hn with hn | hn
  · right
    exact ⟨by have := (hxs n hn).1; omega, hne n hn⟩
  · left
    have := hys n hn
    omega

/-- Two searches that differ only in `max_depth` take the same round when the front
node is below both depth limits. -/
theorem searchIteration_congr (psA psB : ProofSearch) (t : Expr) (s : SearchState)
    (hM : psB.max_transformations = psA.max_transformations)
    (front : ProofSearchNode) (rest : List ProofSearchNode) (hq : s.queue = front :: rest)
    (hA : (front.depth : Int) < psA.max_depth) (hB : (front.depth : Int) < psB.max_depth) :
    searchIteration psA t s = searchIteration psB t s := by
  have h1 : ¬ ((front.depth : Int) > psA.max_depth) := by omega
  have h2 : ¬ ((front.depth : Int) > psB.max_depth) := by omega
  have h3 : shouldPrune psA front = shouldPrune psB front := by
    have h4 : ¬ ((front.depth : Int) ≥ psA.max_depth) := by omega
    have h5 : ¬ ((front.depth : Int) ≥ psB.max_depth) := by omega
    simp only [shouldPrune, if_neg h4, if_neg h5]
  unfold searchIteration
  rw [hq]
  simp only [hM, if_neg h1, if_neg h2, h3]

theorem layered_after (k : Nat) (front : ProofSearchNode) (xs ys added : List ProofSearchNode)
    (hfront : front.depth + 1 < k)
    (hxs : ∀ x ∈ xs, x.depth = front.depth) (hys : ∀ y ∈ ys, y.depth = front.depth + 1)
    (hadd : ∀ y ∈ added, y.depth = front.depth + 1) :
    Layered k (xs ++ (ys ++ added)) := by
  have hboth : ∀ y ∈ ys ++ added, y.depth = front.depth + 1 := by
    intro y hy
    rcases List.mem_append.1 hy with hy | hy
    · exact hys y hy
    · exact hadd y hy
  cases xs with
  | nil =>
    simp only [List.nil_append]
    cases hz : ys ++ added with
    | nil => trivial
    | cons y zs =>
      rw [hz] at hboth
      have hy := hboth y (by simp)
      refine ⟨by omega, zs, [], by simp, ?_, by simp⟩
      intro x hx
      rw [hboth x (List.mem_cons_of_mem _ hx), hy]
  | cons x xs2 =>
    have hx := hxs x (by simp)
    refine ⟨by omega, ?_⟩
    refine ⟨xs2, ys ++ added, rfl, ?_, ?_⟩
    · intro z hz
      rw [hxs z (List.mem_cons_of_mem _ hz), hx]
    · intro z hz
      rw [hboth z hz, hx]

/-- The comparison of the two searches from a layered queue: while the front node is
shallower than `k - 1` both take the same rounds, and from depth `k - 1` on the search
with `max_depth = k - 1` finds nothing. -/
theorem searchLoop_shorter_fails (psA psB : ProofSearch) (t : Expr) (k : Nat)
    (hM : psB.max_transformations = psA.max_transformations)
    (hB : psB.max_depth = (k : Int) - 1) (hk : (k : Int) ≤ psA.max_depth) :
    ∀ s : SearchState, Layered k s.queue → (∀ n ∈ s.queue, n.path.length = n.depth) →
      ∀ (proof : Proof) (v : List String), searchLoop psA t s = some (proof, v) →
        proof.found_target = true → proof.steps.length = k →
        ∃ v2, searchLoop psB t s = some (reconstructProof [] false, v2) := by
  intro s
  induction s using searchLoop_induction psA t with
  | step s ih =>
    intro hlay hpath proof v hA hfound hlen
    obtain ⟨queue, c, vis⟩ := s
    cases queue with
    | nil =>
      exact searchLoop_all_deep psB t _ (by intro n hn; cases hn)
    | cons front rest =>
      obtain ⟨hfront, xs, ys, rfl, hxs, hys⟩ := hlay
      by_cases hlast : front.depth + 1 = k
      · have := shallow_run_fails psA psB t k hB hk (front :: xs) ys c vis
          (by
            intro x hx
            rcases List.mem_cons.1 hx with rfl | hx
            · exact ⟨hlast, hpath _ (by simp)⟩
            · exact ⟨by rw [hxs x hx]; exact hlast, hpath x (by simp [hx])⟩)
          (by intro y hy; rw [hys y hy]; exact hlast)
          proof v (by simpa using hA) hfound hlen
        simpa using this
      · have hlt : front.depth + 1 < k := by omega
        have hcongr := searchIteration_congr psA psB t ⟨front :: (xs ++ ys), c, vis⟩ hM
          front (xs ++ ys) rfl (by omega) (by omega)
        have hc := searchIteration_case psA t ⟨front :: (xs ++ ys), c, vis⟩
        cases ho : searchIteration psA t ⟨front :: (xs ++ ys), c, vis⟩ with
        | finished r =>
          rw [searchLoop_finished ho] at hA
          subst hA
          rw [ho] at hc
          generalize hr : (some (proof, v) : Option (Proof × List String)) = r at hc
          cases hc with
          | empty hq => simp at hq
          | limit _ _ _ _ =>
            simp at hr
            rw [hr.1] at hfound
            simp [reconstructProof] at hfound
          | found current rest2 hq _ _ _ =>
            simp at hr
            simp at hq
            have := hpath front (by simp)
            rw [hr.1, reconstructProof_steps_length, ← hq.1, this] at hlen
            omega
          | nullDeref _ _ _ _ _ _ _ _ => simp at hr
        | again next =>
          rw [searchLoop_again ho] at hA
          rw [searchLoop_again (hcongr ▸ ho)]
          rw [ho] at hc
          refine ih next ho ?_ ?_ proof v hA hfound hlen
          · cases hc with
            | tooDeep current rest2 hq _ _ =>
              simp at hq
              obtain ⟨rfl, rfl⟩ := hq
              have := layered_after k front xs ys [] hlt hxs hys (by simp)
              simpa using this
            | pruned current rest2 hq _ _ _ _ =>
              simp at hq
              obtain ⟨rfl, rfl⟩ := hq
              have := layered_after k front xs ys [] hlt hxs hys (by simp)
              simpa using this
            | expanded current rest2 expanded_nodes hq _ _ _ _ hexp =>
              simp at hq
              obtain ⟨rfl, rfl⟩ := hq
              obtain ⟨added, hadd, hsub⟩ := enqueueUnvisited_queue expanded_nodes (xs ++ ys) vis
              dsimp only
              rw [hadd, List.append_assoc]
              apply layered_after k front xs ys added hlt hxs hys
              intro y hy
              obtain ⟨step, rfl, _⟩ := expandNode_successor front expanded_nodes hexp y (hsub y hy)
              rfl
          · cases hc with
            | tooDeep current rest2 hq _ _ =>
              simp at hq
              obtain ⟨rfl, rfl⟩ := hq
              intro n hn
              exact hpath n (List.mem_cons_of_mem _ hn)
            | pruned current rest2 hq _ _ _ _ =>
              simp at hq
              obtain ⟨rfl, rfl⟩ := hq
              intro n hn
              exact hpath n (List.mem_cons_of_mem _ hn)
            | expanded current rest2 expanded_nodes hq _ _ _ _ hexp =>
              simp at hq
              obtain ⟨rfl, rfl⟩ := hq
              obtain ⟨added, hadd, hsub⟩ := enqueueUnvisited_queue expanded_nodes (xs ++ ys) vis
              dsimp only
              rw [hadd]
              intro n hn
              rcases List.mem_append.1 hn with hn | hn
              · exact hpath n (List.mem_cons_of_mem _ hn)
              · obtain ⟨step, rfl, _⟩ :=
                  expandNode_successor front expanded_nodes hexp n (hsub n hn)
                simp [hpath front (by simp)]

/-! ## Size of an expansion -/

theorem applyLawRecursively_length_le (law : LogicLaw) :
    ∀ (e : Expr) (ts : List Transformation), applyLawRecursively e law = some ts →
      ts.length ≤ e.nodeCount := by
  intro e
  induction e with
  | var n =>
    intro ts h
    simp only [applyLawRecursively] at h
    obtain ⟨sub, hsub, hd | hd⟩ := withDirectResult_some _ _ _ _ h
    · obtain ⟨d, _, rfl⟩ := hd
      simp at hsub; subst hsub; simp [Expr.nodeCount]
    · obtain ⟨_, rfl⟩ := hd
      simp at hsub; subst hsub; simp
  | const v =>
    intro ts h
    simp only [applyLawRecursively] at h
    obtain ⟨sub, hsub, hd | hd⟩ := withDirectResult_some _ _ _ _ h
    · obtain ⟨d, _, rfl⟩ := hd
      simp at hsub; subst hsub; simp [Expr.nodeCount]
    · obtain ⟨_, rfl⟩ := hd
      simp at hsub; subst hsub; simp
  | not a ih =>
    intro ts h
    simp only [applyLawRecursively] at h
    obtain ⟨sub, hsub, hd⟩ := withDirectResult_some _ _ _ _ h
    have hlen : sub.length ≤ a.nodeCount := by
      unfold wrapOperand at hsub
      split at hsub
      · rename_i sts hsts
        simp at hsub; subst hsub
        simpa using ih sts hsts
      · simp at hsub
    rcases hd with ⟨d, _, rfl⟩ | ⟨_, rfl⟩
    · simp only [List.length_cons, Expr.nodeCount]; omega
    · simp only [Expr.nodeCount]; omega
  | binary op l r ihl ihr =>
    intro ts h
    simp only [applyLawRecursively] at h
    obtain ⟨sub, hsub, hd⟩ := withDirectResult_some _ _ _ _ h
    have hlen : sub.length ≤ l.nodeCount + r.nodeCount := by
      unfold wrapChildren at hsub
      split at hsub
      · rename_i lts rts hl hr
        obtain ⟨rfl, _⟩ := combineBinary_some op l r lts rts sub hsub
        have h1 := ihl lts hl
        have h2 := ihr rts hr
        simp only [List.length_append, List.length_map]
        omega
      · simp at hsub
    rcases hd with ⟨d, _, rfl⟩ | ⟨_, rfl⟩
    · simp only [List.length_cons, Expr.nodeCount]; omega
    · simp only [Expr.nodeCount]; omega

theorem generateForLaws_length_le (e : Expr) :
    ∀ (laws : List LogicLaw) (ts : List Transformation), generateForLaws e laws = some ts →
      ts.length ≤ laws.length * e.nodeCount := by
  intro laws
  induction laws with
  | nil => intro ts h; simp [generateForLaws] at h; subst h; simp
  | cons law rest ih =>
    intro ts h
    simp only [generateForLaws] at h
    split at h
    · rename_i lts hlts
      split at h
      · rename_i out hout
        simp at h; subst h
        have h1 := applyLawRecursively_length_le law e lts hlts
        have h2 := ih out hout
        simp only [List.length_append, List.length_cons, Nat.add_mul, Nat.one_mul]
        omega
      · simp at h
    · simp at h

theorem generateAllTransformations_length_le (e : Expr) (ts : List Transformation)
    (h : generateAllTransformations e = some ts) : ts.length ≤ 21 * e.nodeCount :=
  generateForLaws_length_le e all_laws ts h

/-- An expansion has at most 42 successors per node of the expanded expression. -/
theorem expandNode_length_le (node : ProofSearchNode) (nodes : List ProofSearchNode)
    (h : expandNode node = some nodes) : nodes.length ≤ 42 * node.expression.nodeCount := by
  obtain ⟨e, d, path⟩ := node
  unfold expandNode at h
  simp only [] at h
  split at h
  · simp at h
  · rename_i ts hts
    have hw := generateAllTransformations_length_le e ts hts
    cases e with
    | var name => simp at h; subst h; simp only [List.length_map]; omega
    | const value => simp at h; subst h; simp only [List.length_map]; omega
    | not operand =>
      simp only [] at h
      split at h
      · simp at h
      · rename_i ots hots
        have ho := generateAllTransformations_length_le operand ots hots
        simp at h; subst h
        simp only [List.length_append, List.length_map, Expr.nodeCount] at hw ⊢
        omega
    | binary op l r =>
      simp only [] at h
      split at h
      · simp at h
      · rename_i lts0 hlts0
        split at h
        · simp at h
        · rename_i rts0 hrts0
          have hl := generateAllTransformations_length_le l lts0 hlts0
          have hr := generateAllTransformations_length_le r rts0 hrts0
          simp at h; subst h
          simp only [List.length_append, List.length_map, Expr.nodeCount] at hw ⊢
          omega

theorem binOp_text_length (op : BinOp) : 3 ≤ op.text.length := by
  cases op <;> decide

/-- An expression has at most one node more than its text has characters. -/
theorem nodeCount_le_text (e : Expr) : e.nodeCount ≤ e.toString.length + 1 := by
  induction e with
  | var n => simp [Expr.nodeCount]
  | const v => simp [Expr.nodeCount]
  | not a ih =>
    have h1 : "!".length = 1 := by decide
    simp only [Expr.nodeCount, Expr.toString, String.length_append, h1]
    omega
  | binary op l r ihl ihr =>
    have := binOp_text_length op
    have h1 : "(".length = 1 := by decide
    have h2 : ")".length = 1 := by decide
    simp only [Expr.nodeCount, Expr.toString, String.length_append, h1, h2]
    omega

theorem expandNode_length_lt (node : ProofSearchNode) (nodes : List ProofSearchNode)
    (h : expandNode node = some nodes) (hlen : node.expression.toString.length ≤ 200) :
    nodes.length < 10000 := by
  have h1 := expandNode_length_le node nodes h
  have h2 := nodeCount_le_text node.expression
  omega

/-! ## Reaching `max_transformations` -/

/-- When `exhausts` holds of the front of the queue, the search returns without a
proof. -/
theorem exhausts_sound (ps : ProofSearch) (t : Expr) :
    ∀ (xs : List ProofSearchNode) (c : Nat), exhausts ps t xs c = true →
      ∀ (ys : List ProofSearchNode) (v : List String),
        ∃ v2, searchLoop ps t ⟨xs ++ ys, c, v⟩ = some (reconstructProof [] false, v2) := by
  intro xs
  induction xs with
  | nil =>
    intro c hex ys v
    simp only [exhausts, decide_eq_true_eq] at hex
    have hc := searchIteration_case ps t ⟨[] ++ ys, c, v⟩
    cases ho : searchIteration ps t ⟨[] ++ ys, c, v⟩ with
    | finished r =>
      rw [searchLoop_finished ho]
      rw [ho] at hc
      cases hc with
      | empty _ => exact ⟨_, rfl⟩
      | limit _ _ _ _ => exact ⟨_, rfl⟩
      | found _ _ _ hlt _ _ => exact absurd hlt hex
      | nullDeref _ _ _ hlt _ _ _ _ => exact absurd hlt hex
    | again next =>
      rw [ho] at hc
      cases hc with
      | tooDeep _ _ _ hlt _ => exact absurd hlt hex
      | pruned _ _ _ hlt _ _ _ => exact absurd hlt hex
      | expanded _ _ _ _ hlt _ _ _ _ => exact absurd hlt hex
  | cons x xs ih =>
    intro c hex ys v
    have hc := searchIteration_case ps t ⟨(x :: xs) ++ ys, c, v⟩
    cases ho : searchIteration ps t ⟨(x :: xs) ++ ys, c, v⟩ with
    | finished r =>
      rw [searchLoop_finished ho]
      rw [ho] at hc
      cases hc with
      | empty hq => simp at hq
      | limit _ _ _ _ => exact ⟨_, rfl⟩
      | found current rest hq hlt hdepth heq =>
        simp at hq
        obtain ⟨rfl, rfl⟩ := hq
        simp only [exhausts, not_not.2 hlt, hdepth, heq] at hex
        simp at hex
      | nullDeref current rest hq hlt hdepth heq hprune hexp =>
        simp at hq
        obtain ⟨rfl, rfl⟩ := hq
        simp only [exhausts, not_not.2 hlt, hdepth, heq, hprune, hexp] at hex
        simp at hex
    | again next =>
      rw [searchLoop_again ho]
      rw [ho] at hc
      cases hc with
      | tooDeep current rest hq hlt hdepth =>
        simp at hq
        obtain ⟨rfl, rfl⟩ := hq
        simp only [exhausts, not_not.2 hlt, hdepth] at hex
        simp at hex
        exact ih c hex ys v
      | pruned current rest hq hlt hdepth heq hprune =>
        simp at hq
        obtain ⟨rfl, rfl⟩ := hq
        simp only [exhausts, not_not.2 hlt, hdepth, heq, hprune] at hex
        simp at hex
        exact ih c hex ys v
      | expanded current rest expanded_nodes hq hlt hdepth heq hprune hexp =>
        simp at hq
        obtain ⟨rfl, rfl⟩ := hq
        simp only [exhausts, not_not.2 hlt, hdepth, heq, hprune, hexp] at hex
        simp at hex
        obtain ⟨added, hadd, _⟩ := enqueueUnvisited_queue expanded_nodes (xs ++ ys) v
        dsimp only
        rw [hadd, List.append_assoc]
        exact ih _ hex (ys ++ added) _

/-- The first round of a search whose start does not equal the target and is not
pruned: the start is expanded and its successors are queued. -/
theorem first_round (ps : ProofSearch) (start target : Expr) (nodes : List ProofSearchNode)
    (hM : 0 < ps.max_transformations) (hD : 0 < ps.max_depth)
    (hne : areEquivalent start target = false) (hlen : start.toString.length ≤ 200)
    (hexp : expandNode ⟨start, 0, []⟩ = some nodes) :
    searchIteration ps target ⟨[⟨start, 0, []⟩], 0, markVisited [] start⟩
      = .again ⟨(enqueueUnvisited nodes [] (markVisited [] start)).1, nodes.length,
          (enqueueUnvisited nodes [] (markVisited [] start)).2⟩ := by
  have h1 : ¬ ((0 : Int) > ps.max_depth) := by omega
  have h2 : ¬ ((0 : Int) ≥ ps.max_depth) := by omega
  have h3 : ¬ (start.toString.length > 200) := by omega
  simp [searchIteration, hM, h1, hne, shouldPrune, h2, h3, expressionToString, hexp]

/-- If the successors queued in the first round exhaust `max_transformations` before
one that equals the target is dequeued, `findProof` returns without a proof. -/
theorem findProof_of_exhausts (ps : ProofSearch) (start target : Expr)
    (nodes : List ProofSearchNode)
    (hM : 0 < ps.max_transformations) (hD : 0 < ps.max_depth)
    (hne : areEquivalent start target = false) (hlen : start.toString.length ≤ 200)
    (hexp : expandNode ⟨start, 0, []⟩ = some nodes)
    (hex : exhausts ps target (enqueueUnvisited nodes [] (markVisited [] start)).1
      nodes.length = true) :
    ∃ ps2, findProof ps start target = some (⟨[], false, 0⟩, ps2) := by
  have hround := first_round ps start target nodes hM hD hne hlen hexp
  obtain ⟨v2, hloop⟩ := exhausts_sound ps target _ _ hex []
    (enqueueUnvisited nodes [] (markVisited [] start)).2
  rw [List.append_nil] at hloop
  refine ⟨⟨v2, ps.max_depth, ps.max_transformations⟩, ?_⟩
  unfold findProof findShortestProof
  rw [searchLoop_again hround, hloop]
  rfl

/-- A successor queued first that equals the target is returned as a one-step proof. -/
theorem findProof_first_queued (ps : ProofSearch) (start target : Expr)
    (nodes : List ProofSearchNode) (first : ProofSearchNode) (rest : List ProofSearchNode)
    (hM : (nodes.length : Int) < ps.max_transformations) (hD : 0 < ps.max_depth)
    (hne : areEquivalent start target = false) (hlen : start.toString.length ≤ 200)
    (hexp : expandNode ⟨start, 0, []⟩ = some nodes)
    (hq : (enqueueUnvisited nodes [] (markVisited [] start)).1 = first :: rest)
    (heq : areEquivalent first.expression target = true) :
    ∃ (step : ProofStep) (ps2 : ProofSearch),
      first = ⟨step.expression, 1, [step]⟩ ∧ Replays start step ∧
      findProof ps start target
        = some (⟨[⟨step.expression, step.law_applied, step.description, 1⟩], true, 1⟩, ps2) := by
  have hround := first_round ps start target nodes (by omega) hD hne hlen hexp
  obtain ⟨added, hadd, hsub⟩ := enqueueUnvisited_queue nodes [] (markVisited [] start)
  have hmem : first ∈ nodes := by
    apply hsub
    rw [hq] at hadd
    simp at hadd
    rw [← hadd]
    simp
  obtain ⟨step, hfirst, hrep⟩ := expandNode_successor ⟨start, 0, []⟩ nodes hexp first hmem
  simp only [Nat.zero_add, List.nil_append] at hfirst
  have hit : searchIteration ps target
      ⟨(enqueueUnvisited nodes [] (markVisited [] start)).1, nodes.length,
        (enqueueUnvisited nodes [] (markVisited [] start)).2⟩
      = .finished (some (reconstructProof first.path true,
          (enqueueUnvisited nodes [] (markVisited [] start)).2)) := by
    have h1 : ¬ (((first.depth : Nat) : Int) > ps.max_depth) := by
      rw [hfirst]; simp only; omega
    unfold searchIteration
    rw [hq]
    simp only [not_not.2 hM, h1, heq, if_true, if_false, not_true_eq_false]
  refine ⟨step, ⟨(enqueueUnvisited nodes [] (markVisited [] start)).2, ps.max_depth,
    ps.max_transformations⟩, hfirst, hrep, ?_⟩
  unfold findProof findShortestProof
  rw [searchLoop_again hround, searchLoop_finished hit, hfirst]
  rfl

theorem firstQueue_eq (start : Expr) (nodes : List ProofSearchNode)
    (hexp : expandNode ⟨start, 0, []⟩ = some nodes) :
    firstQueue start = (enqueueUnvisited nodes [] (markVisited [] start)).1 := by
  unfold firstQueue
  rw [hexp]

/-- The run of `findProof` read off the expansion of the start and `exhausts`: if the
start has at most 200 characters and does not equal the target, its expansion returns
`count` successors, and the queued ones exhaust `max_transformations`, then `findProof`
returns without a proof, although `hasTarget` records whether a successor equals the
target. -/
theorem findProof_limit (ps : ProofSearch) (start target : Expr) (count : Nat)
    (hM : 0 < ps.max_transformations) (hD : 0 < ps.max_depth)
    (hne : areEquivalent start target = false) (hlen : start.toString.length ≤ 200)
    (hcount : (expandNode ⟨start, 0, []⟩).map List.length = some count)
    (hany : (expandNode ⟨start, 0, []⟩).map
      (fun ns => ns.any (fun n => areEquivalent n.expression target)) = some true)
    (hex : exhausts ps target (firstQueue start) count = true) :
    (∃ nodes, expandNode ⟨start, 0, []⟩ = some nodes ∧
        ∃ n ∈ nodes, areEquivalent n.expression target = true) ∧
      ∃ ps2, findProof ps start target = some (⟨[], false, 0⟩, ps2) := by
  cases hexp : expandNode ⟨start, 0, []⟩ with
  | none => rw [hexp] at hcount; simp at hcount
  | some nodes =>
    rw [hexp] at hcount hany
    simp only [Option.map_some', Option.some.injEq] at hcount hany
    refine ⟨⟨nodes, rfl, by simpa using hany⟩, ?_⟩
    rw [firstQueue_eq start nodes hexp, ← hcount] at hex
    exact findProof_of_exhausts ps start target nodes hM hD hne hlen hexp hex

theorem applyLawToNode_vars (law : LogicLaw) (e e2 : Expr)
    (h : applyLawToNode e law = some e2) : ∀ v, v ∈ e2.vars → v ∈ e.vars := by
  intro v hv
  cases law <;> simp only [applyLawToNode] at h
  all_goals
    first
    | unfold applyDoubleNegation at h
    | unfold applyDeMorganAnd at h
    | unfold applyDeMorganOr at h
    | unfold applyDistributiveAndOverOr at h
    | unfold applyDistributiveOrOverAnd at h
    | unfold applyAbsorptionAnd at h
    | unfold applyAbsorptionOr at h
    | unfold applyIdentityAnd at h
    | unfold applyIdentityOr at h
    | unfold applyAnnihilationAnd at h
    | unfold applyAnnihilationOr at h
    | unfold applyComplementAnd at h
    | unfold applyComplementOr at h
    | unfold applyIdempotentAnd at h
    | unfold applyIdempotentOr at h
    | unfold applyCommutativeAnd at h
    | unfold applyCommutativeOr at h
    | unfold applyAssociativeAnd at h
    | unfold applyAssociativeOr at h
    | unfold applyImplicationElimination at h
    | unfold applyBiconditionalElimination at h
  all_goals repeat' split at h
  all_goals
    first
    | (simp at h; done)
    | (simp only [Option.some.injEq] at h
       subst h
       simp only [Expr.vars, createOr, createAnd, createNegation, List.mem_append,
         List.not_mem_nil] at hv ⊢
       try tauto)

theorem equals_nodeCount : ∀ a b : Expr, a.equals b = true → a.nodeCount = b.nodeCount := by
  intro a
  induction a with
  | var n => intro b h; rw [(equals_var_iff n b).1 h]
  | const v => intro b h; rw [(equals_const_iff v b).1 h]
  | not a ih =>
    intro b h
    obtain ⟨c, rfl, hc⟩ := (equals_not_iff a b).1 h
    simp [Expr.nodeCount, ih c hc]
  | binary op l r ihl ihr =>
    intro b h
    obtain ⟨l2, r2, rfl, h2⟩ := (equals_binary_iff op l r b).1 h
    rcases h2 with ⟨h1, h2⟩ | ⟨_, h1, h2⟩
    · simp [Expr.nodeCount, ihl l2 h1, ihr r2 h2]
    · simp only [Expr.nodeCount, ihl r2 h1, ihr l2 h2]; omega

theorem equals_symm : ∀ a b : Expr, a.equals b = true → b.equals a = true := by
  intro a
  induction a with
  | var n => intro b h; rw [(equals_var_iff n b).1 h]; exact equals_refl _
  | const v => intro b h; rw [(equals_const_iff v b).1 h]; exact equals_refl _
  | not a ih =>
    intro b h
    obtain ⟨c, rfl, hc⟩ := (equals_not_iff a b).1 h
    rw [equals_not_iff]; exact ⟨a, rfl, ih c hc⟩
  | binary op l r ihl ihr =>
    intro b h
    obtain ⟨l2, r2, rfl, h2⟩ := (equals_binary_iff op l r b).1 h
    rw [equals_binary_iff]
    rcases h2 with ⟨h1, h2⟩ | ⟨hop, h1, h2⟩
    · exact ⟨l, r, rfl, Or.inl ⟨ihl l2 h1, ihr r2 h2⟩⟩
    · exact ⟨l, r, rfl, Or.inr ⟨hop, ihr l2 h2, ihl r2 h1⟩⟩

theorem equals_trans : ∀ a b c : Expr, a.equals b = true → b.equals c = true →
    a.equals c = true := by
  intro a
  induction a with
  | var n => intro b c h1 h2; rw [(equals_var_iff n b).1 h1] at h2; exact h2
  | const v => intro b c h1 h2; rw [(equals_const_iff v b).1 h1] at h2; exact h2
  | not a ih =>
    intro b c h1 h2
    obtain ⟨b2, rfl, hb⟩ := (equals_not_iff a b).1 h1
    obtain ⟨c2, rfl, hc⟩ := (equals_not_iff b2 c).1 h2
    rw [equals_not_iff]; exact ⟨c2, rfl, ih b2 c2 hb hc⟩
  | binary op l r ihl ihr =>
    intro b c h1 h2
    obtain ⟨l2, r2, rfl, hb⟩ := (equals_binary_iff op l r b).1 h1
    obtain ⟨l3, r3, rfl, hc⟩ := (equals_binary_iff op l2 r2 c).1 h2
    rw [equals_binary_iff]
    refine ⟨l3, r3, rfl, ?_⟩
    rcases hb with ⟨b1, b2⟩ | ⟨hop, b1, b2⟩ <;> rcases hc with ⟨c1, c2⟩ | ⟨hop2, c1, c2⟩
    · exact Or.inl ⟨ihl _ _ b1 c1, ihr _ _ b2 c2⟩
    · exact Or.inr ⟨hop2, ihl _ _ b1 c1, ihr _ _ b2 c2⟩
    · exact Or.inr ⟨hop, ihl _ _ b1 c2, ihr _ _ b2 c1⟩
    · exact Or.inl ⟨ihl _ _ b1 c2, ihr _ _ b2 c1⟩

theorem isConstantTrue_iff (e : Expr) : isConstantTrue e = true ↔ e = .const true := by
  cases e <;> simp [isConstantTrue]

theorem isConstantFalse_iff (e : Expr) : isConstantFalse e = true ↔ e = .const false := by
  cases e <;> simp [isConstantFalse]

theorem absorbRight_iff (inner : BinOp) (a b : Expr) :
    absorbRight inner a b = true ↔
      ∃ c d, b = .binary inner c d ∧ (a.equals c = true ∨ a.equals d = true) := by
  cases b with
  | binary op c d =>
    simp only [absorbRight, Bool.and_eq_true, decide_eq_true_eq, Bool.or_eq_true,
      Expr.binary.injEq]
    constructor
    · rintro ⟨rfl, h⟩; exact ⟨c, d, ⟨rfl, rfl, rfl⟩, h⟩
    · rintro ⟨c2, d2, ⟨rfl, rfl, rfl⟩, h⟩; exact ⟨rfl, h⟩
  | _ => simp [absorbRight]

theorem absorbLeft_iff (inner : BinOp) (a b : Expr) :
    absorbLeft inner a b = true ↔
      ∃ c d, a = .binary inner c d ∧ (b.equals c = true ∨ b.equals d = true) := by
  cases a with
  | binary op c d =>
    simp only [absorbLeft, Bool.and_eq_true, decide_eq_true_eq, Bool.or_eq_true,
      Expr.binary.injEq]
    constructor
    · rintro ⟨rfl, h⟩; exact ⟨c, d, ⟨rfl, rfl, rfl⟩, h⟩
    · rintro ⟨c2, d2, ⟨rfl, rfl, rfl⟩, h⟩; exact ⟨rfl, h⟩
  | _ => simp [absorbLeft]

/-- The two tests of an absorption rule cannot both succeed: a child would have to
equal a proper part of the other child, and conversely. -/
theorem absorb_exclusive (inner : BinOp) (a b : Expr) (h1 : absorbRight inner a b = true)
    (h2 : absorbLeft inner a b = true) : False := by
  obtain ⟨c, d, rfl, hr⟩ := (absorbRight_iff inner a _).1 h1
  obtain ⟨c2, d2, rfl, hl⟩ := (absorbLeft_iff inner _ _).1 h2
  have e1 : (Expr.binary inner c2 d2).nodeCount = c.nodeCount ∨
      (Expr.binary inner c2 d2).nodeCount = d.nodeCount :=
    hr.imp (equals_nodeCount _ _) (equals_nodeCount _ _)
  have e2 : (Expr.binary inner c d).nodeCount = c2.nodeCount ∨
      (Expr.binary inner c d).nodeCount = d2.nodeCount :=
    hl.imp (equals_nodeCount _ _) (equals_nodeCount _ _)
  simp only [Expr.nodeCount] at e1 e2
  omega

theorem negationOf_iff (a b : Expr) :
    negationOf a b = true ↔ ∃ c, a = .not c ∧ c.equals b = true := by
  cases a <;> simp [negationOf]

theorem applyAbsorption_iff (inner : BinOp) (a b r : Expr) :
    (if absorbRight inner a b then some a
      else if absorbLeft inner a b then some b else none) = some r ↔
      ((∃ c d, b = .binary inner c d ∧ (a.equals c = true ∨ a.equals d = true) ∧ r = a) ∨
        (∃ c d, a = .binary inner c d ∧ (b.equals c = true ∨ b.equals d = true) ∧ r = b)) := by
  constructor
  · intro h
    by_cases h1 : absorbRight inner a b = true
    · rw [if_pos h1] at h
      obtain ⟨c, d, hb, hc⟩ := (absorbRight_iff inner a b).1 h1
      exact Or.inl ⟨c, d, hb, hc, (Option.some.inj h).symm⟩
    · rw [if_neg h1] at h
      by_cases h2 : absorbLeft inner a b = true
      · rw [if_pos h2] at h
        obtain ⟨c, d, hb, hc⟩ := (absorbLeft_iff inner a b).1 h2
        exact Or.inr ⟨c, d, hb, hc, (Option.some.inj h).symm⟩
      · rw [if_neg h2] at h; exact absurd h (by simp)
  · rintro (⟨c, d, hb, hc, rfl⟩ | ⟨c, d, ha, hc, rfl⟩)
    · rw [if_pos ((absorbRight_iff inner r b).2 ⟨c, d, hb, hc⟩)]
    · have h2 : absorbLeft inner a r = true := (absorbLeft_iff inner a r).2 ⟨c, d, ha, hc⟩
      have h1 : ¬ absorbRight inner a r = true := fun h1 => absorb_exclusive inner a r h1 h2
      rw [if_neg h1, if_pos h2]

/-- When both children of a binary node have rewrites by the law, the cross-product loop
of the binary branch reads moved-out results, and `applyLawRecursively` has no result. -/
theorem applyLawRecursively_cross_none (op : BinOp) (l r : Expr) (law : LogicLaw)
    (lts rts : List Transformation) (hl : applyLawRecursively l law = some lts)
    (hr : applyLawRecursively r law = some rts) (hlne : lts ≠ []) (hrne : rts ≠ []) :
    applyLawRecursively (.binary op l r) law = none := by
  cases h : applyLawRecursively (.binary op l r) law with
  | none => rfl
  | some out =>
    exfalso
    rw [applyLawRecursively, hl, hr] at h
    simp only [wrapChildren] at h
    cases hc : combineBinary op l r lts rts with
    | none => rw [hc] at h; simp [withDirectResult] at h
    | some sub =>
      unfold combineBinary at hc
      split at hc
      · rename_i both hboth
        rcases (crossProduct_moved op lts rts both hboth).2 with h1 | h1
        · exact hlne h1
        · exact hrne h1
      · simp at hc

/-- Whatever the loop of `findShortestProof` returns was assembled by
`reconstructProof`, from the empty path when the target was not found. -/
theorem searchLoop_shape (ps : ProofSearch) (t : Expr) :
    ∀ (s : SearchState) (proof : Proof) (v : List String),
      searchLoop ps t s = some (proof, v) →
        ∃ path b, proof = reconstructProof path b ∧ (b = false → path = []) := by
  intro s
  induction s using searchLoop.induct ps t with
  | case1 s result hfin =>
    intro proof v hres
    rw [searchLoop_finished hfin] at hres
    subst hres
    have hc := searchIteration_case ps t s
    rw [hfin] at hc
    generalize hr : (some (proof, v) : Option (Proof × List String)) = r at hc
    cases hc with
    | empty hq => simp at hr; exact ⟨[], false, hr.1, fun _ => rfl⟩
    | limit current rest hq _ => simp at hr; exact ⟨[], false, hr.1, fun _ => rfl⟩
    | found current rest hq _ hdepth heq =>
      simp at hr; exact ⟨current.path, true, hr.1, fun h => by simp at h⟩
    | nullDeref current rest _ _ _ _ _ _ => simp at hr
  | case2 s next hag ih =>
    intro proof v hres
    rw [searchLoop_again hag] at hres
    exact ih proof v hres

theorem renumber_step_number (path : List ProofStep) :
    ∀ (n i : Nat), i < path.length →
      ((renumber n path)[i]?).map (fun s => s.step_number) = some (n + i + 1) := by
  induction path with
  | nil => intro n i h; simp at h
  | cons s rest ih =>
    intro n i h
    cases i with
    | zero => simp [renumber]
    | succ j =>
      simp only [renumber, List.getElem?_cons_succ]
      rw [ih (n + 1) j (by simpa using h)]
      congr 1; omega

theorem negations_toString_length (bottom : Expr) (n : Nat) :
    (negations bottom n).toString.length = n + bottom.toString.length := by
  induction n with
  | zero => simp [negations]
  | succ k ih =>
    have h1 : "!".length = 1 := by decide
    simp only [negations, Expr.toString, String.length_append, ih, h1]
    omega

theorem negations_nodeCount (bottom : Expr) (n : Nat) :
    (negations bottom n).nodeCount = n + bottom.nodeCount := by
  induction n with
  | zero => simp [negations]
  | succ k ih => simp only [negations, Expr.nodeCount, ih]; omega

/-- A start expression whose text has more than 200 characters and that does not equal
the target is dequeued at most once and never expanded: the search returns, and reports
that it found nothing. -/
theorem findProof_long_start (ps : ProofSearch) (start target : Expr)
    (hlen : start.toString.length > 200) (hne : start.equals target = false) :
    findProof ps start target
      = some (⟨[], false, 0⟩,
          ⟨[start.toString], ps.max_depth, ps.max_transformations⟩) := by
  have hprune : shouldPrune ps ⟨start, 0, []⟩ = true := by
    unfold shouldPrune
    split
    · rfl
    · simp [expressionToString, hlen]
  have hempty : ∀ v : List String, searchLoop ps target ⟨[], 0, v⟩
      = some (reconstructProof [] false, v) := by
    intro v
    exact searchLoop_finished (by simp [searchIteration])
  have hloop : searchLoop ps target ⟨[⟨start, 0, []⟩], 0, markVisited [] start⟩
      = some (reconstructProof [] false, markVisited [] start) := by
    have hc := searchIteration_case ps target ⟨[⟨start, 0, []⟩], 0, markVisited [] start⟩
    generalize hout : searchIteration ps target
      ⟨[⟨start, 0, []⟩], 0, markVisited [] start⟩ = out at hc
    cases hc with
    | empty hq => simp at hq
    | limit current rest hq _ => exact searchLoop_finished hout
    | tooDeep current rest hq _ _ =>
      simp at hq
      rw [searchLoop_again hout, hq.2]
      exact hempty _
    | found current rest hq _ _ heq =>
      simp at hq
      rw [← hq.1] at heq
      simp [areEquivalent, hne] at heq
    | pruned current rest hq _ _ _ _ =>
      simp at hq
      rw [searchLoop_again hout, hq.2]
      exact hempty _
    | nullDeref current rest hq _ _ _ hp _ =>
      simp at hq
      rw [← hq.1, hprune] at hp
      simp at hp
    | expanded current rest expanded_nodes hq _ _ _ hp _ =>
      simp at hq
      rw [← hq.1, hprune] at hp
      simp at hp
  unfold findProof findShortestProof
  rw [hloop]
  rfl

theorem searchIteration_limit (ps : ProofSearch) (t : Expr) (s : SearchState)
    (h : ¬ ((s.transformations_explored : Int) < ps.max_transformations)) :
    searchIteration ps t s = .finished (some (reconstructProof [] false, s.visited)) := by
  unfold searchIteration
  split
  · rfl
  · rw [if_pos h]

theorem searchIteration_found (ps : ProofSearch) (t : Expr) (s : SearchState)
    (current : ProofSearchNode) (rest : List ProofSearchNode) (hq : s.queue = current :: rest)
    (h1 : (s.transformations_explored : Int) < ps.max_transformations)
    (h2 : ¬ (current.depth : Int) > ps.max_depth)
    (h3 : areEquivalent current.expression t = true) :
    searchIteration ps t s
      = .finished (some (reconstructProof current.path true, s.visited)) := by
  unfold searchIteration
  rw [hq]
  simp only []
  rw [if_neg (not_not.2 h1), if_neg h2, if_pos h3]

/-- Queued nodes are never deeper than `max_depth` (than 0, the depth of the start, when
`max_depth` is negative): a round of the loop keeps the bound. -/
theorem searchIteration_depth (ps : ProofSearch) (t : Expr) (s next : SearchState)
    (hinv : ∀ n ∈ s.queue, (n.depth : Int) ≤ max ps.max_depth 0)
    (h : searchIteration ps t s = .again next) :
    ∀ n ∈ next.queue, (n.depth : Int) ≤ max ps.max_depth 0 := by
  have hc := searchIteration_case ps t s
  rw [h] at hc
  generalize hr : LoopOutcome.again next = r at hc
  cases hc with
  | empty hq => cases hr
  | limit current rest hq _ => cases hr
  | found current rest hq _ _ _ => cases hr
  | nullDeref current rest _ _ _ _ _ _ => cases hr
  | tooDeep current rest hq _ _ =>
    cases hr
    intro n hn
    exact hinv n (by rw [hq]; exact List.mem_cons_of_mem _ hn)
  | pruned current rest hq _ _ _ _ =>
    cases hr
    intro n hn
    exact hinv n (by rw [hq]; exact List.mem_cons_of_mem _ hn)
  | expanded current rest expanded_nodes hq _ _ _ hp hexp =>
    cases hr
    intro n hn
    obtain ⟨added, hadd, hmem⟩ := enqueueUnvisited_queue expanded_nodes rest s.visited
    simp only [] at hn
    rw [hadd] at hn
    rcases List.mem_append.1 hn with hn | hn
    · exact hinv n (by rw [hq]; exact List.mem_cons_of_mem _ hn)
    · obtain ⟨step, hstep, _⟩ := expandNode_successor current expanded_nodes hexp n (hmem n hn)
      have hd : n.depth = current.depth + 1 := by rw [hstep]
      have hlt : ¬ ((current.depth : Int) ≥ ps.max_depth) := by
        intro hge
        unfold shouldPrune at hp
        rw [if_pos hge] at hp
        simp at hp
      rw [hd]
      have : ((current.depth + 1 : Nat) : Int) ≤ ps.max_depth := by omega
      exact le_trans this (le_max_left _ _)

theorem formsLoop_unfold (ps : ProofSearch) (k : Int) (s : FormsState) :
    formsLoop ps k s =
      match formsIteration ps k s with
      | .finished result => result
      | .again next => formsLoop ps k next := by
  rw [formsLoop]
  split <;> rename_i h <;> simp [h]

theorem formsLoop_finished {ps : ProofSearch} {k : Int} {s : FormsState}
    {r : Option (List Expr × List String)} (h : formsIteration ps k s = .finished r) :
    formsLoop ps k s = r := by
  rw [formsLoop_unfold, h]

theorem formsLoop_again {ps : ProofSearch} {k : Int} {s next : FormsState}
    (h : formsIteration ps k s = .again next) :
    formsLoop ps k s = formsLoop ps k next := by
  rw [formsLoop_unfold, h]

theorem formsLoop_of_rounds (ps : ProofSearch) (k : Int) :
    ∀ (fuel : Nat) (s : FormsState) (r : Option (List Expr × List String)),
      formsRounds ps k fuel s = some r → formsLoop ps k s = r := by
  intro fuel
  induction fuel with
  | zero => intro s r h; simp [formsRounds] at h
  | succ n ih =>
    intro s r h
    simp only [formsRounds] at h
    cases hres : formsIteration ps k s with
    | finished res =>
      rw [hres] at h
      rw [formsLoop_finished hres]
      simpa using h
    | again nxt =>
      rw [hres] at h
      rw [formsLoop_again hres]
      exact ih _ _ h

theorem formsLoop_induction (ps : ProofSearch) (k : Int) (P : FormsState → Prop)
    (step : ∀ s, (∀ next, formsIteration ps k s = .again next → P next) → P s) :
    ∀ s, P s := by
  intro s
  induction s using formsLoop.induct ps k with
  | case1 s r h => exact step s (fun next hn => by rw [h] at hn; cases hn)
  | case2 s next h ih => exact step s (fun n hn => by rw [h] at hn; cases hn; exact ih)

/-- What a round of the loop of `generateEquivalentForms` that goes round again does to
the state. -/
theorem formsIteration_again (ps : ProofSearch) (k : Int) (s next : FormsState)
    (h : formsIteration ps k s = .again next) :
    (s.transformations_explored : Int) < ps.max_transformations ∧
      ∃ current rest, s.queue = current :: rest ∧
        ((next = ⟨rest, s.transformations_explored, s.visited, s.equivalent_forms⟩ ∧
            (current.depth : Int) > k) ∨
          (∃ expanded_nodes, expandNode current = some expanded_nodes ∧
            ¬ (current.depth : Int) > k ∧
            next = ⟨(enqueueUnvisited expanded_nodes rest s.visited).1,
              s.transformations_explored + expanded_nodes.length,
              (enqueueUnvisited expanded_nodes rest s.visited).2,
              s.equivalent_forms ++ [current.expression]⟩)) := by
  unfold formsIteration at h
  cases hq : s.queue with
  | nil => rw [hq] at h; simp at h
  | cons current rest =>
    rw [hq] at h
    simp only [] at h
    split at h
    · simp at h
    · rename_i hlt
      simp only [not_not] at hlt
      refine ⟨hlt, current, rest, rfl, ?_⟩
      split at h
      · simp at h
      · split at h
        · rename_i hdeep
          cases h
          exact Or.inl ⟨rfl, hdeep⟩
        · rename_i hdeep
          split at h
          · simp at h
          · rename_i expanded_nodes hexp
            cases h
            exact Or.inr ⟨expanded_nodes, hexp, hdeep, rfl⟩

/-- The vector `equivalent_forms` only grows at its end. -/
theorem formsLoop_grows (ps : ProofSearch) (k : Int) :
    ∀ (s : FormsState) (forms : List Expr) (v : List String),
      formsLoop ps k s = some (forms, v) → s.equivalent_forms <+: forms := by
  intro s
  induction s using formsLoop.induct ps k with
  | case1 s result hfin =>
    intro forms v hres
    rw [formsLoop_finished hfin] at hres
    subst hres
    unfold formsIteration at hfin
    split at hfin
    · simp at hfin; rw [← hfin.1]
    · split at hfin
      · simp at hfin; rw [← hfin.1]
      · split at hfin
        · simp at hfin; rw [← hfin.1]
        · split at hfin
          · simp at hfin
          · split at hfin <;> simp at hfin
  | case2 s next hag ih =>
    intro forms v hres
    rw [formsLoop_again hag] at hres
    have hp := ih forms v hres
    obtain ⟨_, current, rest, hq, h | ⟨ex, _, _, h⟩⟩ := formsIteration_again ps k s next hag
    · rw [h.1] at hp; exact hp
    · rw [h] at hp
      exact List.IsPrefix.trans (List.prefix_append _ _) hp

theorem generateEquivalentForms_of_rounds (ps : ProofSearch) (e : Expr) (k : Int) (fuel : Nat)
    (forms : List Expr) (v : List String)
    (h : formsRounds ps k fuel ⟨[⟨e, 0, []⟩], 0, markVisited [] e, []⟩ = some (some (forms, v))) :
    generateEquivalentForms ps e k
      = some (forms, ⟨v, ps.max_depth, ps.max_transformations⟩) := by
  unfold generateEquivalentForms
  rw [formsLoop_of_rounds ps k fuel _ _ h]

/-- With room under `max_transformations` and `max_steps ≥ 0`, the first round of
`generateEquivalentForms` records the source expression; what the function returns,
when it returns, begins with it. -/
theorem generateEquivalentForms_head (ps : ProofSearch) (e : Expr) (k : Int)
    (hm : 0 < ps.max_transformations) (hk : 0 ≤ k) (forms : List Expr) (ps2 : ProofSearch)
    (h : generateEquivalentForms ps e k = some (forms, ps2)) : forms.head? = some e := by
  unfold generateEquivalentForms at h
  split at h
  · rename_i forms2 v hloop
    simp at h
    obtain ⟨rfl, _⟩ := h
    cases hexp : expandNode ⟨e, 0, []⟩ with
    | none =>
      have hit : formsIteration ps k ⟨[⟨e, 0, []⟩], 0, markVisited [] e, []⟩ = .finished none := by
        unfold formsIteration
        simp only []
        rw [if_neg (by simp; omega), if_neg (by simp), if_neg (by simp; omega), hexp]
      rw [formsLoop_finished hit] at hloop
      cases hloop
    | some expanded_nodes =>
      have hit : formsIteration ps k ⟨[⟨e, 0, []⟩], 0, markVisited [] e, []⟩
          = .again ⟨(enqueueUnvisited expanded_nodes [] (markVisited [] e)).1,
              0 + expanded_nodes.length,
              (enqueueUnvisited expanded_nodes [] (markVisited [] e)).2, [] ++ [e]⟩ := by
        unfold formsIteration
        simp only []
        rw [if_neg (by simp; omega), if_neg (by simp), if_neg (by simp; omega), hexp]
      rw [formsLoop_again hit] at hloop
      have hp := formsLoop_grows ps k _ forms2 v hloop
      obtain ⟨tail, htail⟩ := hp
      rw [← htail]
      rfl
  · simp at h

theorem searchIteration_visited (v1 v2 : List String) (d m : Int) (t : Expr) (s : SearchState) :
    searchIteration ⟨v1, d, m⟩ t s = searchIteration ⟨v2, d, m⟩ t s := rfl

theorem searchLoop_visited (v1 v2 : List String) (d m : Int) (t : Expr) :
    ∀ s : SearchState, searchLoop ⟨v1, d, m⟩ t s = searchLoop ⟨v2, d, m⟩ t s := by
  apply searchLoop_induction ⟨v1, d, m⟩ t
  intro s ih
  rw [searchLoop_unfold ⟨v1, d, m⟩, searchLoop_unfold ⟨v2, d, m⟩,
    ← searchIteration_visited v1 v2 d m t s]
  cases h : searchIteration ⟨v1, d, m⟩ t s with
  | finished r => rfl
  | again next => exact ih next h

/-- The result of `findProof` does not depend on what the visited set of the search
object holds when the call starts. -/
theorem findProof_visited (v1 v2 : List String) (d m : Int) (start target : Expr) :
    findProof ⟨v1, d, m⟩ start target = findProof ⟨v2, d, m⟩ start target := by
  unfold findProof findShortestProof
  rw [searchLoop_visited v1 v2 d m target]

theorem generateEquivalentForms_limits (ps : ProofSearch) (e : Expr) (k : Int)
    (forms : List Expr) (ps2 : ProofSearch)
    (h : generateEquivalentForms ps e k = some (forms, ps2)) :
    ps2.max_depth = ps.max_depth ∧ ps2.max_transformations = ps.max_transformations := by
  unfold generateEquivalentForms at h
  split at h
  · simp at h; rw [← h.2]; exact ⟨rfl, rfl⟩
  · simp at h

theorem findProof_limits (ps : ProofSearch) (start target : Expr)
    (proof : Proof) (ps2 : ProofSearch)
    (h : findProof ps start target = some (proof, ps2)) :
    ps2.max_depth = ps.max_depth ∧ ps2.max_transformations = ps.max_transformations := by
  unfold findProof findShortestProof at h
  split at h
  · simp at h; rw [← h.2]; exact ⟨rfl, rfl⟩
  · simp at h

theorem findProof_same_limits (ps ps2 : ProofSearch) (start target : Expr)
    (hd : ps2.max_depth = ps.max_depth)
    (hm : ps2.max_transformations = ps.max_transformations) :
    findProof ps2 start target = findProof ps start target := by
  obtain ⟨v1, d1, m1⟩ := ps
  obtain ⟨v2, d2, m2⟩ := ps2
  simp only at hd hm
  subst hd hm
  exact findProof_visited v2 v1 _ _ start target

/-- Every round that goes round again leaves room under `max_transformations`, and
either adds to the exploration counter or keeps it and shortens the queue by one. -/
theorem searchIteration_progress (ps : ProofSearch) (t : Expr) (s next : SearchState)
    (h : searchIteration ps t s = .again next) :
    (s.transformations_explored : Int) < ps.max_transformations ∧
      (s.transformations_explored + 1 ≤ next.transformations_explored ∨
        (next.transformations_explored = s.transformations_explored ∧
          next.queue.length + 1 = s.queue.length)) := by
  have hc := searchIteration_case ps t s
  rw [h] at hc
  generalize hr : LoopOutcome.again next = r at hc
  cases hc with
  | empty hq => cases hr
  | limit current rest hq _ => cases hr
  | found current rest hq _ _ _ => cases hr
  | nullDeref current rest _ _ _ _ _ _ => cases hr
  | tooDeep current rest hq hlt _ =>
    cases hr
    exact ⟨hlt, Or.inr ⟨rfl, by simp [hq]⟩⟩
  | pruned current rest hq hlt _ _ _ =>
    cases hr
    exact ⟨hlt, Or.inr ⟨rfl, by simp [hq]⟩⟩
  | expanded current rest expanded_nodes hq hlt _ _ _ hexp =>
    cases hr
    refine ⟨hlt, ?_⟩
    cases expanded_nodes with
    | nil => exact Or.inr ⟨rfl, by simp [hq, enqueueUnvisited]⟩
    | cons n ns => left; simp only [List.length_cons]; omega

theorem formsIteration_progress (ps : ProofSearch) (k : Int) (s next : FormsState)
    (h : formsIteration ps k s = .again next) :
    (s.transformations_explored : Int) < ps.max_transformations ∧
      (s.transformations_explored + 1 ≤ next.transformations_explored ∨
        (next.transformations_explored = s.transformations_explored ∧
          next.queue.length + 1 = s.queue.length)) := by
  obtain ⟨hlt, current, rest, hq, h2 | ⟨ex, _, _, h2⟩⟩ := formsIteration_again ps k s next h
  · rw [h2.1]; exact ⟨hlt, Or.inr ⟨rfl, by simp [hq]⟩⟩
  · rw [h2]
    refine ⟨hlt, ?_⟩
    cases ex with
    | nil => exact Or.inr ⟨rfl, by simp [hq, enqueueUnvisited]⟩
    | cons n ns => left; simp only [List.length_cons]; omega

/-- The loop of `findShortestProof` leaves after finitely many rounds. -/
theorem searchRounds_complete (ps : ProofSearch) (t : Expr) :
    ∀ s : SearchState, ∃ fuel, searchRounds ps t fuel s = some (searchLoop ps t s) := by
  apply searchLoop_induction ps t
  intro s ih
  cases h : searchIteration ps t s with
  | finished r =>
    exact ⟨1, by simp [searchRounds, h, searchLoop_finished h]⟩
  | again next =>
    obtain ⟨fuel, hf⟩ := ih next h
    exact ⟨fuel + 1, by simp [searchRounds, h, searchLoop_again h, hf]⟩

/-- The loop of `generateEquivalentForms` leaves after finitely many rounds. -/
theorem formsRounds_complete (ps : ProofSearch) (k : Int) :
    ∀ s : FormsState, ∃ fuel, formsRounds ps k fuel s = some (formsLoop ps k s) := by
  apply formsLoop_induction ps k
  intro s ih
  cases h : formsIteration ps k s with
  | finished r =>
    exact ⟨1, by simp [formsRounds, h, formsLoop_finished h]⟩
  | again next =>
    obtain ⟨fuel, hf⟩ := ih next h
    exact ⟨fuel + 1, by simp [formsRounds, h, formsLoop_again h, hf]⟩

theorem generateEquivalentForms_scenario7 :
    generateEquivalentForms defaultSearch scenario7Start 3
      = some (scenario7Forms,
          ⟨["(!q | !p)", "!(q & p)", "(!p | !q)", "!(p & q)"], 10, 10000⟩) :=
  generateEquivalentForms_of_rounds defaultSearch scenario7Start 3 5 _ _ (by decide)

theorem enqueueUnvisited_append (a b queue : List ProofSearchNode) (visited : List String) :
    enqueueUnvisited (a ++ b) queue visited
      = enqueueUnvisited b (enqueueUnvisited a queue visited).1
          (enqueueUnvisited a queue visited).2 := by
  induction a generalizing queue visited with
  | nil => rfl
  | cons n rest ih =>
    simp only [List.cons_append, enqueueUnvisited]
    split
    · exact ih queue visited
    · exact ih _ _

theorem enqueueUnvisited_visited_mono (a queue : List ProofSearchNode) (visited : List String) :
    (∀ x ∈ visited, x ∈ (enqueueUnvisited a queue visited).2) ∧
      (∀ n ∈ a, expressionToString n.expression ∈ (enqueueUnvisited a queue visited).2) := by
  induction a generalizing queue visited with
  | nil => exact ⟨fun x hx => hx, by simp⟩
  | cons n rest ih =>
    simp only [enqueueUnvisited]
    split
    · rename_i hv
      obtain ⟨h1, h2⟩ := ih queue visited
      refine ⟨h1, ?_⟩
      intro m hm
      rcases List.mem_cons.1 hm with rfl | hm
      · exact h1 _ (by simpa [isVisited] using hv)
      · exact h2 m hm
    · obtain ⟨h1, h2⟩ := ih (queue ++ [n]) (markVisited visited n.expression)
      refine ⟨fun x hx => h1 x (List.mem_cons_of_mem _ hx), ?_⟩
      intro m hm
      rcases List.mem_cons.1 hm with rfl | hm
      · exact h1 _ (by simp [markVisited])
      · exact h2 m hm

theorem enqueueUnvisited_all_visited (b queue : List ProofSearchNode) (visited : List String)
    (h : ∀ n ∈ b, expressionToString n.expression ∈ visited) :
    enqueueUnvisited b queue visited = (queue, visited) := by
  induction b with
  | nil => rfl
  | cons n rest ih =>
    simp only [enqueueUnvisited]
    rw [if_pos (by simpa [isVisited] using h n (List.mem_cons_self _ _))]
    exact ih (fun m hm => h m (List.mem_cons_of_mem _ hm))

/-- The nodes that `expandNode` returns are the successors built from
`generateAllTransformations` of the whole expression, followed by nodes that are each
one of these successors again. -/
theorem expandNode_whole (node : ProofSearchNode) (nodes : List ProofSearchNode)
    (h : expandNode node = some nodes) :
    ∃ ts extra, generateAllTransformations node.expression = some ts ∧
      nodes = ts.map (fun t => successorNode node t.result t.law t.description) ++ extra ∧
      (∀ n ∈ extra, ∃ u ∈ ts, n = successorNode node u.result u.law u.description) ∧
      (∀ (op : BinOp) (l r : Expr), node.expression = .binary op l r →
        ∃ lts rts, generateAllTransformations l = some lts ∧
          generateAllTransformations r = some rts ∧
          extra = lts.map
              (fun t => successorNode node (.binary op t.result r) t.law t.description)
            ++ rts.map
              (fun t => successorNode node (.binary op l t.result) t.law t.description)) ∧
      (∀ x : Expr, node.expression = .not x →
        ∃ xts, generateAllTransformations x = some xts ∧
          extra = xts.map (fun t => successorNode node (.not t.result) t.law t.description)) := by
  obtain ⟨e, d, path⟩ := node
  unfold expandNode at h
  simp only [] at h
  split at h
  · simp at h
  · rename_i ts hts
    cases e with
    | var n =>
      simp only [Option.some.injEq] at h
      exact ⟨ts, [], hts, (by simp [← h]), (by simp), (by intro op l r hh; cases hh),
        (by intro x hh; cases hh)⟩
    | const v =>
      simp only [Option.some.injEq] at h
      exact ⟨ts, [], hts, (by simp [← h]), (by simp), (by intro op l r hh; cases hh),
        (by intro x hh; cases hh)⟩
    | not x =>
      simp only [] at h
      split at h
      · simp at h
      · rename_i xts hx
        simp only [Option.some.injEq] at h
        refine ⟨ts, _, hts, h.symm, ?_, (by intro op l r hh; cases hh), ?_⟩
        · intro n hn
          obtain ⟨t, ht, rfl⟩ := List.mem_map.1 hn
          obtain ⟨lts, hlts, hmem⟩ := generateAllTransformations_mem x xts hx t ht
          obtain ⟨ets, hets, hsub⟩ := generateAllTransformations_law (.not x) ts hts t.law
          obtain ⟨sts, hsts, hwrap⟩ := applyLawRecursively_not t.law x ets hets
          rw [hlts] at hsts
          cases hsts
          exact ⟨_, hsub _ (hwrap t hmem), rfl⟩
        · intro y hy
          cases hy
          exact ⟨xts, hx, rfl⟩
    | binary op l r =>
      simp only [] at h
      split at h
      · simp at h
      · rename_i lts hl
        split at h
        · simp at h
        · rename_i rts hr
          simp only [Option.some.injEq] at h
          refine ⟨ts, _, hts, (by rw [← h, List.append_assoc]), ?_, ?_,
            (by intro x hh; cases hh)⟩
          · intro n hn
            rcases List.mem_append.1 hn with hn | hn
            · obtain ⟨t, ht, rfl⟩ := List.mem_map.1 hn
              obtain ⟨lts2, hlts, hmem⟩ := generateAllTransformations_mem l lts hl t ht
              obtain ⟨ets, hets, hsub⟩ :=
                generateAllTransformations_law (.binary op l r) ts hts t.law
              obtain ⟨l3, r3, hl3, _, hwrap, _⟩ := applyLawRecursively_binary t.law op l r ets hets
              rw [hlts] at hl3
              cases hl3
              exact ⟨_, hsub _ (hwrap t hmem), rfl⟩
            · obtain ⟨t, ht, rfl⟩ := List.mem_map.1 hn
              obtain ⟨rts2, hrts, hmem⟩ := generateAllTransformations_mem r rts hr t ht
              obtain ⟨ets, hets, hsub⟩ :=
                generateAllTransformations_law (.binary op l r) ts hts t.law
              obtain ⟨l3, r3, _, hr3, _, hwrap⟩ := applyLawRecursively_binary t.law op l r ets hets
              rw [hrts] at hr3
              cases hr3
              exact ⟨_, hsub _ (hwrap t hmem), rfl⟩
          · intro op2 l2 r2 hh
            cases hh
            exact ⟨lts, rts, hl, hr, rfl⟩

theorem toString_data_const (v : Bool) :
    (Expr.const v).toString.data = [if v then 'T' else 'F'] := by
  cases v <;> rfl

theorem toString_data_not (x : Expr) :
    (Expr.not x).toString.data = '!' :: x.toString.data := by
  simp [Expr.toString, String.data_append]

theorem toString_data_binary (op : BinOp) (l r : Expr) :
    (Expr.binary op l r).toString.data
      = '(' :: (l.toString.data ++ (op.text.data ++ (r.toString.data ++ [')']))) := by
  simp [Expr.toString, String.data_append]

theorem delimited_text (op : BinOp) (rest : List Char) : Delimited (op.text.data ++ rest) := by
  cases op <;> exact Or.inr ⟨' ', _, rfl, by decide⟩

theorem delimited_paren (rest : List Char) : Delimited (')' :: rest) :=
  Or.inr ⟨')', rest, rfl, by decide⟩

theorem text_cancel (op1 op2 : BinOp) (s t : List Char)
    (h : op1.text.data ++ s = op2.text.data ++ t) : op1 = op2 ∧ s = t := by
  cases op1 <;> cases op2 <;> simp [BinOp.text] at h <;> exact ⟨rfl, h⟩

/-- Two runs of identifier characters, each followed by nothing or by a character that
is not one, agree when the whole texts agree. -/
theorem ident_run_unique : ∀ (xs ys s t : List Char),
    (∀ c ∈ xs, isIdentChar c = true) → (∀ c ∈ ys, isIdentChar c = true) →
    Delimited s → Delimited t → xs ++ s = ys ++ t → xs = ys ∧ s = t := by
  intro xs
  induction xs with
  | nil =>
    intro ys s t _ hy hs ht h
    cases ys with
    | nil => exact ⟨rfl, by simpa using h⟩
    | cons y ys =>
      exfalso
      simp only [List.nil_append, List.cons_append] at h
      rcases hs with hs | ⟨c, rest, hs, hc⟩
      · rw [hs] at h; cases h
      · rw [hs] at h
        injection h with h1 h2
        rw [h1, hy y (List.mem_cons_self _ _)] at hc
        cases hc
  | cons x xs ih =>
    intro ys s t hx hy hs ht h
    cases ys with
    | nil =>
      exfalso
      simp only [List.nil_append, List.cons_append] at h
      rcases ht with ht | ⟨c, rest, ht, hc⟩
      · rw [ht] at h; cases h
      · rw [ht] at h
        injection h with h1 h2
        rw [← h1, hx x (List.mem_cons_self _ _)] at hc
        cases hc
    | cons y ys =>
      simp only [List.cons_append, List.cons.injEq] at h
      obtain ⟨rfl, h2⟩ := h
      obtain ⟨h3, h4⟩ := ih ys s t (fun c hc => hx c (List.mem_cons_of_mem _ hc))
        (fun c hc => hy c (List.mem_cons_of_mem _ hc)) hs ht h2
      exact ⟨by rw [h3], h4⟩

theorem isIdentifier_chars (name : String) (h : isIdentifier name = true) :
    ∃ c rest, name.data = c :: rest ∧ isIdentChar c = true ∧
      ∀ x ∈ name.data, isIdentChar x = true := by
  unfold isIdentifier at h
  split at h
  · cases h
  · rename_i c rest hd
    simp only [Bool.and_eq_true, List.all_eq_true, Bool.or_eq_true] at h
    have hc : isIdentChar c = true := by
      rcases h.1 with h1 | h1
      · simp [isIdentChar, Char.isAlphanum, h1]
      · simp [isIdentChar, h1]
    refine ⟨c, rest, hd, hc, ?_⟩
    intro x hx
    rw [hd] at hx
    rcases List.mem_cons.1 hx with rfl | hx
    · exact hc
    · exact h.2 x hx

theorem isProperName_spec (name : String) (h : isProperName name = true) :
    isIdentifier name = true ∧ name.data ≠ ['T'] ∧ name.data ≠ ['F'] := by
  simp only [isProperName, Bool.and_eq_true, Bool.not_eq_true', beq_eq_false_iff_ne] at h
  refine ⟨h.1.1, ?_, ?_⟩
  · intro hd; exact h.1.2 (String.ext hd)
  · intro hd; exact h.2 (String.ext hd)

/-- Unique readability of the canonical text: of two expressions with proper names whose
texts, each followed by a delimited rest, agree, the expressions are the same tree and
the rests agree. -/
theorem toString_unique : ∀ (a b : Expr), a.namesAll isProperName = true →
    b.namesAll isProperName = true → ∀ s t : List Char, Delimited s → Delimited t →
      a.toString.data ++ s = b.toString.data ++ t → a = b ∧ s = t := by
  intro a
  induction a with
  | var n =>
    intro b ha hb s t hs ht h
    obtain ⟨hid, hT, hF⟩ := isProperName_spec n ha
    obtain ⟨c, rest, hd, hc, hall⟩ := isIdentifier_chars n hid
    have hn : (Expr.var n).toString.data = n.data := rfl
    rw [hn] at h
    cases b with
    | var m =>
      obtain ⟨hid2, _, _⟩ := isProperName_spec m hb
      obtain ⟨c2, rest2, hd2, hc2, hall2⟩ := isIdentifier_chars m hid2
      have hm : (Expr.var m).toString.data = m.data := rfl
      rw [hm] at h
      obtain ⟨h1, h2⟩ := ident_run_unique n.data m.data s t hall hall2 hs ht h
      exact ⟨by rw [String.ext h1], h2⟩
    | const v =>
      exfalso
      rw [toString_data_const] at h
      have hv : ∀ x ∈ [if v then 'T' else 'F'], isIdentChar x = true := by
        intro x hx
        simp only [List.mem_singleton] at hx
        subst hx
        cases v <;> decide
      obtain ⟨h1, _⟩ := ident_run_unique n.data _ s t hall hv hs ht h
      cases v
      · exact hF h1
      · exact hT h1
    | not y =>
      exfalso
      rw [toString_data_not, hd] at h
      simp only [List.cons_append, List.cons.injEq] at h
      rw [h.1] at hc
      revert hc; decide
    | binary op l r =>
      exfalso
      rw [toString_data_binary, hd] at h
      simp only [List.cons_append, List.cons.injEq] at h
      rw [h.1] at hc
      revert hc; decide
  | const v =>
    intro b ha hb s t hs ht h
    rw [toString_data_const] at h
    have hv : ∀ x ∈ [if v then 'T' else 'F'], isIdentChar x = true := by
      intro x hx
      simp only [List.mem_singleton] at hx
      subst hx
      cases v <;> decide
    cases b with
    | var m =>
      exfalso
      obtain ⟨hid2, hT, hF⟩ := isProperName_spec m hb
      obtain ⟨c2, rest2, hd2, hc2, hall2⟩ := isIdentifier_chars m hid2
      have hm : (Expr.var m).toString.data = m.data := rfl
      rw [hm] at h
      obtain ⟨h1, _⟩ := ident_run_unique _ m.data s t hv hall2 hs ht h
      cases v
      · exact hF h1.symm
      · exact hT h1.symm
    | const w =>
      rw [toString_data_const] at h
      simp only [List.cons_append, List.nil_append, List.cons.injEq] at h
      refine ⟨?_, h.2⟩
      cases v <;> cases w <;> first | rfl | (exfalso; simp at h)
    | not y =>
      exfalso
      rw [toString_data_not] at h
      simp only [List.cons_append, List.cons.injEq] at h
      cases v <;> (revert h; simp)
    | binary op l r =>
      exfalso
      rw [toString_data_binary] at h
      simp only [List.cons_append, List.cons.injEq] at h
      cases v <;> (revert h; simp)
  | not x ih =>
    intro b ha hb s t hs ht h
    rw [toString_data_not] at h
    cases b with
    | var m =>
      exfalso
      obtain ⟨hid2, _, _⟩ := isProperName_spec m hb
      obtain ⟨c2, rest2, hd2, hc2, _⟩ := isIdentifier_chars m hid2
      have hm : (Expr.var m).toString.data = m.data := rfl
      rw [hm, hd2] at h
      simp only [List.cons_append, List.cons.injEq] at h
      rw [← h.1] at hc2
      revert hc2; decide
    | const w =>
      exfalso
      rw [toString_data_const] at h
      simp only [List.cons_append, List.cons.injEq] at h
      cases w <;> (revert h; simp)
    | not y =>
      rw [toString_data_not] at h
      simp only [List.cons_append, List.cons.injEq, true_and] at h
      obtain ⟨h1, h2⟩ := ih y ha hb s t hs ht h
      exact ⟨by rw [h1], h2⟩
    | binary op l r =>
      exfalso
      rw [toString_data_binary] at h
      simp only [List.cons_append, List.cons.injEq] at h
      revert h; simp
  | binary op l r ihl ihr =>
    intro b ha hb s t hs ht h
    rw [toString_data_binary] at h
    simp only [Expr.namesAll, Bool.and_eq_true] at ha
    cases b with
    | var m =>
      exfalso
      obtain ⟨hid2, _, _⟩ := isProperName_spec m hb
      obtain ⟨c2, rest2, hd2, hc2, _⟩ := isIdentifier_chars m hid2
      have hm : (Expr.var m).toString.data = m.data := rfl
      rw [hm, hd2] at h
      simp only [List.cons_append, List.cons.injEq] at h
      rw [← h.1] at hc2
      revert hc2; decide
    | const w =>
      exfalso
      rw [toString_data_const] at h
      simp only [List.cons_append, List.cons.injEq] at h
      cases w <;> (revert h; simp)
    | not y =>
      exfalso
      rw [toString_data_not] at h
      simp only [List.cons_append, List.cons.injEq] at h
      revert h; simp
    | binary op2 l2 r2 =>
      rw [toString_data_binary] at h
      simp only [Expr.namesAll, Bool.and_eq_true] at hb
      simp only [List.cons_append, List.cons.injEq, true_and, List.append_assoc] at h
      obtain ⟨h1, h2⟩ := ihl l2 ha.1 hb.1 _ _ (delimited_text op _) (delimited_text op2 _) h
      obtain ⟨h3, h4⟩ := text_cancel op op2 _ _ h2
      obtain ⟨h5, h6⟩ := ihr r2 ha.2 hb.2 _ _ (delimited_paren s) (delimited_paren t) h4
      simp only [List.cons.injEq, true_and] at h6
      exact ⟨by rw [h1, h3, h5], h6⟩

/-- The canonical text determines the tree, for expressions with proper names. -/
theorem toString_injective (a b : Expr) (ha : a.namesAll isProperName = true)
    (hb : b.namesAll isProperName = true) (h : a.toString = b.toString) : a = b := by
  have h2 : a.toString.data ++ [] = b.toString.data ++ [] := by rw [h]
  exact (toString_unique a b ha hb [] [] (Or.inl rfl) (Or.inl rfl) h2).1

theorem skipWhitespace_length (input : List Char) :
    (skipWhitespace input).length ≤ input.length := by
  induction input with
  | nil => simp [skipWhitespace]
  | cons c rest ih =>
    unfold skipWhitespace at ih ⊢
    rw [List.dropWhile_cons]
    split
    · simp only [List.length_cons]; omega
    · exact le_refl _

theorem dropWhile_length (p : Char → Bool) (input : List Char) :
    (input.dropWhile p).length ≤ input.length := by
  induction input with
  | nil => simp
  | cons c rest ih =>
    rw [List.dropWhile_cons]
    split
    · simp only [List.length_cons]; omega
    · exact le_refl _

theorem readVariable_length (ch : Char) (rest : List Char)
    (h : (isalpha ch || ch == '_') = true) :
    (readVariable (ch :: rest)).2.length ≤ rest.length := by
  have hp : (isalnum ch || ch == '_') = true := by
    simp only [Bool.or_eq_true] at h ⊢
    rcases h with h | h
    · left; simp [isalnum, isalpha, Char.isAlphanum] at h ⊢; exact Or.inl h
    · exact Or.inr h
  simp only [readVariable]
  rw [List.dropWhile_cons, if_pos hp]
  exact dropWhile_length _ rest

theorem readOperator_length (ch : Char) (rest : List Char) :
    (readOperator ch rest).2.length ≤ rest.length := by
  unfold readOperator
  split
  · simp
  · split
    · simp
    · split
      · simp
      · exact le_refl _

theorem tokenizeLoop_succ (fuel : Nat) (input : List Char) :
    tokenizeLoop (fuel + 1) input =
      match skipWhitespace input with
      | [] => [⟨.END_OF_INPUT, ""⟩]
      | ch :: rest =>
        if ch == 'T' || ch == 'F' then
          (if ch == 'T' then ⟨.CONSTANT_TRUE, "T"⟩ else ⟨.CONSTANT_FALSE, "F"⟩)
            :: tokenizeLoop fuel rest
        else if isalpha ch || ch == '_' then
          (readVariable (ch :: rest)).1 :: tokenizeLoop fuel (readVariable (ch :: rest)).2
        else if ch == '(' then ⟨.LPAREN, "("⟩ :: tokenizeLoop fuel rest
        else if ch == ')' then ⟨.RPAREN, ")"⟩ :: tokenizeLoop fuel rest
        else (readOperator ch rest).1 :: tokenizeLoop fuel (readOperator ch rest).2 := rfl

/-- A recursion allowance above the length of the input is never used up: the tokens do
not depend on it. -/
theorem tokenizeLoop_fuel : ∀ (fuel f2 : Nat) (input : List Char),
    input.length < fuel → input.length < f2 →
      tokenizeLoop fuel input = tokenizeLoop f2 input := by
  intro fuel
  induction fuel with
  | zero => intro f2 input h; omega
  | succ n ih =>
    intro f2 input h1 h2
    cases f2 with
    | zero => omega
    | succ m =>
      have hs := skipWhitespace_length input
      rw [tokenizeLoop_succ, tokenizeLoop_succ]
      cases hsk : skipWhitespace input with
      | nil => rfl
      | cons ch rest =>
        rw [hsk] at hs
        simp only [List.length_cons] at hs
        simp only []
        split
        · rw [ih m rest (by omega) (by omega)]
        · split
          · rename_i _ halpha
            have := readVariable_length ch rest halpha
            rw [ih m _ (by omega) (by omega)]
          · split
            · rw [ih m rest (by omega) (by omega)]
            · split
              · rw [ih m rest (by omega) (by omega)]
              · have := readOperator_length ch rest
                rw [ih m _ (by omega) (by omega)]

theorem tokenizeFrom_nil : tokenizeFrom [] = [⟨.END_OF_INPUT, ""⟩] := rfl

/-- One round of the loop of `tokenize` on an input that does not begin with white
space. -/
theorem tokenizeFrom_cons (ch : Char) (rest : List Char) (hsp : isspace ch = false) :
    tokenizeFrom (ch :: rest) =
      if ch == 'T' || ch == 'F' then
        (if ch == 'T' then ⟨.CONSTANT_TRUE, "T"⟩ else ⟨.CONSTANT_FALSE, "F"⟩)
          :: tokenizeFrom rest
      else if isalpha ch || ch == '_' then
        (readVariable (ch :: rest)).1 :: tokenizeFrom (readVariable (ch :: rest)).2
      else if ch == '(' then ⟨.LPAREN, "("⟩ :: tokenizeFrom rest
      else if ch == ')' then ⟨.RPAREN, ")"⟩ :: tokenizeFrom rest
      else (readOperator ch rest).1 :: tokenizeFrom (readOperator ch rest).2 := by
  have hsk : skipWhitespace (ch :: rest) = ch :: rest := by
    simp [skipWhitespace, List.dropWhile_cons, hsp]
  unfold tokenizeFrom
  rw [List.length_cons, tokenizeLoop_succ, hsk]
  simp only []
  split
  · rfl
  · split
    · rename_i _ halpha
      have := readVariable_length ch rest halpha
      exact congrArg _ (tokenizeLoop_fuel _ _ _ (by omega) (by omega))
    · split
      · rfl
      · split
        · rfl
        · have := readOperator_length ch rest
          exact congrArg _ (tokenizeLoop_fuel _ _ _ (by omega) (by omega))

theorem tokenizeFrom_space (rest : List Char) :
    tokenizeFrom (' ' :: rest) = tokenizeFrom rest := by
  have hsk : skipWhitespace (' ' :: rest) = skipWhitespace rest := by
    simp [skipWhitespace, List.dropWhile_cons, isspace]
  have hs := skipWhitespace_length rest
  unfold tokenizeFrom
  rw [List.length_cons, tokenizeLoop_succ, tokenizeLoop_succ, hsk]
  cases hr : skipWhitespace rest with
  | nil => rfl
  | cons ch tail =>
    rw [hr] at hs
    simp only [List.length_cons] at hs
    simp only []
    split
    · rw [tokenizeLoop_fuel (rest.length + 1) rest.length _ (by omega) (by omega)]
    · split
      · rename_i _ halpha
        have := readVariable_length ch tail halpha
        rw [tokenizeLoop_fuel (rest.length + 1) rest.length _ (by omega) (by omega)]
      · split
        · rw [tokenizeLoop_fuel (rest.length + 1) rest.length _ (by omega) (by omega)]
        · split
          · rw [tokenizeLoop_fuel (rest.length + 1) rest.length _ (by omega) (by omega)]
          · have := readOperator_length ch tail
            rw [tokenizeLoop_fuel (rest.length + 1) rest.length _ (by omega) (by omega)]

theorem isspace_of_start (c : Char) (h : (c.isAlpha || c == '_') = true) :
    isspace c = false := by
  cases hs : isspace c with
  | false => rfl
  | true =>
    exfalso
    simp only [isspace, Bool.or_eq_true, beq_iff_eq] at hs
    rcases hs with ((((hs | hs) | hs) | hs) | hs) | hs <;> (subst hs; revert h; decide)

theorem takeWhile_run (p : Char → Bool) (xs rest : List Char) (hxs : ∀ x ∈ xs, p x = true)
    (hrest : rest = [] ∨ ∃ c tail, rest = c :: tail ∧ p c = false) :
    (xs ++ rest).takeWhile p = xs ∧ (xs ++ rest).dropWhile p = rest := by
  induction xs with
  | nil =>
    rcases hrest with rfl | ⟨c, tail, rfl, hc⟩
    · simp
    · simp [List.takeWhile_cons, List.dropWhile_cons, hc]
  | cons x xs ih =>
    have hx := hxs x (List.mem_cons_self _ _)
    obtain ⟨h1, h2⟩ := ih (fun y hy => hxs y (List.mem_cons_of_mem _ hy))
    simp [List.takeWhile_cons, List.dropWhile_cons, hx, h1, h2]

theorem closed_fails (rest : List Char) (h : Closed rest) :
    rest = [] ∨ ∃ c tail, rest = c :: tail ∧ (isalnum c || c == '_') = false := by
  rcases h with h | ⟨c, tail, h, hc⟩
  · exact Or.inl h
  · refine Or.inr ⟨c, tail, h, ?_⟩
    rcases hc with rfl | rfl <;> decide

theorem isLexerName_spec (name : String) (h : isLexerName name = true) :
    ∃ c cs, name.data = c :: cs ∧ (c.isAlpha || c == '_') = true ∧
      (c == 'T' || c == 'F') = false ∧ ∀ x ∈ name.data, (isalnum x || x == '_') = true := by
  simp only [isLexerName, Bool.and_eq_true, Bool.not_eq_true'] at h
  obtain ⟨hid, hst⟩ := h
  obtain ⟨c, rest, hd, _, hall⟩ := isIdentifier_chars name hid
  unfold isIdentifier at hid
  unfold startsWithConstantLetter at hst
  rw [hd] at hid hst
  simp only [Bool.and_eq_true] at hid
  exact ⟨c, rest, hd, hid.1, hst, fun x hx => hall x hx⟩

/-- A name that the lexer accepts, followed by nothing, a blank or a closing
parenthesis, is read as one `VARIABLE` token. -/
theorem tokenizeFrom_name (name : String) (rest : List Char) (h : isLexerName name = true)
    (hrest : Closed rest) :
    tokenizeFrom (name.data ++ rest) = ⟨.VARIABLE, name⟩ :: tokenizeFrom rest := by
  obtain ⟨c, cs, hd, hstart, hconst, hall⟩ := isLexerName_spec name h
  obtain ⟨h1, h2⟩ := takeWhile_run (fun ch => isalnum ch || ch == '_') name.data rest hall
    (closed_fails rest hrest)
  have hrv : readVariable (name.data ++ rest) = (⟨.VARIABLE, name⟩, rest) := by
    simp only [readVariable, h1, h2]
  rw [hd] at hrv ⊢
  rw [List.cons_append] at hrv ⊢
  rw [tokenizeFrom_cons c (cs ++ rest) (isspace_of_start c hstart), hconst]
  simp only [Bool.false_eq_true, if_false]
  rw [if_pos (by simpa [isalpha] using hstart), hrv]

theorem tokenizeFrom_true (rest : List Char) :
    tokenizeFrom ('T' :: rest) = ⟨.CONSTANT_TRUE, "T"⟩ :: tokenizeFrom rest := by
  rw [tokenizeFrom_cons _ _ (by decide)]
  rfl

theorem tokenizeFrom_false (rest : List Char) :
    tokenizeFrom ('F' :: rest) = ⟨.CONSTANT_FALSE, "F"⟩ :: tokenizeFrom rest := by
  rw [tokenizeFrom_cons _ _ (by decide)]
  rfl

theorem tokenizeFrom_lparen (rest : List Char) :
    tokenizeFrom ('(' :: rest) = ⟨.LPAREN, "("⟩ :: tokenizeFrom rest := by
  rw [tokenizeFrom_cons _ _ (by decide)]
  rfl

theorem tokenizeFrom_rparen (rest : List Char) :
    tokenizeFrom (')' :: rest) = ⟨.RPAREN, ")"⟩ :: tokenizeFrom rest := by
  rw [tokenizeFrom_cons _ _ (by decide)]
  rfl

theorem tokenizeFrom_not (rest : List Char) :
    tokenizeFrom ('!' :: rest) = ⟨.NOT, "!"⟩ :: tokenizeFrom rest := by
  rw [tokenizeFrom_cons _ _ (by decide)]
  rfl

/-- The spelling of a connective in the canonical text, blanks included, is read as the
token of the connective. -/
theorem tokenizeFrom_text (op : BinOp) (rest : List Char) :
    tokenizeFrom (op.text.data ++ rest) = operatorToken op :: tokenizeFrom rest := by
  cases op
  · show tokenizeFrom (' ' :: '&' :: ' ' :: rest) = _
    rw [tokenizeFrom_space, tokenizeFrom_cons _ _ (by decide)]
    show _ :: tokenizeFrom (' ' :: rest) = _
    rw [tokenizeFrom_space]
    rfl
  · show tokenizeFrom (' ' :: '|' :: ' ' :: rest) = _
    rw [tokenizeFrom_space, tokenizeFrom_cons _ _ (by decide)]
    show _ :: tokenizeFrom (' ' :: rest) = _
    rw [tokenizeFrom_space]
    rfl
  · show tokenizeFrom (' ' :: '-' :: '>' :: ' ' :: rest) = _
    rw [tokenizeFrom_space, tokenizeFrom_cons _ _ (by decide)]
    show _ :: tokenizeFrom (' ' :: rest) = _
    rw [tokenizeFrom_space]
    rfl
  · show tokenizeFrom (' ' :: '<' :: '-' :: '>' :: ' ' :: rest) = _
    rw [tokenizeFrom_space, tokenizeFrom_cons _ _ (by decide)]
    show _ :: tokenizeFrom (' ' :: rest) = _
    rw [tokenizeFrom_space]
    rfl

theorem closed_text (op : BinOp) (rest : List Char) : Closed (op.text.data ++ rest) := by
  cases op <;> exact Or.inr ⟨' ', _, rfl, Or.inl rfl⟩

theorem closed_paren (rest : List Char) : Closed (')' :: rest) :=
  Or.inr ⟨')', rest, rfl, Or.inr rfl⟩

/-- The lexer reads the canonical text of an expression whose names it accepts as the
tokens of the expression. -/
theorem tokenizeFrom_toString : ∀ (e : Expr), e.namesAll isLexerName = true →
    ∀ rest : List Char, Closed rest →
      tokenizeFrom (e.toString.data ++ rest) = e.tokens ++ tokenizeFrom rest := by
  intro e
  induction e with
  | var n =>
    intro h rest hrest
    exact tokenizeFrom_name n rest h hrest
  | const v =>
    intro _ rest _
    cases v
    · exact tokenizeFrom_false rest
    · exact tokenizeFrom_true rest
  | not x ih =>
    intro h rest hrest
    rw [toString_data_not, List.cons_append, tokenizeFrom_not, ih h rest hrest]
    rfl
  | binary op l r ihl ihr =>
    intro h rest hrest
    simp only [Expr.namesAll, Bool.and_eq_true] at h
    rw [toString_data_binary, List.cons_append, tokenizeFrom_lparen]
    simp only [List.append_assoc]
    rw [ihl h.1 _ (closed_text op _), tokenizeFrom_text]
    simp only [List.singleton_append]
    rw [ihr h.2 _ (closed_paren _), tokenizeFrom_rparen]
    simp [Expr.tokens]

theorem tokenize_toString (e : Expr) (h : e.namesAll isLexerName = true) :
    tokenize e.toString = e.tokens ++ [⟨.END_OF_INPUT, ""⟩] := by
  have := tokenizeFrom_toString e h [] (Or.inl rfl)
  rw [List.append_nil, tokenizeFrom_nil] at this
  exact this
theorem advance_cons (t : Token) (rest : List Token) (h : rest ≠ []) :
    advance (t :: rest) = rest := by
  cases rest with
  | nil => exact absurd rfl h
  | cons r rs => rfl

theorem matchToken_cons (t : Token) (rest : List Token) (type : TokenType) :
    matchToken (t :: rest) type = decide (t.type = type) := rfl

theorem parseExpression_succ (fuel : Nat) (tokens : List Token) :
    parseExpression (fuel + 1) tokens = parseBiconditional fuel tokens := by
  rw [parseExpression]

theorem parseBiconditional_succ (fuel : Nat) (tokens : List Token) :
    parseBiconditional (fuel + 1) tokens =
      match parseImplication fuel tokens with
      | .ok left tokens => biconditionalLoop fuel left tokens
      | r => r := by
  rw [parseBiconditional]

theorem biconditionalLoop_succ (fuel : Nat) (left : Expr) (tokens : List Token) :
    biconditionalLoop (fuel + 1) left tokens =
      if matchToken tokens .BICONDITIONAL then
        match parseImplication fuel (advance tokens) with
        | .ok right tokens => biconditionalLoop fuel (.binary .BICONDITIONAL left right) tokens
        | r => r
      else .ok left tokens := by
  rw [biconditionalLoop]

theorem parseImplication_succ (fuel : Nat) (tokens : List Token) :
    parseImplication (fuel + 1) tokens =
      match parseDisjunction fuel tokens with
      | .ok left tokens =>
        if matchToken tokens .IMPLIES then
          match parseImplication fuel (advance tokens) with
          | .ok right tokens => .ok (.binary .IMPLIES left right) tokens
          | r => r
        else .ok left tokens
      | r => r := by
  rw [parseImplication]

theorem parseDisjunction_succ (fuel : Nat) (tokens : List Token) :
    parseDisjunction (fuel + 1) tokens =
      match parseConjunction fuel tokens with
      | .ok left tokens => disjunctionLoop fuel left tokens
      | r => r := by
  rw [parseDisjunction]

theorem disjunctionLoop_succ (fuel : Nat) (left : Expr) (tokens : List Token) :
    disjunctionLoop (fuel + 1) left tokens =
      if matchToken tokens .OR then
        match parseConjunction fuel (advance tokens) with
        | .ok right tokens => disjunctionLoop fuel (.binary .OR left right) tokens
        | r => r
      else .ok left tokens := by
  rw [disjunctionLoop]

theorem parseConjunction_succ (fuel : Nat) (tokens : List Token) :
    parseConjunction (fuel + 1) tokens =
      match parseNegation fuel tokens with
      | .ok left tokens => conjunctionLoop fuel left tokens
      | r => r := by
  rw [parseConjunction]

theorem conjunctionLoop_succ (fuel : Nat) (left : Expr) (tokens : List Token) :
    conjunctionLoop (fuel + 1) left tokens =
      if matchToken tokens .AND then
        match parseNegation fuel (advance tokens) with
        | .ok right tokens => conjunctionLoop fuel (.binary .AND left right) tokens
        | r => r
      else .ok left tokens := by
  rw [conjunctionLoop]

theorem parseNegation_succ (fuel : Nat) (tokens : List Token) :
    parseNegation (fuel + 1) tokens =
      if matchToken tokens .NOT then
        match parseNegation fuel (advance tokens) with
        | .ok operand tokens => .ok (.not operand) tokens
        | r => r
      else parsePrimary fuel tokens := by
  rw [parseNegation]

theorem parsePrimary_succ (fuel : Nat) (tokens : List Token) :
    parsePrimary (fuel + 1) tokens =
      if matchToken tokens .VARIABLE then
        .ok (.var (currentToken tokens).value) (advance tokens)
      else if matchToken tokens .CONSTANT_TRUE then .ok (.const true) (advance tokens)
      else if matchToken tokens .CONSTANT_FALSE then .ok (.const false) (advance tokens)
      else if matchToken tokens .LPAREN then
        match parseExpression fuel (advance tokens) with
        | .ok expr tokens =>
          if ¬ matchToken tokens .RPAREN then .error "Expected different token type"
          else .ok expr (advance tokens)
        | r => r
      else .error "Expected variable, constant, or parenthesized expression" := by
  rw [parsePrimary]

/-- A result of `parseNegation` that stops in front of a token other than `AND` is the
result of `parseConjunction`. -/
theorem parseConjunction_of_negation (f : Nat) (ts more : List Token) (x : Expr) (t : Token)
    (h : parseNegation (f + 1) ts = .ok x (t :: more)) (ht : t.type ≠ .AND) :
    parseConjunction (f + 2) ts = .ok x (t :: more) := by
  rw [parseConjunction_succ, h]
  simp only []
  rw [conjunctionLoop_succ, matchToken_cons, if_neg (by simpa using ht)]

theorem parseDisjunction_of_conjunction (f : Nat) (ts more : List Token) (x : Expr) (t : Token)
    (h : parseConjunction (f + 1) ts = .ok x (t :: more)) (ht : t.type ≠ .OR) :
    parseDisjunction (f + 2) ts = .ok x (t :: more) := by
  rw [parseDisjunction_succ, h]
  simp only []
  rw [disjunctionLoop_succ, matchToken_cons, if_neg (by simpa using ht)]

theorem parseImplication_of_disjunction (f : Nat) (ts more : List Token) (x : Expr) (t : Token)
    (h : parseDisjunction (f + 1) ts = .ok x (t :: more)) (ht : t.type ≠ .IMPLIES) :
    parseImplication (f + 2) ts = .ok x (t :: more) := by
  rw [parseImplication_succ, h]
  simp only []
  rw [matchToken_cons, if_neg (by simpa using ht)]

theorem parseBiconditional_of_implication (f : Nat) (ts more : List Token) (x : Expr) (t : Token)
    (h : parseImplication (f + 1) ts = .ok x (t :: more)) (ht : t.type ≠ .BICONDITIONAL) :
    parseBiconditional (f + 2) ts = .ok x (t :: more) := by
  rw [parseBiconditional_succ, h]
  simp only []
  rw [biconditionalLoop_succ, matchToken_cons, if_neg (by simpa using ht)]

/-- The tokens of a parenthesised binary expression, from its left operand on: when
`parseNegation` reads the two operands, `parseExpression` reads the whole and stops in
front of the closing parenthesis. -/
theorem parseExpression_binary (op : BinOp) (f : Nat) (l r : Expr) (ts X rest : List Token)
    (hX : X ≠ [])
    (hl : parseNegation (f + 2) ts = .ok l (operatorToken op :: X))
    (hr : parseNegation (f + 1) X = .ok r (⟨.RPAREN, ")"⟩ :: rest)) :
    parseExpression (f + 7) ts = .ok (.binary op l r) (⟨.RPAREN, ")"⟩ :: rest) := by
  have hrc := parseConjunction_of_negation f X rest r _ hr (by decide)
  have hrd := parseDisjunction_of_conjunction (f + 1) X rest r _ hrc (by decide)
  have hri := parseImplication_of_disjunction (f + 2) X rest r _ hrd (by decide)
  rw [parseExpression_succ]
  cases op with
  | AND =>
    have hc : parseConjunction (f + 3) ts
        = .ok (.binary .AND l r) (⟨.RPAREN, ")"⟩ :: rest) := by
      rw [parseConjunction_succ, hl]
      simp only []
      rw [conjunctionLoop_succ, matchToken_cons, if_pos (by decide),
        advance_cons _ _ hX, hr]
      simp only []
      rw [conjunctionLoop_succ, matchToken_cons, if_neg (by decide)]
    have hd := parseDisjunction_of_conjunction (f + 2) ts rest _ _ hc (by decide)
    have hi := parseImplication_of_disjunction (f + 3) ts rest _ _ hd (by decide)
    exact parseBiconditional_of_implication (f + 4) ts rest _ _ hi (by decide)
  | OR =>
    have hc := parseConjunction_of_negation (f + 1) ts X l _ hl (by decide)
    have hd : parseDisjunction (f + 4) ts
        = .ok (.binary .OR l r) (⟨.RPAREN, ")"⟩ :: rest) := by
      rw [parseDisjunction_succ, hc]
      simp only []
      rw [disjunctionLoop_succ, matchToken_cons, if_pos (by decide),
        advance_cons _ _ hX, hrc]
      simp only []
      rw [disjunctionLoop_succ, matchToken_cons, if_neg (by decide)]
    have hi := parseImplication_of_disjunction (f + 3) ts rest _ _ hd (by decide)
    exact parseBiconditional_of_implication (f + 4) ts rest _ _ hi (by decide)
  | IMPLIES =>
    have hc := parseConjunction_of_negation (f + 1) ts X l _ hl (by decide)
    have hd := parseDisjunction_of_conjunction (f + 2) ts X l _ hc (by decide)
    have hi : parseImplication (f + 5) ts
        = .ok (.binary .IMPLIES l r) (⟨.RPAREN, ")"⟩ :: rest) := by
      rw [parseImplication_succ, hd]
      simp only []
      rw [matchToken_cons, if_pos (by decide), advance_cons _ _ hX, hri]
    exact parseBiconditional_of_implication (f + 4) ts rest _ _ hi (by decide)
  | BICONDITIONAL =>
    have hc := parseConjunction_of_negation (f + 1) ts X l _ hl (by decide)
    have hd := parseDisjunction_of_conjunction (f + 2) ts X l _ hc (by decide)
    have hi := parseImplication_of_disjunction (f + 3) ts X l _ hd (by decide)
    rw [parseBiconditional_succ, hi]
    simp only []
    rw [biconditionalLoop_succ, matchToken_cons, if_pos (by decide),
      advance_cons _ _ hX, hri]
    simp only []
    rw [biconditionalLoop_succ, matchToken_cons, if_neg (by decide)]

theorem tokens_ne_nil (e : Expr) : e.tokens ≠ [] := by
  cases e <;> simp [Expr.tokens]

/-- Reading back the tokens of an expression: `parseNegation`, given the allowance
`parseFuel` or more, returns the expression and stops at the token that follows. -/
theorem parseNegation_tokens : ∀ (e : Expr) (m : Nat) (rest : List Token), rest ≠ [] →
    parseNegation (m + e.parseFuel) (e.tokens ++ rest) = .ok e rest := by
  intro e
  induction e with
  | var n =>
    intro m rest hrest
    show parseNegation (m + 1 + 1) (⟨.VARIABLE, n⟩ :: rest) = _
    rw [parseNegation_succ, matchToken_cons, if_neg (by simp), parsePrimary_succ,
      matchToken_cons, if_pos (by simp), advance_cons _ _ hrest]
    rfl
  | const v =>
    intro m rest hrest
    cases v
    · show parseNegation (m + 1 + 1) (⟨.CONSTANT_FALSE, "F"⟩ :: rest) = _
      rw [parseNegation_succ, matchToken_cons, if_neg (by decide), parsePrimary_succ,
        matchToken_cons, if_neg (by decide), matchToken_cons, if_neg (by decide),
        matchToken_cons, if_pos (by decide), advance_cons _ _ hrest]
    · show parseNegation (m + 1 + 1) (⟨.CONSTANT_TRUE, "T"⟩ :: rest) = _
      rw [parseNegation_succ, matchToken_cons, if_neg (by decide), parsePrimary_succ,
        matchToken_cons, if_neg (by decide), matchToken_cons, if_pos (by decide),
        advance_cons _ _ hrest]
  | not x ih =>
    intro m rest hrest
    show parseNegation (m + x.parseFuel + 1) (⟨.NOT, "!"⟩ :: (x.tokens ++ rest)) = _
    rw [parseNegation_succ, matchToken_cons, if_pos (by decide),
      advance_cons _ _ (by simp [tokens_ne_nil]), ih m rest hrest]
  | binary op l r ihl ihr =>
    intro m rest hrest
    have hfuel : m + (Expr.binary op l r).parseFuel
        = (m + l.parseFuel + r.parseFuel + 3) + 7 + 1 + 1 := by
      simp only [Expr.parseFuel]; omega
    have htok : (Expr.binary op l r).tokens ++ rest
        = ⟨.LPAREN, "("⟩ :: (l.tokens ++ operatorToken op ::
            (r.tokens ++ ⟨.RPAREN, ")"⟩ :: rest)) := by
      simp [Expr.tokens]
    rw [hfuel, htok, parseNegation_succ, matchToken_cons, if_neg (by decide),
      parsePrimary_succ, matchToken_cons, if_neg (by decide), matchToken_cons,
      if_neg (by decide), matchToken_cons, if_neg (by decide), matchToken_cons,
      if_pos (by decide), advance_cons _ _ (by simp [tokens_ne_nil])]
    have hl := ihl (m + r.parseFuel + 5) (operatorToken op :: (r.tokens ++ ⟨.RPAREN, ")"⟩ :: rest))
      (by simp)
    have hr := ihr (m + l.parseFuel + 4) (⟨.RPAREN, ")"⟩ :: rest) (by simp)
    have e1 : m + r.parseFuel + 5 + l.parseFuel = (m + l.parseFuel + r.parseFuel + 3) + 2 := by
      omega
    have e2 : m + l.parseFuel + 4 + r.parseFuel = (m + l.parseFuel + r.parseFuel + 3) + 1 := by
      omega
    rw [e1] at hl
    rw [e2] at hr
    rw [parseExpression_binary op _ l r _ _ rest (by simp [tokens_ne_nil]) hl hr]
    simp only []
    rw [matchToken_cons, if_neg (by decide), advance_cons _ _ hrest]

theorem tokens_length (e : Expr) : e.parseFuel ≤ 10 * e.tokens.length := by
  induction e with
  | var n => simp [Expr.parseFuel, Expr.tokens]
  | const v => simp [Expr.parseFuel, Expr.tokens]
  | not x ih => simp only [Expr.parseFuel, Expr.tokens, List.length_cons]; omega
  | binary op l r ihl ihr =>
    simp only [Expr.parseFuel, Expr.tokens, List.length_cons, List.length_append,
      List.length_nil]
    omega

/-- Parsing the tokens of an expression, followed by `END_OF_INPUT`, returns the
expression. -/
theorem parse_tokens (e : Expr) :
    Parser.parse (e.tokens ++ [⟨.END_OF_INPUT, ""⟩]) = .ok e [⟨.END_OF_INPUT, ""⟩] := by
  have hlen := tokens_length e
  have hne := tokens_ne_nil e
  obtain ⟨k, hk⟩ : ∃ k, 10 * (e.tokens ++ [(⟨.END_OF_INPUT, ""⟩ : Token)]).length + 10
      = k + 6 := ⟨10 * (e.tokens ++ [(⟨.END_OF_INPUT, ""⟩ : Token)]).length + 4, by omega⟩
  obtain ⟨m, hm⟩ : ∃ m, k + 1 = m + e.parseFuel := by
    refine ⟨k + 1 - e.parseFuel, ?_⟩
    simp only [List.length_append, List.length_cons, List.length_nil] at hk
    omega
  have hn := parseNegation_tokens e m [⟨.END_OF_INPUT, ""⟩] (by simp)
  rw [← hm] at hn
  have hc := parseConjunction_of_negation k _ [] e _ hn (by decide)
  have hd := parseDisjunction_of_conjunction (k + 1) _ [] e _ hc (by decide)
  have hi := parseImplication_of_disjunction (k + 2) _ [] e _ hd (by decide)
  have hb := parseBiconditional_of_implication (k + 3) _ [] e _ hi (by decide)
  unfold Parser.parse
  rw [hk, parseExpression_succ, hb]
  rfl

/-- Printing an expression whose names the lexer accepts and parsing the text gives the
expression back. -/
theorem parse_toString (e : Expr) (h : e.namesAll isLexerName = true) :
    ExpressionParser.parse e.toString = .ok e [⟨.END_OF_INPUT, ""⟩] := by
  unfold ExpressionParser.parse
  rw [tokenize_toString e h, parse_tokens]

theorem tokenize_eq (text : String) : tokenize text = tokenizeFrom text.data := rfl

theorem tokenizeFrom_last (name : String) (h : isLexerName name = true) :
    tokenizeFrom name.data = [⟨.VARIABLE, name⟩, ⟨.END_OF_INPUT, ""⟩] := by
  have := tokenizeFrom_name name [] h (Or.inl rfl)
  rw [List.append_nil, tokenizeFrom_nil] at this
  exact this

theorem tokenizeFrom_iff (rest : List Char) :
    tokenizeFrom (" <-> ".data ++ rest) = ⟨.BICONDITIONAL, "<->"⟩ :: tokenizeFrom rest :=
  tokenizeFrom_text .BICONDITIONAL rest

theorem tokenizeFrom_implies (rest : List Char) :
    tokenizeFrom (" -> ".data ++ rest) = ⟨.IMPLIES, "->"⟩ :: tokenizeFrom rest :=
  tokenizeFrom_text .IMPLIES rest

theorem tokenizeFrom_or (rest : List Char) :
    tokenizeFrom (" | ".data ++ rest) = ⟨.OR, "|"⟩ :: tokenizeFrom rest :=
  tokenizeFrom_text .OR rest

theorem tokenizeFrom_and (rest : List Char) :
    tokenizeFrom (" & ".data ++ rest) = ⟨.AND, "&"⟩ :: tokenizeFrom rest :=
  tokenizeFrom_text .AND rest

theorem closed_iff (rest : List Char) : Closed (" <-> ".data ++ rest) :=
  closed_text .BICONDITIONAL rest

theorem closed_implies (rest : List Char) : Closed (" -> ".data ++ rest) :=
  closed_text .IMPLIES rest

theorem closed_or (rest : List Char) : Closed (" | ".data ++ rest) :=
  closed_text .OR rest

theorem closed_and (rest : List Char) : Closed (" & ".data ++ rest) :=
  closed_text .AND rest

theorem tokenizeFrom_bang (rest : List Char) :
    tokenizeFrom ("!".data ++ rest) = ⟨.NOT, "!"⟩ :: tokenizeFrom rest :=
  tokenizeFrom_not rest

theorem tokenizeFrom_bangs (rest : List Char) :
    tokenizeFrom ("!!".data ++ rest) = ⟨.NOT, "!"⟩ :: ⟨.NOT, "!"⟩ :: tokenizeFrom rest := by
  show tokenizeFrom ('!' :: '!' :: rest) = _
  rw [tokenizeFrom_not, tokenizeFrom_not]

theorem tokenizeFrom_open (rest : List Char) :
    tokenizeFrom ("(".data ++ rest) = ⟨.LPAREN, "("⟩ :: tokenizeFrom rest :=
  tokenizeFrom_lparen rest

theorem tokenizeFrom_close (rest : List Char) :
    tokenizeFrom (")".data ++ rest) = ⟨.RPAREN, ")"⟩ :: tokenizeFrom rest :=
  tokenizeFrom_rparen rest

theorem closed_close (rest : List Char) : Closed (")".data ++ rest) :=
  closed_paren rest

theorem parse_example1 (a b c : String) (ha : isLexerName a = true) (hb : isLexerName b = true) (hc : isLexerName c = true) :
    ExpressionParser.parse (a ++ " <-> " ++ b ++ " <-> " ++ c)
      = .ok (.binary .BICONDITIONAL (.binary .BICONDITIONAL (.var a) (.var b)) (.var c))
          [⟨.END_OF_INPUT, ""⟩] := by
  unfold ExpressionParser.parse
  rw [tokenize_eq]
  simp only [String.data_append, List.append_assoc]
  rw [tokenizeFrom_name a _ ha (closed_iff _), tokenizeFrom_iff,
    tokenizeFrom_name b _ hb (closed_iff _), tokenizeFrom_iff, tokenizeFrom_last c hc]
  rfl

theorem parse_example2 (a b c : String) (ha : isLexerName a = true) (hb : isLexerName b = true) (hc : isLexerName c = true) :
    ExpressionParser.parse (a ++ " -> " ++ b ++ " -> " ++ c)
      = .ok (.binary .IMPLIES (.var a) (.binary .IMPLIES (.var b) (.var c)))
          [⟨.END_OF_INPUT, ""⟩] := by
  unfold ExpressionParser.parse
  rw [tokenize_eq]
  simp only [String.data_append, List.append_assoc]
  rw [tokenizeFrom_name a _ ha (closed_implies _), tokenizeFrom_implies,
    tokenizeFrom_name b _ hb (closed_implies _), tokenizeFrom_implies, tokenizeFrom_last c hc]
  rfl

theorem parse_example3 (a b c : String) (ha : isLexerName a = true) (hb : isLexerName b = true) (hc : isLexerName c = true) :
    ExpressionParser.parse (a ++ " | " ++ b ++ " | " ++ c)
      = .ok (.binary .OR (.binary .OR (.var a) (.var b)) (.var c))
          [⟨.END_OF_INPUT, ""⟩] := by
  unfold ExpressionParser.parse
  rw [tokenize_eq]
  simp only [String.data_append, List.append_assoc]
  rw [tokenizeFrom_name a _ ha (closed_or _), tokenizeFrom_or,
    tokenizeFrom_name b _ hb (closed_or _), tokenizeFrom_or, tokenizeFrom_last c hc]
  rfl

theorem parse_example4 (a b c : String) (ha : isLexerName a = true) (hb : isLexerName b = true) (hc : isLexerName c = true) :
    ExpressionParser.parse (a ++ " & " ++ b ++ " & " ++ c)
      = .ok (.binary .AND (.binary .AND (.var a) (.var b)) (.var c))
          [⟨.END_OF_INPUT, ""⟩] := by
  unfold ExpressionParser.parse
  rw [tokenize_eq]
  simp only [String.data_append, List.append_assoc]
  rw [tokenizeFrom_name a _ ha (closed_and _), tokenizeFrom_and,
    tokenizeFrom_name b _ hb (closed_and _), tokenizeFrom_and, tokenizeFrom_last c hc]
  rfl

theorem parse_example5 (a b c : String) (ha : isLexerName a = true) (hb : isLexerName b = true) (hc : isLexerName c = true) :
    ExpressionParser.parse (a ++ " | " ++ b ++ " & " ++ c)
      = .ok (.binary .OR (.var a) (.binary .AND (.var b) (.var c)))
          [⟨.END_OF_INPUT, ""⟩] := by
  unfold ExpressionParser.parse
  rw [tokenize_eq]
  simp only [String.data_append, List.append_assoc]
  rw [tokenizeFrom_name a _ ha (closed_or _), tokenizeFrom_or,
    tokenizeFrom_name b _ hb (closed_and _), tokenizeFrom_and, tokenizeFrom_last c hc]
  rfl

theorem parse_example6 (a b c : String) (ha : isLexerName a = true) (hb : isLexerName b = true) (hc : isLexerName c = true) :
    ExpressionParser.parse (a ++ " -> " ++ b ++ " | " ++ c)
      = .ok (.binary .IMPLIES (.var a) (.binary .OR (.var b) (.var c)))
          [⟨.END_OF_INPUT, ""⟩] := by
  unfold ExpressionParser.parse
  rw [tokenize_eq]
  simp only [String.data_append, List.append_assoc]
  rw [tokenizeFrom_name a _ ha (closed_implies _), tokenizeFrom_implies,
    tokenizeFrom_name b _ hb (closed_or _), tokenizeFrom_or, tokenizeFrom_last c hc]
  rfl

theorem parse_example7 (a b c : String) (ha : isLexerName a = true) (hb : isLexerName b = true) (hc : isLexerName c = true) :
    ExpressionParser.parse (a ++ " <-> " ++ b ++ " -> " ++ c)
      = .ok (.binary .BICONDITIONAL (.var a) (.binary .IMPLIES (.var b) (.var c)))
          [⟨.END_OF_INPUT, ""⟩] := by
  unfold ExpressionParser.parse
  rw [tokenize_eq]
  simp only [String.data_append, List.append_assoc]
  rw [tokenizeFrom_name a _ ha (closed_iff _), tokenizeFrom_iff,
    tokenizeFrom_name b _ hb (closed_implies _), tokenizeFrom_implies, tokenizeFrom_last c hc]
  rfl

theorem parse_example8 (a b : String) (ha : isLexerName a = true) (hb : isLexerName b = true) :
    ExpressionParser.parse ("!" ++ a ++ " & " ++ b)
      = .ok (.binary .AND (.not (.var a)) (.var b))
          [⟨.END_OF_INPUT, ""⟩] := by
  unfold ExpressionParser.parse
  rw [tokenize_eq]
  simp only [String.data_append, List.append_assoc]
  rw [tokenizeFrom_bang, tokenizeFrom_name a _ ha (closed_and _), tokenizeFrom_and,
    tokenizeFrom_last b hb]
  rfl

theorem parse_example9 (a : String) (ha : isLexerName a = true) :
    ExpressionParser.parse ("!!" ++ a)
      = .ok (.not (.not (.var a)))
          [⟨.END_OF_INPUT, ""⟩] := by
  unfold ExpressionParser.parse
  rw [tokenize_eq]
  simp only [String.data_append, List.append_assoc]
  rw [tokenizeFrom_bangs, tokenizeFrom_last a ha]
  rfl

theorem parse_example10 (a b c : String) (ha : isLexerName a = true) (hb : isLexerName b = true) (hc : isLexerName c = true) :
    ExpressionParser.parse ("(" ++ a ++ " | " ++ b ++ ")" ++ " & " ++ c)
      = .ok (.binary .AND (.binary .OR (.var a) (.var b)) (.var c))
          [⟨.END_OF_INPUT, ""⟩] := by
  unfold ExpressionParser.parse
  rw [tokenize_eq]
  simp only [String.data_append, List.append_assoc]
  rw [tokenizeFrom_open, tokenizeFrom_name a _ ha (closed_or _), tokenizeFrom_or,
    tokenizeFrom_name b _ hb (closed_close _), tokenizeFrom_close, tokenizeFrom_and,
    tokenizeFrom_last c hc]
  rfl

theorem leaf_no_rule (x : Expr) (hx : x.isLeaf = true) (law : LogicLaw) :
    applyLawToNode x law = none := by
  cases x with
  | var n => cases law <;> rfl
  | const v => cases law <;> rfl
  | not y => simp [Expr.isLeaf] at hx
  | binary op l r => simp [Expr.isLeaf] at hx

theorem oneSided_of_leaf (x : Expr) (hx : x.isLeaf = true) : x.oneSided = true := by
  cases x with
  | var n => rfl
  | const v => rfl
  | not y => simp [Expr.isLeaf] at hx
  | binary op l r => simp [Expr.isLeaf] at hx

theorem withDirectResult_length (e : Expr) (law : LogicLaw) (subs : List Transformation) :
    ∃ ts, withDirectResult e law (some subs) = some ts ∧
      ts.length = (if (applyLawToNode e law).isSome then 1 else 0) + subs.length := by
  unfold withDirectResult
  cases h : applyLawToNode e law with
  | none => exact ⟨subs, rfl, by simp⟩
  | some d => exact ⟨_, rfl, by simp; omega⟩

theorem applyLawRecursively_leaf (x : Expr) (hx : x.isLeaf = true) (law : LogicLaw) :
    applyLawRecursively x law = some [] ∧ ruleCount law x = 0 := by
  have hn := leaf_no_rule x hx law
  cases x with
  | var n =>
    refine ⟨?_, ?_⟩
    · rw [applyLawRecursively]; simp [withDirectResult, hn]
    · simp [ruleCount, hn]
  | const v =>
    refine ⟨?_, ?_⟩
    · rw [applyLawRecursively]; simp [withDirectResult, hn]
    · simp [ruleCount, hn]
  | not y => simp [Expr.isLeaf] at hx
  | binary op l r => simp [Expr.isLeaf] at hx

/-- On a one-sided expression `applyLawRecursively` returns, with one transformation
for each position at which the rule of the law applies. -/
theorem applyLawRecursively_count (law : LogicLaw) : ∀ e : Expr, e.oneSided = true →
    ∃ ts, applyLawRecursively e law = some ts ∧ ts.length = ruleCount law e := by
  intro e
  induction e with
  | var n =>
    intro _
    obtain ⟨ts, h1, h2⟩ := withDirectResult_length (.var n) law []
    exact ⟨ts, by rw [applyLawRecursively]; exact h1, by rw [h2]; simp [ruleCount]⟩
  | const v =>
    intro _
    obtain ⟨ts, h1, h2⟩ := withDirectResult_length (.const v) law []
    exact ⟨ts, by rw [applyLawRecursively]; exact h1, by rw [h2]; simp [ruleCount]⟩
  | not x ih =>
    intro h
    obtain ⟨xs, hx1, hx2⟩ := ih h
    obtain ⟨ts, h1, h2⟩ := withDirectResult_length (.not x) law
      (xs.map (fun t => ⟨t.law, t.description, .not t.result⟩))
    refine ⟨ts, ?_, ?_⟩
    · rw [applyLawRecursively, hx1]; exact h1
    · rw [h2, List.length_map, hx2]; simp [ruleCount]
  | binary op l r ihl ihr =>
    intro h
    simp only [Expr.oneSided, Bool.or_eq_true, Bool.and_eq_true] at h
    rcases h with ⟨hl, hr⟩ | ⟨hr, hl⟩
    · obtain ⟨hl1, hl2⟩ := applyLawRecursively_leaf l hl law
      obtain ⟨rs, hr1, hr2⟩ := ihr hr
      obtain ⟨ts, h1, h2⟩ := withDirectResult_length (.binary op l r) law
        (rs.map (fun t => ⟨t.law, t.description, .binary op l t.result⟩))
      refine ⟨ts, ?_, ?_⟩
      · rw [applyLawRecursively, hl1, hr1]
        simp only [wrapChildren, combineBinary, List.map_nil, crossProduct, List.nil_append,
          List.append_nil]
        exact h1
      · rw [h2, List.length_map, hr2]; simp only [ruleCount, hl2]; omega
    · obtain ⟨hr1, hr2⟩ := applyLawRecursively_leaf r hr law
      obtain ⟨ls, hl1, hl2⟩ := ihl hl
      obtain ⟨ts, h1, h2⟩ := withDirectResult_length (.binary op l r) law
        (ls.map (fun t => ⟨t.law, t.description, .binary op t.result r⟩))
      refine ⟨ts, ?_, ?_⟩
      · rw [applyLawRecursively, hl1, hr1]
        simp only [wrapChildren, combineBinary, List.map_nil, crossProduct_moved_nil_right,
          List.append_nil]
        exact h1
      · rw [h2, List.length_map, hl2]; simp only [ruleCount, hr2]; omega

theorem generateForLaws_count (e : Expr) (h : e.oneSided = true) :
    ∀ laws : List LogicLaw, ∃ ts, generateForLaws e laws = some ts ∧
      ts.length = (laws.map (fun law => ruleCount law e)).sum := by
  intro laws
  induction laws with
  | nil => exact ⟨[], rfl, rfl⟩
  | cons law rest ih =>
    obtain ⟨ts1, h1, h2⟩ := applyLawRecursively_count law e h
    obtain ⟨ts2, h3, h4⟩ := ih
    refine ⟨ts1 ++ ts2, ?_, ?_⟩
    · simp only [generateForLaws, h1, h3]
    · simp [h2, h4]

theorem generateAllTransformations_count (e : Expr) (h : e.oneSided = true) :
    ∃ ts, generateAllTransformations e = some ts ∧ ts.length = rewriteCount e :=
  generateForLaws_count e h all_laws

/-- On a node with a one-sided expression `expandNode` returns `expandCount` nodes. -/
theorem expandNode_count (node : ProofSearchNode) (h : node.expression.oneSided = true) :
    ∃ nodes, expandNode node = some nodes ∧ nodes.length = expandCount node.expression := by
  obtain ⟨e, d, path⟩ := node
  simp only at h
  obtain ⟨ts, h1, h2⟩ := generateAllTransformations_count e h
  cases e with
  | var n =>
    unfold expandNode
    simp only [h1]
    exact ⟨_, rfl, by simp [h2, expandCount]⟩
  | const v =>
    unfold expandNode
    simp only [h1]
    exact ⟨_, rfl, by simp [h2, expandCount]⟩
  | not x =>
    obtain ⟨xs, h3, h4⟩ := generateAllTransformations_count x h
    unfold expandNode
    simp only [h1, h3]
    exact ⟨_, rfl, by simp [h2, h4, expandCount]⟩
  | binary op l r =>
    have hlr : l.oneSided = true ∧ r.oneSided = true := by
      simp only [Expr.oneSided, Bool.or_eq_true, Bool.and_eq_true] at h
      rcases h with ⟨hl, hr⟩ | ⟨hr, hl⟩
      · exact ⟨oneSided_of_leaf l hl, hr⟩
      · exact ⟨hl, oneSided_of_leaf r hr⟩
    obtain ⟨ls, h3, h4⟩ := generateAllTransformations_count l hlr.1
    obtain ⟨rs, h5, h6⟩ := generateAllTransformations_count r hlr.2
    unfold expandNode
    simp only [h1, h3, h5]
    exact ⟨_, rfl, by simp [h2, h4, h6, expandCount]; omega⟩

theorem toString_length (e : Expr) : e.toString.length = e.textLength := by
  induction e with
  | var n => rfl
  | const v => cases v <;> rfl
  | not x ih =>
    have h1 : "!".length = 1 := by decide
    simp only [Expr.toString, Expr.textLength, String.length_append, ih, h1]
    omega
  | binary op l r ihl ihr =>
    have h1 : "(".length = 1 := by decide
    have h2 : ")".length = 1 := by decide
    simp only [Expr.toString, Expr.textLength, String.length_append, ihl, ihr, h1, h2]
    omega

theorem same_iff : ∀ a b : Expr, a.same b = true ↔ a = b := by
  intro a
  induction a with
  | var n => intro b; cases b <;> simp [Expr.same]
  | const v => intro b; cases b <;> simp [Expr.same]
  | not x ih => intro b; cases b <;> simp [Expr.same, ih]
  | binary op l r ihl ihr =>
    intro b
    cases b <;> simp [Expr.same, ihl, ihr, and_assoc]

/-- With proper names throughout, the enqueuing loop keyed by texts lets through the
same expressions as the loop keyed by the trees. -/
theorem enqueueTrees_spec : ∀ (nodes queue : List ProofSearchNode) (visited : List Expr),
    (∀ n ∈ nodes, n.expression.namesAll isProperName = true) →
    (∀ x ∈ visited, x.namesAll isProperName = true) →
    (enqueueUnvisited nodes queue (visited.map expressionToString)).1.map
        (fun n => n.expression)
      = (enqueueTrees (nodes.map (fun n => n.expression))
          (queue.map (fun n => n.expression)) visited).1 := by
  intro nodes
  induction nodes with
  | nil => intro queue visited _ _; rfl
  | cons n rest ih =>
    intro queue visited hn hv
    have hrest : ∀ m ∈ rest, m.expression.namesAll isProperName = true :=
      fun m hm => hn m (List.mem_cons_of_mem _ hm)
    have hne := hn n (List.mem_cons_self _ _)
    have hiff : isVisited (visited.map expressionToString) n.expression = true
        ↔ n.expression ∈ visited := by
      simp only [isVisited, decide_eq_true_eq, List.mem_map, expressionToString]
      constructor
      · rintro ⟨x, hx, hxe⟩
        rw [← toString_injective x n.expression (hv x hx) hne hxe]
        exact hx
      · intro hx
        exact ⟨n.expression, hx, rfl⟩
    have hany : visited.any (fun v => n.expression.same v) = true ↔ n.expression ∈ visited := by
      simp only [List.any_eq_true, same_iff]
      constructor
      · rintro ⟨x, hx, rfl⟩; exact hx
      · intro hx; exact ⟨_, hx, rfl⟩
    simp only [enqueueUnvisited, List.map_cons, enqueueTrees]
    by_cases hmem : n.expression ∈ visited
    · rw [if_pos (hiff.2 hmem), if_pos (hany.2 hmem)]
      exact ih queue visited hrest hv
    · rw [if_neg (fun h => hmem (hiff.1 h)), if_neg (fun h => hmem (hany.1 h))]
      have := ih (queue ++ [n]) (n.expression :: visited) hrest
        (by
          intro x hx
          rcases List.mem_cons.1 hx with rfl | hx
          · exact hne
          · exact hv x hx)
      simpa [markVisited] using this

theorem exhaustsFast_sound (ps : ProofSearch) (target : Expr) (hD : 1 < ps.max_depth) :
    ∀ (xs : List ProofSearchNode) (c : Nat), (∀ n ∈ xs, n.depth = 1) →
      exhaustsFast ps target (xs.map (fun n => n.expression)) c = true →
      exhausts ps target xs c = true := by
  intro xs
  induction xs with
  | nil => intro c _ h; exact h
  | cons x rest ih =>
    intro c hdepth h
    have hx : x.depth = 1 := hdepth x (List.mem_cons_self _ _)
    have hrest : ∀ n ∈ rest, n.depth = 1 := fun n hn => hdepth n (List.mem_cons_of_mem _ hn)
    simp only [List.map_cons, exhaustsFast] at h
    simp only [exhausts]
    by_cases hc : (c : Int) < ps.max_transformations
    · rw [if_neg (not_not.2 hc)] at h ⊢
      rw [if_neg (by rw [hx]; omega)]
      cases heq : areEquivalent x.expression target with
      | true => rw [heq] at h; simp at h
      | false =>
        rw [heq] at h
        simp only [Bool.false_eq_true, if_false] at h ⊢
        by_cases hlen : x.expression.textLength > 200
        · rw [if_pos hlen] at h
          have hp : shouldPrune ps x = true := by
            unfold shouldPrune
            split
            · rfl
            · simp [expressionToString, toString_length, hlen]
          rw [hp]
          simp only [if_true]
          exact ih c hrest h
        · rw [if_neg hlen] at h
          have hp : shouldPrune ps x = false := by
            unfold shouldPrune
            rw [if_neg (by rw [hx]; omega)]
            simp [expressionToString, toString_length, hlen]
          rw [hp]
          simp only [Bool.false_eq_true, if_false]
          cases hone : x.expression.oneSided with
          | false => rw [hone] at h; simp at h
          | true =>
            rw [hone] at h
            simp only [if_true] at h
            obtain ⟨nodes, hn1, hn2⟩ := expandNode_count x hone
            rw [hn1]
            simp only []
            rw [hn2]
            exact ih _ hrest h
    · rw [if_pos hc]

/-- The enqueuing loop lets through the same nodes when it is run on the successors of
the whole-expression pass only. -/
theorem enqueueUnvisited_whole (node : ProofSearchNode) (nodes : List ProofSearchNode)
    (ts : List Transformation) (h : expandNode node = some nodes)
    (hts : generateAllTransformations node.expression = some ts)
    (queue : List ProofSearchNode) (visited : List String) :
    enqueueUnvisited nodes queue visited
      = enqueueUnvisited (ts.map (fun t => successorNode node t.result t.law t.description))
          queue visited := by
  obtain ⟨ts2, extra, hts2, hnodes, hextra, _, _⟩ := expandNode_whole node nodes h
  rw [hts] at hts2
  cases hts2
  rw [hnodes, enqueueUnvisited_append]
  apply enqueueUnvisited_all_visited
  intro n hn
  obtain ⟨u, hu, rfl⟩ := hextra n hn
  exact (enqueueUnvisited_visited_mono _ queue visited).2 _ (List.mem_map.2 ⟨u, hu, rfl⟩)

/-- When `limitBeforeTarget` holds, a successor of the start equals the target and the
search returns without a proof. -/
theorem findProof_limitBeforeTarget (ps : ProofSearch) (start target : Expr)
    (hM : 0 < ps.max_transformations) (hD : 1 < ps.max_depth)
    (hne : areEquivalent start target = false) (hlen : start.toString.length ≤ 200)
    (hnames : start.namesAll isProperName = true)
    (h : limitBeforeTarget ps start target = true) :
    (∃ nodes, expandNode ⟨start, 0, []⟩ = some nodes ∧
        ∃ n ∈ nodes, areEquivalent n.expression target = true) ∧
      ∃ ps2, findProof ps start target = some (⟨[], false, 0⟩, ps2) := by
  unfold limitBeforeTarget at h
  rw [Bool.and_eq_true] at h
  obtain ⟨hone, h⟩ := h
  obtain ⟨nodes, hexp, hcount⟩ := expandNode_count ⟨start, 0, []⟩ hone
  cases hts : generateAllTransformations start with
  | none => rw [hts] at h; simp at h
  | some ts =>
    rw [hts] at h
    simp only [Bool.and_eq_true, List.all_eq_true, List.any_eq_true, List.mem_map] at h
    obtain ⟨⟨hall, e, ⟨t, ht, rfl⟩, hany⟩, hfast⟩ := h
    obtain ⟨ts2, extra, hts2, hnodes, _, _, _⟩ := expandNode_whole ⟨start, 0, []⟩ nodes hexp
    rw [hts] at hts2
    cases hts2
    have hwhole := enqueueUnvisited_whole ⟨start, 0, []⟩ nodes ts hexp hts []
      (markVisited [] start)
    refine ⟨⟨nodes, hexp, successorNode ⟨start, 0, []⟩ t.result t.law t.description, ?_, hany⟩,
      ?_⟩
    · rw [hnodes]
      exact List.mem_append_left _ (List.mem_map.2 ⟨t, ht, rfl⟩)
    have hproper : ∀ m ∈ ts.map (fun t => successorNode ⟨start, 0, []⟩ t.result t.law
        t.description), m.expression.namesAll isProperName = true := by
      intro m hm
      obtain ⟨u, hu, rfl⟩ := List.mem_map.1 hm
      exact hall u.result ⟨u, hu, rfl⟩
    have hspec := enqueueTrees_spec _ [] [start] hproper
      (by intro x hx; simp at hx; subst hx; exact hnames)
    have hq : ∀ m ∈ (enqueueUnvisited nodes [] (markVisited [] start)).1, m.depth = 1 := by
      obtain ⟨added, hadd, hsub⟩ := enqueueUnvisited_queue nodes [] (markVisited [] start)
      intro m hm
      rw [hadd, List.nil_append] at hm
      obtain ⟨step, hstep, _⟩ := expandNode_successor ⟨start, 0, []⟩ nodes hexp m (hsub m hm)
      rw [hstep]
    have hex : exhausts ps target (enqueueUnvisited nodes [] (markVisited [] start)).1
        nodes.length = true := by
      apply exhaustsFast_sound ps target hD _ _ hq
      have hmv : markVisited [] start = [start].map expressionToString := rfl
      rw [hwhole, hmv, hspec, hcount]
      simp only [List.map_map, Function.comp, successorNode, List.map_nil]
      exact hfast
    exact findProof_of_exhausts ps start target nodes hM (by omega) hne hlen hexp hex

theorem alternatingChain_nodeCount (bottom : Expr) (n : Nat) :
    (alternatingChain bottom n).nodeCount = 2 * n + bottom.nodeCount := by
  induction n with
  | zero => simp [alternatingChain]
  | succ k ih =>
    simp only [alternatingChain]
    split <;> simp only [Expr.nodeCount, ih] <;> omega

theorem limitStart_ne_target : areEquivalent limitStart limitTarget = false := by
  cases h : areEquivalent limitStart limitTarget with
  | false => rfl
  | true =>
    have hc := equals_nodeCount _ _ h
    unfold limitStart limitTarget at hc
    rw [alternatingChain_nodeCount, alternatingChain_nodeCount, negations_nodeCount,
      negations_nodeCount] at hc
    simp [Expr.nodeCount, varP, varQ] at hc

theorem limitStart_textLength : limitStart.textLength = 200 := by decide!

theorem limitStart_names : limitStart.namesAll isProperName = true := by decide!

theorem limitStart_limitBeforeTarget :
    limitBeforeTarget defaultSearch limitStart limitTarget = true := by decide!

theorem findProof_steps_of_rounds (ps : ProofSearch) (start target : Expr) (fuel : Nat)
    (proof : Proof)
    (h : (searchRounds ps target fuel ⟨[⟨start, 0, []⟩], 0, markVisited [] start⟩).map
      (Option.map Prod.fst) = some (some proof)) :
    (findProof ps start target).map Prod.fst = some proof := by
  cases hr : searchRounds ps target fuel ⟨[⟨start, 0, []⟩], 0, markVisited [] start⟩ with
  | none => rw [hr] at h; simp at h
  | some r =>
    rw [hr] at h
    cases r with
    | none => simp at h
    | some pv =>
      obtain ⟨p, v⟩ := pv
      simp only [Option.map_some', Option.some.injEq] at h
      subst h
      rw [findProof_of_rounds ps start target fuel p v hr]
      rfl

/-- The run from `limitStart` to `limitTarget` with the default limits: the start has
200 characters and does not equal the target, a successor of the start equals the
target, and the search returns without a proof, the exploration counter having reached
`max_transformations` before that successor is dequeued. -/
theorem findProof_limitStart :
    limitStart.toString.length ≤ 200 ∧ areEquivalent limitStart limitTarget = false ∧
      (∃ nodes, expandNode ⟨limitStart, 0, []⟩ = some nodes ∧
        ∃ n ∈ nodes, areEquivalent n.expression limitTarget = true) ∧
      ∃ ps2, findProof defaultSearch limitStart limitTarget = some (⟨[], false, 0⟩, ps2) := by
  have hlen : limitStart.toString.length ≤ 200 := by
    rw [toString_length, limitStart_textLength]
  exact ⟨hlen, limitStart_ne_target,
    findProof_limitBeforeTarget defaultSearch limitStart limitTarget (by decide) (by decide)
      limitStart_ne_target hlen limitStart_names limitStart_limitBeforeTarget⟩

/-! ## A queued successor that equals the target -/

theorem shouldPrune_of_deep (ps : ProofSearch) (x : ProofSearchNode)
    (h : (x.depth : Int) > ps.max_depth) : shouldPrune ps x = true := by
  unfold shouldPrune
  rw [if_pos (by omega)]

/-- The loop of `findShortestProof` with a node that equals the target queued behind the
nodes `pre`, none of which equals the target: if the exploration counter stays below
`max_transformations` while `pre` is worked through, the loop returns the path of that
node, unless the expansion of a node of `pre` dereferences a null pointer. -/
theorem searchLoop_reaches (ps : ProofSearch) (t : Expr) (first : ProofSearchNode)
    (heq : areEquivalent first.expression t = true)
    (hdepth : ¬ ((first.depth : Int) > ps.max_depth)) :
    ∀ (pre ys : List ProofSearchNode) (c : Nat) (v : List String),
      (∀ x ∈ pre, areEquivalent x.expression t = false) →
      ((c + exploredBy ps pre : Nat) : Int) < ps.max_transformations →
      (searchLoop ps t ⟨pre ++ first :: ys, c, v⟩ = none ∧
          ∃ x ∈ pre, shouldPrune ps x = false ∧ expandNode x = none) ∨
        ∃ v2, searchLoop ps t ⟨pre ++ first :: ys, c, v⟩
          = some (reconstructProof first.path true, v2) := by
  intro pre
  induction pre with
  | nil =>
    intro ys c v _ hM
    right
    have hlt : (c : Int) < ps.max_transformations := by
      simp only [exploredBy, Nat.add_zero] at hM
      exact hM
    have hit : searchIteration ps t ⟨[] ++ first :: ys, c, v⟩
        = .finished (some (reconstructProof first.path true, v)) := by
      unfold searchIteration
      simp only [List.nil_append, not_not.2 hlt, hdepth, heq, if_true, if_false,
        not_true_eq_false]
    exact ⟨v, searchLoop_finished hit⟩
  | cons x pre ih =>
    intro ys c v hpre hM
    have hx := hpre x (List.mem_cons_self _ _)
    have hrest : ∀ y ∈ pre, areEquivalent y.expression t = false :=
      fun y hy => hpre y (List.mem_cons_of_mem _ hy)
    have hclt : (c : Int) < ps.max_transformations := by
      have : (c : Int) ≤ ((c + exploredBy ps (x :: pre) : Nat) : Int) := by
        exact_mod_cast Nat.le_add_right _ _
      omega
    have lift : ∀ (c2 : Nat) (ys2 : List ProofSearchNode) (v2 : List String),
        ((c2 + exploredBy ps pre : Nat) : Int) < ps.max_transformations →
        searchLoop ps t ⟨(x :: pre) ++ first :: ys, c, v⟩
          = searchLoop ps t ⟨pre ++ first :: ys2, c2, v2⟩ →
        (searchLoop ps t ⟨(x :: pre) ++ first :: ys, c, v⟩ = none ∧
            ∃ z ∈ x :: pre, shouldPrune ps z = false ∧ expandNode z = none) ∨
          ∃ v3, searchLoop ps t ⟨(x :: pre) ++ first :: ys, c, v⟩
            = some (reconstructProof first.path true, v3) := by
      intro c2 ys2 v2 hM2 hstep
      rcases ih ys2 c2 v2 hrest hM2 with ⟨hnone, z, hz, hzp, hze⟩ | ⟨v3, hv3⟩
      · exact Or.inl ⟨by rw [hstep, hnone], z, List.mem_cons_of_mem _ hz, hzp, hze⟩
      · exact Or.inr ⟨v3, by rw [hstep, hv3]⟩
    have hc := searchIteration_case ps t ⟨(x :: pre) ++ first :: ys, c, v⟩
    cases ho : searchIteration ps t ⟨(x :: pre) ++ first :: ys, c, v⟩ with
    | finished r =>
      rw [ho] at hc
      cases hc with
      | empty hq => simp at hq
      | limit _ _ _ hlt => exact absurd hclt hlt
      | found current rest hq hlt hd hfound =>
        simp at hq
        obtain ⟨rfl, rfl⟩ := hq
        rw [hx] at hfound
        cases hfound
      | nullDeref current rest hq hlt hd hne hprune hexp =>
        simp at hq
        obtain ⟨rfl, rfl⟩ := hq
        exact Or.inl ⟨searchLoop_finished ho, _, List.mem_cons_self _ _, hprune, hexp⟩
    | again next =>
      rw [ho] at hc
      cases hc with
      | tooDeep current rest hq hlt hd =>
        simp at hq
        obtain ⟨rfl, rfl⟩ := hq
        have hp := shouldPrune_of_deep ps _ hd
        refine lift c ys v ?_ (searchLoop_again ho)
        simp only [exploredBy, hp, if_true, Nat.zero_add] at hM
        exact hM
      | pruned current rest hq hlt hd hne hprune =>
        simp at hq
        obtain ⟨rfl, rfl⟩ := hq
        refine lift c ys v ?_ (searchLoop_again ho)
        simp only [exploredBy, hprune, if_true, Nat.zero_add] at hM
        exact hM
      | expanded current rest expanded_nodes hq hlt hd hne hprune hexp =>
        simp at hq
        obtain ⟨rfl, rfl⟩ := hq
        obtain ⟨added, hadd, _⟩ :=
          enqueueUnvisited_queue expanded_nodes (pre ++ first :: ys) v
        have hnext : searchLoop ps t ⟨(x :: pre) ++ first :: ys, c, v⟩
            = searchLoop ps t ⟨pre ++ first :: (ys ++ added), c + expanded_nodes.length,
                (enqueueUnvisited expanded_nodes (pre ++ first :: ys) v).2⟩ := by
          rw [searchLoop_again ho]
          dsimp only
          rw [hadd, List.append_assoc, List.cons_append]
        refine lift _ _ _ ?_ hnext
        simp only [exploredBy, hprune, hexp, Option.getD_some, Bool.false_eq_true,
          if_false] at hM
        rw [Nat.add_assoc]
        exact hM

/-- A successor of the start that is queued behind successors none of which equals the
target, and that equals the target itself, is returned as a one-step proof when the
exploration counter stays below `max_transformations` until it is dequeued, unless the
expansion of one of the successors in front of it dereferences a null pointer. -/
theorem findProof_queued (ps : ProofSearch) (start target : Expr)
    (nodes pre : List ProofSearchNode) (first : ProofSearchNode)
    (rest : List ProofSearchNode) (hD : 0 < ps.max_depth)
    (hne : areEquivalent start target = false) (hlen : start.toString.length ≤ 200)
    (hexp : expandNode ⟨start, 0, []⟩ = some nodes)
    (hq : (enqueueUnvisited nodes [] (markVisited [] start)).1 = pre ++ first :: rest)
    (hpre : ∀ x ∈ pre, areEquivalent x.expression target = false)
    (heq : areEquivalent first.expression target = true)
    (hM : ((nodes.length + exploredBy ps pre : Nat) : Int) < ps.max_transformations) :
    ∃ step : ProofStep, first = ⟨step.expression, 1, [step]⟩ ∧ Replays start step ∧
      ((findProof ps start target = none ∧
          ∃ x ∈ pre, shouldPrune ps x = false ∧ expandNode x = none) ∨
        ∃ ps2, findProof ps start target
          = some (⟨[⟨step.expression, step.law_applied, step.description, 1⟩], true, 1⟩,
              ps2)) := by
  have hpos : 0 < ps.max_transformations := by
    have : (0 : Int) ≤ ((nodes.length + exploredBy ps pre : Nat) : Int) :=
      Int.ofNat_nonneg _
    omega
  have hround := first_round ps start target nodes hpos hD hne hlen hexp
  obtain ⟨added, hadd, hsub⟩ := enqueueUnvisited_queue nodes [] (markVisited [] start)
  have hmem : first ∈ nodes := by
    apply hsub
    rw [hq] at hadd
    simp at hadd
    rw [← hadd]
    simp
  obtain ⟨step, hfirst, hrep⟩ := expandNode_successor ⟨start, 0, []⟩ nodes hexp first hmem
  simp only [Nat.zero_add, List.nil_append] at hfirst
  have hdepth : ¬ ((first.depth : Int) > ps.max_depth) := by
    rw [hfirst]; simp only; omega
  have hloop : searchLoop ps target ⟨[⟨start, 0, []⟩], 0, markVisited [] start⟩
      = searchLoop ps target ⟨pre ++ first :: rest, nodes.length,
          (enqueueUnvisited nodes [] (markVisited [] start)).2⟩ := by
    rw [searchLoop_again hround, hq]
  refine ⟨step, hfirst, hrep, ?_⟩
  rcases searchLoop_reaches ps target first heq hdepth pre rest nodes.length
      (enqueueUnvisited nodes [] (markVisited [] start)).2 hpre hM with
    ⟨hnone, hcrash⟩ | ⟨v2, hv2⟩
  · left
    refine ⟨?_, hcrash⟩
    unfold findProof findShortestProof
    rw [hloop, hnone]
  · right
    refine ⟨⟨v2, ps.max_depth, ps.max_transformations⟩, ?_⟩
    unfold findProof findShortestProof
    rw [hloop, hv2, hfirst]
    rfl

/-- The loop of `findShortestProof` with the nodes `pre`, none of which equals the
target, at the front of its queue: if the exploration counter is at `max_transformations`
or above once `pre` is worked through, the loop returns without a proof, unless the
expansion of a node of `pre` dereferences a null pointer. -/
theorem searchLoop_limit_first (ps : ProofSearch) (t : Expr) :
    ∀ (pre ys : List ProofSearchNode) (c : Nat) (v : List String),
      (∀ x ∈ pre, areEquivalent x.expression t = false) →
      ¬ (((c + exploredBy ps pre : Nat) : Int) < ps.max_transformations) →
      (searchLoop ps t ⟨pre ++ ys, c, v⟩ = none ∧
          ∃ x ∈ pre, shouldPrune ps x = false ∧ expandNode x = none) ∨
        ∃ v2, searchLoop ps t ⟨pre ++ ys, c, v⟩ = some (reconstructProof [] false, v2) := by
  intro pre
  induction pre with
  | nil =>
    intro ys c v _ hM
    right
    simp only [exploredBy, Nat.add_zero] at hM
    exact ⟨v, searchLoop_finished (searchIteration_limit ps t ⟨[] ++ ys, c, v⟩ hM)⟩
  | cons x pre ih =>
    intro ys c v hpre hM
    have hx := hpre x (List.mem_cons_self _ _)
    have hrest : ∀ y ∈ pre, areEquivalent y.expression t = false :=
      fun y hy => hpre y (List.mem_cons_of_mem _ hy)
    have lift : ∀ (c2 : Nat) (ys2 : List ProofSearchNode) (v2 : List String),
        ¬ (((c2 + exploredBy ps pre : Nat) : Int) < ps.max_transformations) →
        searchLoop ps t ⟨(x :: pre) ++ ys, c, v⟩ = searchLoop ps t ⟨pre ++ ys2, c2, v2⟩ →
        (searchLoop ps t ⟨(x :: pre) ++ ys, c, v⟩ = none ∧
            ∃ z ∈ x :: pre, shouldPrune ps z = false ∧ expandNode z = none) ∨
          ∃ v3, searchLoop ps t ⟨(x :: pre) ++ ys, c, v⟩
            = some (reconstructProof [] false, v3) := by
      intro c2 ys2 v2 hM2 hstep
      rcases ih ys2 c2 v2 hrest hM2 with ⟨hnone, z, hz, hzp, hze⟩ | ⟨v3, hv3⟩
      · exact Or.inl ⟨by rw [hstep, hnone], z, List.mem_cons_of_mem _ hz, hzp, hze⟩
      · exact Or.inr ⟨v3, by rw [hstep, hv3]⟩
    have hc := searchIteration_case ps t ⟨(x :: pre) ++ ys, c, v⟩
    cases ho : searchIteration ps t ⟨(x :: pre) ++ ys, c, v⟩ with
    | finished r =>
      rw [ho] at hc
      cases hc with
      | empty hq => simp at hq
      | limit _ _ _ hlt => exact Or.inr ⟨v, searchLoop_finished ho⟩
      | found current rest hq hlt hd hfound =>
        simp at hq
        obtain ⟨rfl, rfl⟩ := hq
        rw [hx] at hfound
        cases hfound
      | nullDeref current rest hq hlt hd hne hprune hexp =>
        simp at hq
        obtain ⟨rfl, rfl⟩ := hq
        exact Or.inl ⟨searchLoop_finished ho, _, List.mem_cons_self _ _, hprune, hexp⟩
    | again next =>
      rw [ho] at hc
      cases hc with
      | tooDeep current rest hq hlt hd =>
        simp at hq
        obtain ⟨rfl, rfl⟩ := hq
        have hp := shouldPrune_of_deep ps _ hd
        refine lift c ys v ?_ (searchLoop_again ho)
        simp only [exploredBy, hp, if_true, Nat.zero_add] at hM
        exact hM
      | pruned current rest hq hlt hd hne hprune =>
        simp at hq
        obtain ⟨rfl, rfl⟩ := hq
        refine lift c ys v ?_ (searchLoop_again ho)
        simp only [exploredBy, hprune, if_true, Nat.zero_add] at hM
        exact hM
      | expanded current rest expanded_nodes hq hlt hd hne hprune hexp =>
        simp at hq
        obtain ⟨rfl, rfl⟩ := hq
        obtain ⟨added, hadd, _⟩ := enqueueUnvisited_queue expanded_nodes (pre ++ ys) v
        have hnext : searchLoop ps t ⟨(x :: pre) ++ ys, c, v⟩
            = searchLoop ps t ⟨pre ++ (ys ++ added), c + expanded_nodes.length,
                (enqueueUnvisited expanded_nodes (pre ++ ys) v).2⟩ := by
          rw [searchLoop_again ho]
          dsimp only
          rw [hadd, List.append_assoc]
        refine lift _ _ _ ?_ hnext
        simp only [exploredBy, hprune, hexp, Option.getD_some, Bool.false_eq_true,
          if_false] at hM
        rw [Nat.add_assoc]
        exact hM

/-- When the successors queued in front of one that equals the target bring the
exploration counter to `max_transformations` or above, `findProof` returns without a
proof, unless the expansion of one of them dereferences a null pointer. -/
theorem findProof_queued_late (ps : ProofSearch) (start target : Expr)
    (nodes pre rest : List ProofSearchNode) (hD : 0 < ps.max_depth)
    (hpos : 0 < ps.max_transformations)
    (hne : areEquivalent start target = false) (hlen : start.toString.length ≤ 200)
    (hexp : expandNode ⟨start, 0, []⟩ = some nodes)
    (hq : (enqueueUnvisited nodes [] (markVisited [] start)).1 = pre ++ rest)
    (hpre : ∀ x ∈ pre, areEquivalent x.expression target = false)
    (hM : ¬ (((nodes.length + exploredBy ps pre : Nat) : Int) < ps.max_transformations)) :
    (findProof ps start target = none ∧
        ∃ x ∈ pre, shouldPrune ps x = false ∧ expandNode x = none) ∨
      ∃ ps2, findProof ps start target = some (⟨[], false, 0⟩, ps2) := by
  have hround := first_round ps start target nodes hpos hD hne hlen hexp
  have hloop : searchLoop ps target ⟨[⟨start, 0, []⟩], 0, markVisited [] start⟩
      = searchLoop ps target ⟨pre ++ rest, nodes.length,
          (enqueueUnvisited nodes [] (markVisited [] start)).2⟩ := by
    rw [searchLoop_again hround, hq]
  rcases searchLoop_limit_first ps target pre rest nodes.length
      (enqueueUnvisited nodes [] (markVisited [] start)).2 hpre hM with
    ⟨hnone, hcrash⟩ | ⟨v2, hv2⟩
  · left
    refine ⟨?_, hcrash⟩
    unfold findProof findShortestProof
    rw [hloop, hnone]
  · right
    refine ⟨⟨v2, ps.max_depth, ps.max_transformations⟩, ?_⟩
    unfold findProof findShortestProof
    rw [hloop, hv2]
    rfl

theorem namesAll_iff (ok : String → Bool) (e : Expr) :
    e.namesAll ok = true ↔ ∀ v ∈ e.vars, ok v = true := by
  induction e with
  | var n => simp [Expr.namesAll, Expr.vars]
  | const b => simp [Expr.namesAll, Expr.vars]
  | not a ih => simpa [Expr.namesAll, Expr.vars] using ih
  | binary op l r ihl ihr =>
    simp only [Expr.namesAll, Expr.vars, Bool.and_eq_true, ihl, ihr, List.mem_append]
    constructor
    · rintro ⟨h1, h2⟩ v (hv | hv)
      · exact h1 v hv
      · exact h2 v hv
    · intro h
      exact ⟨fun v hv => h v (Or.inl hv), fun v hv => h v (Or.inr hv)⟩

/-- A rewrite step introduces no variable. -/
theorem RewritesAt.vars_subset {law : LogicLaw} {e e2 : Expr} (h : RewritesAt law e e2) :
    ∀ v ∈ e2.vars, v ∈ e.vars := by
  induction h with
  | root h => exact applyLawToNode_vars law _ _ h
  | operand _ ih => exact ih
  | left op r _ ih =>
    intro v hv
    simp only [Expr.vars, List.mem_append] at hv ⊢
    exact hv.imp (ih v) id
  | right op l _ ih =>
    intro v hv
    simp only [Expr.vars, List.mem_append] at hv ⊢
    exact hv.imp id (ih v)

/-- The successors that `expandNode` returns carry only names of the expanded
expression. -/
theorem expandNode_names (ok : String → Bool) (node : ProofSearchNode)
    (nodes : List ProofSearchNode) (h : expandNode node = some nodes)
    (hn : node.expression.namesAll ok = true) :
    ∀ n ∈ nodes, n.expression.namesAll ok = true := by
  intro n hmem
  obtain ⟨step, hstep, ts, hts, t, ht, _, hres⟩ := expandNode_successor node nodes h n hmem
  have hrw := (applyLawRecursively_rewritesAt step.law_applied node.expression ts hts t ht).2
  rw [hres] at hrw
  rw [hstep]
  simp only
  rw [namesAll_iff] at hn ⊢
  exact fun v hv => hn v (hrw.vars_subset v hv)

/-- Every member of the visited set after the enqueuing loop was a member before or is
the text of one of the new nodes. -/
theorem enqueueUnvisited_visited_sub (a queue : List ProofSearchNode)
    (visited : List String) :
    ∀ x ∈ (enqueueUnvisited a queue visited).2,
      x ∈ visited ∨ ∃ m ∈ a, expressionToString m.expression = x := by
  induction a generalizing queue visited with
  | nil => intro x hx; exact Or.inl hx
  | cons n rest ih =>
    intro x hx
    simp only [enqueueUnvisited] at hx
    split at hx
    · rcases ih queue visited x hx with h | ⟨m, hm, hmx⟩
      · exact Or.inl h
      · exact Or.inr ⟨m, List.mem_cons_of_mem _ hm, hmx⟩
    · rcases ih _ _ x hx with h | ⟨m, hm, hmx⟩
      · simp only [markVisited, List.mem_cons] at h
        rcases h with h | h
        · exact Or.inr ⟨n, List.mem_cons_self _ _, h.symm⟩
        · exact Or.inl h
      · exact Or.inr ⟨m, List.mem_cons_of_mem _ hm, hmx⟩

/-- With proper names, the first successor in `expandNode` order that equals the target
is queued, behind those of the successors in front of it that are queued, none of which
equals the target. -/
theorem enqueueUnvisited_first_target (start target : Expr)
    (nodes before after : List ProofSearchNode) (n : ProofSearchNode)
    (hnames : start.namesAll isProperName = true)
    (hne : areEquivalent start target = false)
    (hexp : expandNode ⟨start, 0, []⟩ = some nodes)
    (hsplit : nodes = before ++ n :: after)
    (hbefore : ∀ x ∈ before, areEquivalent x.expression target = false)
    (heq : areEquivalent n.expression target = true) :
    ∃ rest, (enqueueUnvisited nodes [] (markVisited [] start)).1
        = (enqueueUnvisited before [] (markVisited [] start)).1 ++ n :: rest ∧
      ∀ x ∈ (enqueueUnvisited before [] (markVisited [] start)).1,
        areEquivalent x.expression target = false := by
  have hall := expandNode_names isProperName ⟨start, 0, []⟩ nodes hexp hnames
  have hnn : n.expression.namesAll isProperName = true :=
    hall n (by rw [hsplit]; simp)
  obtain ⟨addedA, haddA, hsubA⟩ := enqueueUnvisited_queue before [] (markVisited [] start)
  rw [List.nil_append] at haddA
  have hfresh : isVisited (enqueueUnvisited before [] (markVisited [] start)).2 n.expression
      = false := by
    cases hv : isVisited (enqueueUnvisited before [] (markVisited [] start)).2 n.expression with
    | false => rfl
    | true =>
      exfalso
      simp only [isVisited, decide_eq_true_eq] at hv
      rcases enqueueUnvisited_visited_sub before [] (markVisited [] start) _ hv with h | h
      · simp only [markVisited, List.mem_cons, List.mem_nil_iff, or_false,
          expressionToString] at h
        have := toString_injective _ _ hnn hnames h
        rw [this, hne] at heq
        cases heq
      · obtain ⟨m, hm, hmx⟩ := h
        simp only [expressionToString] at hmx
        have hmn : m.expression.namesAll isProperName = true :=
          hall m (by rw [hsplit]; exact List.mem_append_left _ hm)
        have := toString_injective _ _ hmn hnn hmx
        rw [← this, hbefore m hm] at heq
        cases heq
  obtain ⟨addedB, haddB, _⟩ := enqueueUnvisited_queue after
    ((enqueueUnvisited before [] (markVisited [] start)).1 ++ [n])
    (markVisited (enqueueUnvisited before [] (markVisited [] start)).2 n.expression)
  refine ⟨addedB, ?_, ?_⟩
  · rw [hsplit, enqueueUnvisited_append]
    simp only [enqueueUnvisited, hfresh, Bool.false_eq_true, if_false]
    rw [haddB, List.append_assoc, List.singleton_append]
  · intro x hx
    rw [haddA] at hx
    exact hbefore x (hsubA x hx)

theorem expandNode_thirdStart : expandNode ⟨thirdStart, 0, []⟩ = some thirdNodes := by
  decide

theorem generateEquivalentForms_empty (ps : ProofSearch) (e : Expr) (k : Int)
    (h : ps.max_transformations ≤ 0 ∨ k < 0) :
    generateEquivalentForms ps e k
      = some ([], ⟨markVisited [] e, ps.max_depth, ps.max_transformations⟩) := by
  by_cases hm : ps.max_transformations ≤ 0
  · apply generateEquivalentForms_of_rounds ps e k 1
    simp only [formsRounds, formsIteration]
    rw [if_pos (by simp; omega)]
  · have hk : k < 0 := by
      rcases h with h | h
      · exact absurd h hm
      · exact h
    apply generateEquivalentForms_of_rounds ps e k 2
    simp only [formsRounds, formsIteration]
    rw [if_neg (by simp; omega), if_neg (by simp), if_pos (by simp; omega)]

/-! ## Worked runs -/

theorem findProof_doubleNegation :
    findProof defaultSearch (.not (.not varP)) varP
      = some (doubleNegationProof, ⟨["p", "!!p"], 10, 10000⟩) :=
  findProof_of_rounds defaultSearch _ _ 2 _ _ (by decide)

theorem findProof_scenario5 :
    findProof defaultSearch scenario5Start scenario5Target
      = some (scenario5Proof, scenario5Search) :=
  findProof_of_rounds defaultSearch _ _ 2 _ _ (by decide)

/-! ## The claims -/

/-- C1: semantic soundness of the rule catalogue. For each of the 21 laws and every
expression `e`, if the rule function of the law (reached through the dispatch
`applyLawToNode`) returns `e2` on `e`, then `e2` and `e` have the same truth value under
every assignment of Booleans to variable names. -/
theorem C1_rule_semantic_soundness (law : LogicLaw) (e e2 : Expr)
    (h : applyLawToNode e law = some e2) (env : String → Bool) :
    e2.eval env = e.eval env :=
  applyLawToNode_eval env law e e2 h

/-- C1 at `!(p & q)` with `DE_MORGAN_AND`: the rule returns `!p | !q`, which has the
truth value of `!(p & q)` under the assignment that makes every variable true. -/
theorem C1_rule_semantic_soundness_witness :
    applyLawToNode (.not (.binary .AND varP varQ)) .DE_MORGAN_AND
        = some (.binary .OR (.not varP) (.not varQ)) ∧
      (Expr.binary .OR (.not varP) (.not varQ)).eval (fun _ => true)
        = (Expr.not (.binary .AND varP varQ)).eval (fun _ => true) :=
  ⟨rfl, C1_rule_semantic_soundness .DE_MORGAN_AND (.not (.binary .AND varP varQ))
    (.binary .OR (.not varP) (.not varQ)) rfl (fun _ => true)⟩

/-- C2: search soundness. If `findProof` returns a proof with `found_target` set, then
for every step of the proof (index `i` from 0) the law of the step, replayed by
`applyLawRecursively` on the expression before the step (the start expression for the
first step, the expression of the previous step otherwise), returns a transformation
tagged with that law whose result is the expression of the step; and the expression the
proof ends in equals the target under `equals`. -/
theorem C2_search_soundness (ps : ProofSearch) (start target : Expr) (proof : Proof)
    (ps2 : ProofSearch) (h : findProof ps start target = some (proof, ps2))
    (hfound : proof.found_target = true) :
    (∀ (i : Nat) (step : ProofStep), proof.steps[i]? = some step →
      ∃ ts, applyLawRecursively (exprBefore start proof.steps i) step.law_applied = some ts ∧
        ∃ t ∈ ts, t.law = step.law_applied ∧ t.result = step.expression) ∧
      (finalExpr start proof.steps).equals target = true := by
  obtain ⟨hchain, hfinal, _, _⟩ := findProof_found ps start target proof ps2 h hfound
  exact ⟨(chainFrom_iff_index Replays start proof.steps).1 hchain, hfinal⟩

/-- C2 on the run from `!!p` to `p`. -/
theorem C2_search_soundness_witness :
    findProof defaultSearch (.not (.not varP)) varP
        = some (doubleNegationProof, ⟨["p", "!!p"], 10, 10000⟩) ∧
      doubleNegationProof.found_target = true ∧
      ((∀ (i : Nat) (step : ProofStep), doubleNegationProof.steps[i]? = some step →
        ∃ ts, applyLawRecursively (exprBefore (.not (.not varP)) doubleNegationProof.steps i)
            step.law_applied = some ts ∧
          ∃ t ∈ ts, t.law = step.law_applied ∧ t.result = step.expression) ∧
        (finalExpr (.not (.not varP)) doubleNegationProof.steps).equals varP = true) :=
  ⟨findProof_doubleNegation, rfl,
    C2_search_soundness defaultSearch _ _ _ _ findProof_doubleNegation rfl⟩

/-- C3: `findProof` never reports a proof between formulas that are not logically
equivalent. For every start, target and limits, if the returned proof has `found_target`
set, then start and target have the same truth value under every assignment. And with
the default limits `findProof(p & q, p | q)` returns `found_target = false`, with no
step. -/
theorem C3_found_implies_equivalent :
    (∀ (ps : ProofSearch) (start target : Expr) (proof : Proof) (ps2 : ProofSearch),
      findProof ps start target = some (proof, ps2) → proof.found_target = true →
        ∀ env : String → Bool, start.eval env = target.eval env) ∧
      findProof defaultSearch (.binary .AND varP varQ) (.binary .OR varP varQ)
        = some (⟨[], false, 0⟩, ⟨["(q & p)", "(p & q)"], 10, 10000⟩) := by
  refine ⟨?_, findProof_of_rounds defaultSearch _ _ 3 _ _ (by decide)⟩
  intro ps start target proof ps2 h hfound env
  obtain ⟨hchain, hfinal, _, _⟩ := findProof_found ps start target proof ps2 h hfound
  rw [← equals_eval env _ _ hfinal]
  have hsem : ∀ (path : List ProofStep) (e : Expr), ChainFrom Replays e path →
      e.eval env = (finalExpr e path).eval env := by
    intro path
    induction path with
    | nil => intro e _; rfl
    | cons s rest ih =>
      intro e hc
      obtain ⟨⟨ts, hts, t, ht, hlaw, hres⟩, hrest⟩ := hc
      rw [finalExpr_cons, ← ih s.expression hrest, ← hres]
      have hrw := (applyLawRecursively_rewritesAt s.law_applied e ts hts t ht).2
      exact (hrw.eval_eq env).symm
  exact hsem proof.steps start hchain

/-- C3 on the run from `!!p` to `p`, under the assignment that makes every variable
true. -/
theorem C3_found_implies_equivalent_witness :
    findProof defaultSearch (.not (.not varP)) varP
        = some (doubleNegationProof, ⟨["p", "!!p"], 10, 10000⟩) ∧
      doubleNegationProof.found_target = true ∧
      (Expr.not (.not varP)).eval (fun _ => true) = varP.eval (fun _ => true) :=
  ⟨findProof_doubleNegation, rfl,
    C3_found_implies_equivalent.1 defaultSearch _ _ _ _ findProof_doubleNegation rfl
      (fun _ => true)⟩

/-- C4: breadth-first optimality. If `findProof(a, b)` returns a proof with
`found_target` set and `k ≥ 1` steps, then `findProof(a, b)` on a search with the same
`max_transformations` and `max_depth` set to `k - 1` returns `found_target = false`
(with an empty step list). -/
theorem C4_bfs_optimality (ps : ProofSearch) (a b : Expr) (proof : Proof) (ps2 : ProofSearch)
    (h : findProof ps a b = some (proof, ps2)) (hfound : proof.found_target = true)
    (hk : 1 ≤ proof.steps.length) :
    ∃ ps3, findProof (ps.setMaxDepth ((proof.steps.length : Int) - 1)) a b
      = some (⟨[], false, 0⟩, ps3) := by
  obtain ⟨_, _, hdepth, _⟩ := findProof_found ps a b proof ps2 h hfound
  obtain ⟨v, hloop⟩ := findProof_eq_some ps a b proof ps2 h
  obtain ⟨v2, hB⟩ := searchLoop_shorter_fails ps
    (ps.setMaxDepth ((proof.steps.length : Int) - 1)) b proof.steps.length rfl rfl hdepth
    ⟨[⟨a, 0, []⟩], 0, markVisited [] a⟩
    ⟨by simpa using hk, [], [], rfl, by simp, by simp⟩
    (by intro n hn; simp at hn; subst hn; rfl)
    proof v hloop hfound rfl
  refine ⟨⟨v2, (proof.steps.length : Int) - 1, ps.max_transformations⟩, ?_⟩
  unfold findProof findShortestProof
  rw [hB]
  rfl

/-- C4 on the run from `!!p` to `p`, which returns one step: with `max_depth = 0` the
search returns without a proof. -/
theorem C4_bfs_optimality_witness :
    findProof defaultSearch (.not (.not varP)) varP
        = some (doubleNegationProof, ⟨["p", "!!p"], 10, 10000⟩) ∧
      doubleNegationProof.found_target = true ∧ 1 ≤ doubleNegationProof.steps.length ∧
      ∃ ps3, findProof (defaultSearch.setMaxDepth ((doubleNegationProof.steps.length : Int) - 1))
        (.not (.not varP)) varP = some (⟨[], false, 0⟩, ps3) :=
  ⟨findProof_doubleNegation, rfl, by decide,
    C4_bfs_optimality defaultSearch _ _ _ _ findProof_doubleNegation rfl (by decide)⟩

/-- C5: reflexivity. On a search with the default limits (`max_depth = 10`,
`max_transformations = 10000`), whatever its visited set holds, if `start` equals
`target` under `equals` then `findProof` returns `found_target = true` with an empty
step list and `total_steps = 0`. In particular this holds for `target = start`, and for
`start = A & B`, `target = B & A`. -/
theorem C5_reflexivity :
    (∀ (ps : ProofSearch) (start target : Expr), ps.max_depth = 10 →
      ps.max_transformations = 10000 → start.equals target = true →
        findProof ps start target = some (⟨[], true, 0⟩, ⟨[start.toString], 10, 10000⟩)) ∧
      (∀ e : Expr, findProof defaultSearch e e
        = some (⟨[], true, 0⟩, ⟨[e.toString], 10, 10000⟩)) ∧
      (∀ A B : Expr, findProof defaultSearch (.binary .AND A B) (.binary .AND B A)
        = some (⟨[], true, 0⟩, ⟨[(Expr.binary .AND A B).toString], 10, 10000⟩)) := by
  have main : ∀ (ps : ProofSearch) (start target : Expr), ps.max_depth = 10 →
      ps.max_transformations = 10000 → start.equals target = true →
        findProof ps start target
          = some (⟨[], true, 0⟩, ⟨[start.toString], 10, 10000⟩) := by
    intro ps start target hd hm heq
    have hit : searchIteration ps target ⟨[⟨start, 0, []⟩], 0, markVisited [] start⟩
        = .finished (some (reconstructProof [] true, markVisited [] start)) := by
      simp [searchIteration, hd, hm, areEquivalent, heq]
    unfold findProof findShortestProof
    rw [searchLoop_finished hit, hd, hm]
    rfl
  refine ⟨main, ?_, ?_⟩
  · intro e
    exact main defaultSearch e e rfl rfl (equals_refl e)
  · intro A B
    refine main defaultSearch _ _ rfl rfl ?_
    rw [equals_binary_iff]
    exact ⟨B, A, rfl, Or.inr ⟨Or.inl rfl, equals_refl A, equals_refl B⟩⟩

/-- C5 at `start = p & q`, `target = q & p`. -/
theorem C5_reflexivity_witness :
    defaultSearch.max_depth = 10 ∧ defaultSearch.max_transformations = 10000 ∧
      (Expr.binary .AND varP varQ).equals (.binary .AND varQ varP) = true ∧
      findProof defaultSearch (.binary .AND varP varQ) (.binary .AND varQ varP)
        = some (⟨[], true, 0⟩, ⟨[(Expr.binary .AND varP varQ).toString], 10, 10000⟩) :=
  ⟨rfl, rfl, by decide,
    C5_reflexivity.1 defaultSearch (.binary .AND varP varQ) (.binary .AND varQ varP) rfl rfl
      (by decide)⟩

/-- A one-step search that the null dereference of the cross-product loop cuts short:
`start = !(!a & !b) -> c` has a
text of at most 200 characters and does not equal `target = !!(!a & !b) | c`;
`expandNode(start)` returns, and its third successor (by `IMPLICATION_ELIMINATION`) is
the target; yet `findProof` with the default limits has no result, because the first
successor `(!!a | !!b) -> c` is dequeued and expanded before, and its expansion
dereferences a moved-out (null) result in the cross-product loop of
`applyLawToSubexpressions`. -/
theorem findProof_deMorgan_null_dereference :
    deMorganStart.toString.length ≤ 200 ∧
      areEquivalent deMorganStart deMorganTarget = false ∧
      (∃ nodes, expandNode ⟨deMorganStart, 0, []⟩ = some nodes ∧
        (nodes.map (fun n => n.expression))[2]? = some deMorganTarget) ∧
      expandNode ⟨.binary .IMPLIES (.binary .OR (.not (.not varA)) (.not (.not varB))) varC,
        1, []⟩ = none ∧
      findProof defaultSearch deMorganStart deMorganTarget = none := by
  refine ⟨by decide, by decide, ?_, by decide,
    findProof_none_of_rounds defaultSearch _ _ 2 (by decide)⟩
  cases h : expandNode ⟨deMorganStart, 0, []⟩ with
  | none => revert h; decide
  | some nodes =>
    refine ⟨nodes, rfl, ?_⟩
    have h2 : (expandNode ⟨deMorganStart, 0, []⟩).map
        (fun ns => (ns.map (fun n => n.expression))[2]?) = some (some deMorganTarget) := by
      decide
    rw [h] at h2
    simpa using h2

/-- C7, what the code does on scenario 5: with the default limits, `findProof` from
`!!(p & q) -> r` to `(p & q) -> r` returns `found_target = true` with exactly one step,
`DOUBLE_NEGATION` applied inside the antecedent; the proof does not have two steps. -/
theorem C7_scenario5_one_step :
    findProof defaultSearch scenario5Start scenario5Target
        = some (scenario5Proof, scenario5Search) ∧
      scenario5Proof.found_target = true ∧
      scenario5Proof.steps = [⟨scenario5Target, .DOUBLE_NEGATION, "Double Negation", 1⟩] ∧
      ¬ (scenario5Proof.steps.length > 1) :=
  ⟨findProof_scenario5, rfl, rfl, by decide⟩

/-- C8, at the input where the code departs from it: on `!!p & !!q` the rule of
`DOUBLE_NEGATION` applies at the left child (giving `p`) and at the right child
(giving `q`), but `applyLawRecursively` with that law, and so
`generateAllTransformations`, has no result: the cross-product loop dereferences the
results that the two wrapping loops moved out. -/
theorem C8_engine_null_dereference :
    applyLawToNode (.not (.not varP)) .DOUBLE_NEGATION = some varP ∧
      applyLawToNode (.not (.not varQ)) .DOUBLE_NEGATION = some varQ ∧
      applyLawRecursively (.binary .AND (.not (.not varP)) (.not (.not varQ)))
        .DOUBLE_NEGATION = none ∧
      generateAllTransformations (.binary .AND (.not (.not varP)) (.not (.not varQ))) = none := by
  decide

/-- C9: every step of a returned proof is a rewrite step. If `findProof` returns a proof
with `found_target` set, then for every step (index `i` from 0) the expression of the
step is obtained from the expression before it (the start expression for the first
step, the expression of the previous step otherwise) by one application of the rule of
the step's law at exactly one position, every other position unchanged. -/
theorem C9_steps_rewrite_one_position (ps : ProofSearch) (start target : Expr) (proof : Proof)
    (ps2 : ProofSearch) (h : findProof ps start target = some (proof, ps2))
    (hfound : proof.found_target = true) :
    ∀ (i : Nat) (step : ProofStep), proof.steps[i]? = some step →
      RewritesAt step.law_applied (exprBefore start proof.steps i) step.expression := by
  obtain ⟨hchain, _, _, _⟩ := findProof_found ps start target proof ps2 h hfound
  have hmono : ∀ (e : Expr) (s : ProofStep), Replays e s →
      RewritesAt s.law_applied e s.expression := by
    rintro e s ⟨ts, hts, t, ht, _, hres⟩
    rw [← hres]
    exact (applyLawRecursively_rewritesAt s.law_applied e ts hts t ht).2
  exact (chainFrom_iff_index _ start proof.steps).1
    (chainFrom_mono hmono start proof.steps hchain)

/-- C9 on the run of scenario 5: its one step rewrites `!!(p & q) -> r` at one position,
inside the antecedent. -/
theorem C9_steps_rewrite_one_position_witness :
    findProof defaultSearch scenario5Start scenario5Target
        = some (scenario5Proof, scenario5Search) ∧
      scenario5Proof.found_target = true ∧
      scenario5Proof.steps[0]?
        = some ⟨scenario5Target, .DOUBLE_NEGATION, "Double Negation", 1⟩ ∧
      RewritesAt .DOUBLE_NEGATION scenario5Start scenario5Target :=
  ⟨findProof_scenario5, rfl, rfl,
    C9_steps_rewrite_one_position defaultSearch scenario5Start scenario5Target
      scenario5Proof scenario5Search findProof_scenario5 rfl 0
      ⟨scenario5Target, .DOUBLE_NEGATION, "Double Negation", 1⟩ rfl⟩

/-- C10: expression equality. `areEquivalent` is `equals`, and `equals` holds exactly
when the two expressions are equal in the words of the specification (`SpecEqual`: same
variant; same name; same value; equal operands; children equal in order; at `And` and
`Or` also children equal after swapping; recursively). Consequently `p & q` equals
`q & p`; `p -> q` does not equal `q -> p` for distinct variables; `(a & b) & c` does not
equal `a & (b & c)` for distinct variables; and `areEquivalent(p -> q, !p | q)` is
false. -/
theorem C10_equality_characterisation :
    (∀ a b : Expr, areEquivalent a b = a.equals b) ∧
      (∀ a b : Expr, a.equals b = true ↔ SpecEqual a b) ∧
      (∀ p q : Expr, (Expr.binary .AND p q).equals (.binary .AND q p) = true) ∧
      (∀ p q : String, p ≠ q →
        (Expr.binary .IMPLIES (.var p) (.var q)).equals (.binary .IMPLIES (.var q) (.var p))
          = false) ∧
      (∀ a b c : String, a ≠ b → b ≠ c → a ≠ c →
        (Expr.binary .AND (.binary .AND (.var a) (.var b)) (.var c)).equals
          (.binary .AND (.var a) (.binary .AND (.var b) (.var c))) = false) ∧
      (∀ p q : Expr, areEquivalent (.binary .IMPLIES p q) (.binary .OR (.not p) q) = false) := by
  refine ⟨fun _ _ => rfl, fun a b => ⟨specEqual_of_equals a b, equals_of_specEqual⟩, ?_, ?_,
    ?_, ?_⟩
  · intro p q
    rw [equals_binary_iff]
    exact ⟨q, p, rfl, Or.inr ⟨Or.inl rfl, equals_refl p, equals_refl q⟩⟩
  · intro p q hpq
    simp [Expr.equals, hpq]
  · intro a b c hab hbc hac
    simp [Expr.equals, hac.symm]
  · intro p q
    simp [areEquivalent, Expr.equals]

/-- C10 on the variables `a`, `b`, `c`: `(a & b) & c` does not equal `a & (b & c)`. -/
theorem C10_equality_characterisation_witness :
    ("a" : String) ≠ "b" ∧ ("b" : String) ≠ "c" ∧ ("a" : String) ≠ "c" ∧
      (Expr.binary .AND (.binary .AND (.var "a") (.var "b")) (.var "c")).equals
        (.binary .AND (.var "a") (.binary .AND (.var "b") (.var "c"))) = false :=
  ⟨by decide, by decide, by decide,
    C10_equality_characterisation.2.2.2.2.1 "a" "b" "c" (by decide) (by decide) (by decide)⟩

/-- C11: rule locality. For each of the 21 laws and every expression `e` on which the
rule function of the law (reached through the dispatch `applyLawToNode`) returns a
result `e2`, every variable name that occurs in `e2` occurs in `e`. -/
theorem C11_rule_locality (law : LogicLaw) (e e2 : Expr)
    (h : applyLawToNode e law = some e2) (v : String) (hv : v ∈ e2.vars) : v ∈ e.vars :=
  applyLawToNode_vars law e e2 h v hv

/-- C11 at `!(p & q)` with `DE_MORGAN_AND`: the name `p` of the result `!p | !q` occurs
in `!(p & q)`. -/
theorem C11_rule_locality_witness :
    applyLawToNode (.not (.binary .AND varP varQ)) .DE_MORGAN_AND
        = some (.binary .OR (.not varP) (.not varQ)) ∧
      "p" ∈ (Expr.binary .OR (.not varP) (.not varQ)).vars ∧
      "p" ∈ (Expr.not (.binary .AND varP varQ)).vars :=
  ⟨rfl, by decide, C11_rule_locality .DE_MORGAN_AND (.not (.binary .AND varP varQ))
    (.binary .OR (.not varP) (.not varQ)) rfl "p" (by decide)⟩

/-- C12: `applyDoubleNegation` returns `x` on `Not(Not(x))` and is not applicable on
every expression that is not of that form, for instance on `!p` and on `p`. -/
theorem C12_double_negation :
    (∀ x : Expr, applyDoubleNegation (.not (.not x)) = some x) ∧
      (∀ e : Expr, (∀ x : Expr, e ≠ .not (.not x)) → applyDoubleNegation e = none) ∧
      applyDoubleNegation (.not varP) = none ∧
      applyDoubleNegation varP = none := by
  refine ⟨fun x => rfl, ?_, rfl, rfl⟩
  intro e he
  unfold applyDoubleNegation
  split
  · exact absurd rfl (he _)
  · rfl

/-- C12 at `!p`, which is not a double negation: the rule is not applicable. -/
theorem C12_double_negation_witness :
    (∀ x : Expr, Expr.not varP ≠ .not (.not x)) ∧ applyDoubleNegation (.not varP) = none :=
  ⟨by intro x; simp [varP], C12_double_negation.2.1 (.not varP) (by intro x; simp [varP])⟩

/-- C13: `applyDeMorganAnd` returns `Or(Not(x), Not(y))` on `Not(And(x, y))` and is not
applicable on every other expression (for instance on `!(p | q)` and on `p & q`);
`applyDeMorganOr` returns `And(Not(x), Not(y))` on `Not(Or(x, y))` and is not applicable
on every other expression. -/
theorem C13_de_morgan :
    (∀ x y : Expr, applyDeMorganAnd (.not (.binary .AND x y))
        = some (.binary .OR (.not x) (.not y))) ∧
      (∀ e : Expr, (∀ x y : Expr, e ≠ .not (.binary .AND x y)) → applyDeMorganAnd e = none) ∧
      applyDeMorganAnd (.not (.binary .OR varP varQ)) = none ∧
      applyDeMorganAnd (.binary .AND varP varQ) = none ∧
      (∀ x y : Expr, applyDeMorganOr (.not (.binary .OR x y))
        = some (.binary .AND (.not x) (.not y))) ∧
      (∀ e : Expr, (∀ x y : Expr, e ≠ .not (.binary .OR x y)) → applyDeMorganOr e = none) := by
  refine ⟨fun x y => rfl, ?_, rfl, rfl, fun x y => rfl, ?_⟩
  · intro e he
    unfold applyDeMorganAnd
    split
    · exact absurd rfl (he _ _)
    · rfl
  · intro e he
    unfold applyDeMorganOr
    split
    · exact absurd rfl (he _ _)
    · rfl

/-- C13 at `!(p | q)`, which is not the negation of a conjunction: `applyDeMorganAnd`
is not applicable. -/
theorem C13_de_morgan_witness :
    (∀ x y : Expr, Expr.not (.binary .OR varP varQ) ≠ .not (.binary .AND x y)) ∧
      applyDeMorganAnd (.not (.binary .OR varP varQ)) = none :=
  ⟨by intro x y; simp, C13_de_morgan.2.1 (.not (.binary .OR varP varQ)) (by intro x y; simp)⟩

/-- C14: `applyImplicationElimination` returns `Or(Not(x), y)` on `Implies(x, y)` and is
not applicable on every other expression; `applyBiconditionalElimination` returns
`And(Implies(x, y), Implies(y, x))` on `Iff(x, y)` and is not applicable on every other
expression, for instance on `p -> q`. -/
theorem C14_connective_elimination :
    (∀ x y : Expr, applyImplicationElimination (.binary .IMPLIES x y)
        = some (.binary .OR (.not x) y)) ∧
      (∀ e : Expr, (∀ x y : Expr, e ≠ .binary .IMPLIES x y) →
        applyImplicationElimination e = none) ∧
      (∀ x y : Expr, applyBiconditionalElimination (.binary .BICONDITIONAL x y)
        = some (.binary .AND (.binary .IMPLIES x y) (.binary .IMPLIES y x))) ∧
      (∀ e : Expr, (∀ x y : Expr, e ≠ .binary .BICONDITIONAL x y) →
        applyBiconditionalElimination e = none) ∧
      applyBiconditionalElimination (.binary .IMPLIES varP varQ) = none := by
  refine ⟨fun x y => rfl, ?_, fun x y => rfl, ?_, rfl⟩
  · intro e he
    unfold applyImplicationElimination
    split
    · exact absurd rfl (he _ _)
    · rfl
  · intro e he
    unfold applyBiconditionalElimination
    split
    · exact absurd rfl (he _ _)
    · rfl

/-- C14 at `p -> q`, which is not a biconditional: `applyBiconditionalElimination` is
not applicable. -/
theorem C14_connective_elimination_witness :
    (∀ x y : Expr, Expr.binary .IMPLIES varP varQ ≠ .binary .BICONDITIONAL x y) ∧
      applyBiconditionalElimination (.binary .IMPLIES varP varQ) = none :=
  ⟨by intro x y; simp,
    C14_connective_elimination.2.2.2.1 (.binary .IMPLIES varP varQ) (by intro x y; simp)⟩

/-- C15: on an `And` node exactly one of whose children is an `Or`,
`applyDistributiveAndOverOr` returns `Or(And(x, y), And(x, z))` when the node is
`And(x, Or(y, z))` and `Or(And(y, x), And(z, x))` when the node is `And(Or(y, z), x)`;
it is not applicable when the root is not an `And` or neither child is an `Or` (on
`p | (q & r)` for instance). `applyDistributiveOrOverAnd` is the dual with `And` and `Or`
exchanged. -/
theorem C15_distributivity :
    (∀ x y z : Expr, (∀ a b : Expr, x ≠ .binary .OR a b) →
        applyDistributiveAndOverOr (.binary .AND x (.binary .OR y z))
          = some (.binary .OR (.binary .AND x y) (.binary .AND x z))) ∧
      (∀ x y z : Expr, (∀ a b : Expr, x ≠ .binary .OR a b) →
        applyDistributiveAndOverOr (.binary .AND (.binary .OR y z) x)
          = some (.binary .OR (.binary .AND y x) (.binary .AND z x))) ∧
      (∀ e : Expr, (∀ x y : Expr, e ≠ .binary .AND x y) →
        applyDistributiveAndOverOr e = none) ∧
      (∀ x y : Expr, (∀ a b : Expr, x ≠ .binary .OR a b) →
        (∀ a b : Expr, y ≠ .binary .OR a b) →
        applyDistributiveAndOverOr (.binary .AND x y) = none) ∧
      applyDistributiveAndOverOr (.binary .OR varP (.binary .AND varQ varR)) = none ∧
      (∀ x y z : Expr, (∀ a b : Expr, x ≠ .binary .AND a b) →
        applyDistributiveOrOverAnd (.binary .OR x (.binary .AND y z))
          = some (.binary .AND (.binary .OR x y) (.binary .OR x z))) ∧
      (∀ x y z : Expr, (∀ a b : Expr, x ≠ .binary .AND a b) →
        applyDistributiveOrOverAnd (.binary .OR (.binary .AND y z) x)
          = some (.binary .AND (.binary .OR y x) (.binary .OR z x))) ∧
      (∀ e : Expr, (∀ x y : Expr, e ≠ .binary .OR x y) →
        applyDistributiveOrOverAnd e = none) ∧
      (∀ x y : Expr, (∀ a b : Expr, x ≠ .binary .AND a b) →
        (∀ a b : Expr, y ≠ .binary .AND a b) →
        applyDistributiveOrOverAnd (.binary .OR x y) = none) := by
  refine ⟨fun x y z _ => rfl, ?_, ?_, ?_, rfl, fun x y z _ => rfl, ?_, ?_, ?_⟩
  · intro x y z hx
    rcases x with n | v | a | ⟨op, l, r⟩ <;> try rfl
    cases op <;> first | rfl | exact absurd rfl (hx _ _)
  · intro e he
    unfold applyDistributiveAndOverOr
    split
    · exact absurd rfl (he _ _)
    · rfl
  · intro x y hx hy
    rcases y with n | v | a | ⟨op, l, r⟩ <;> rcases x with n2 | v2 | a2 | ⟨op2, l2, r2⟩ <;>
      (try cases op) <;> (try cases op2) <;>
      first | rfl | exact absurd rfl (hx _ _) | exact absurd rfl (hy _ _)
  · intro x y z hx
    rcases x with n | v | a | ⟨op, l, r⟩ <;> try rfl
    cases op <;> first | rfl | exact absurd rfl (hx _ _)
  · intro e he
    unfold applyDistributiveOrOverAnd
    split
    · exact absurd rfl (he _ _)
    · rfl
  · intro x y hx hy
    rcases y with n | v | a | ⟨op, l, r⟩ <;> rcases x with n2 | v2 | a2 | ⟨op2, l2, r2⟩ <;>
      (try cases op) <;> (try cases op2) <;>
      first | rfl | exact absurd rfl (hx _ _) | exact absurd rfl (hy _ _)

/-- C15 at `(q | r) & p`, whose only `Or` child is the left one: the rule returns
`(q & p) | (r & p)`. -/
theorem C15_distributivity_witness :
    (∀ a b : Expr, varP ≠ .binary .OR a b) ∧
      applyDistributiveAndOverOr (.binary .AND (.binary .OR varQ varR) varP)
        = some (.binary .OR (.binary .AND varQ varP) (.binary .AND varR varP)) :=
  ⟨by intro a b; simp [varP],
    C15_distributivity.2.1 varP varQ varR (by intro a b; simp [varP])⟩

/-- C16, at an input where the code departs from it: on `(a | b) & (c | d)` the rule
`applyDistributiveAndOverOr` returns `((a | b) & c) | ((a | b) & d)`, the right-side
match, and not the left-side match `(a & (c | d)) | (b & (c | d))`. -/
theorem C16_left_side_match_refuted :
    applyDistributiveAndOverOr
        (.binary .AND (.binary .OR varA varB) (.binary .OR varC (.var "d")))
      = some (.binary .OR (.binary .AND (.binary .OR varA varB) varC)
          (.binary .AND (.binary .OR varA varB) (.var "d"))) ∧
    applyDistributiveAndOverOr
        (.binary .AND (.binary .OR varA varB) (.binary .OR varC (.var "d")))
      ≠ some (.binary .OR (.binary .AND varA (.binary .OR varC (.var "d")))
          (.binary .AND varB (.binary .OR varC (.var "d")))) := by
  decide

/-- C16 as amended: when the pattern of a distributive rule matches in both
orientations, the rule returns one result and it is the right-side match, the compound
right child being the one that is split: `applyDistributiveAndOverOr` on
`And(Or(a, b), Or(c, d))` gives `Or(And(Or(a, b), c), And(Or(a, b), d))`, and
`applyDistributiveOrOverAnd` on `Or(And(a, b), And(c, d))` gives
`And(Or(And(a, b), c), Or(And(a, b), d))`. -/
theorem C16_right_side_match (a b c d : Expr) :
    applyDistributiveAndOverOr (.binary .AND (.binary .OR a b) (.binary .OR c d))
      = some (.binary .OR (.binary .AND (.binary .OR a b) c)
          (.binary .AND (.binary .OR a b) d)) ∧
    applyDistributiveOrOverAnd (.binary .OR (.binary .AND a b) (.binary .AND c d))
      = some (.binary .AND (.binary .OR (.binary .AND a b) c)
          (.binary .OR (.binary .AND a b) d)) :=
  ⟨rfl, rfl⟩

/-- C17: `applyAbsorptionAnd(e)` returns `r` exactly when `e = And(a, b)` and either
`b = Or(c, d)` with `a` equal (by `equals`) to `c` or to `d` and `r = a`, or
`a = Or(c, d)` with `b` equal to `c` or to `d` and `r = b`; in every other case it is
not applicable, for instance on `p | (p & q)`. `applyAbsorptionOr` is the dual with
`And` and `Or` exchanged. -/
theorem C17_absorption (e r : Expr) :
    (applyAbsorptionAnd e = some r ↔
      ∃ a b, e = .binary .AND a b ∧
        ((∃ c d, b = .binary .OR c d ∧ (a.equals c = true ∨ a.equals d = true) ∧ r = a) ∨
          (∃ c d, a = .binary .OR c d ∧ (b.equals c = true ∨ b.equals d = true) ∧ r = b))) ∧
      (applyAbsorptionOr e = some r ↔
        ∃ a b, e = .binary .OR a b ∧
          ((∃ c d, b = .binary .AND c d ∧ (a.equals c = true ∨ a.equals d = true) ∧ r = a) ∨
            (∃ c d, a = .binary .AND c d ∧ (b.equals c = true ∨ b.equals d = true) ∧ r = b))) ∧
      applyAbsorptionAnd (.binary .OR varP (.binary .AND varP varQ)) = none := by
  refine ⟨?_, ?_, by decide⟩
  · rcases e with n | v | x | ⟨op, a, b⟩
    · simp [applyAbsorptionAnd]
    · simp [applyAbsorptionAnd]
    · simp [applyAbsorptionAnd]
    · cases op
      · simp only [applyAbsorptionAnd]
        rw [applyAbsorption_iff .OR a b r]
        constructor
        · intro h; exact ⟨a, b, rfl, h⟩
        · rintro ⟨a2, b2, h, h2⟩
          cases h; exact h2
      all_goals simp [applyAbsorptionAnd]
  · rcases e with n | v | x | ⟨op, a, b⟩
    · simp [applyAbsorptionOr]
    · simp [applyAbsorptionOr]
    · simp [applyAbsorptionOr]
    · cases op
      case OR =>
        simp only [applyAbsorptionOr]
        rw [applyAbsorption_iff .AND a b r]
        constructor
        · intro h; exact ⟨a, b, rfl, h⟩
        · rintro ⟨a2, b2, h, h2⟩
          cases h; exact h2
      all_goals simp [applyAbsorptionOr]

/-- C18: `applyComplementAnd(e)` returns a result exactly when `e = And(a, b)` where
`a = Not(c)` with `c` equal (by `equals`) to `b`, or `b = Not(c)` with `c` equal to `a`,
and the result is then the constant `F`; otherwise it is not applicable, for instance
on `p & q`. `applyComplementOr` returns the constant `T` under the same condition on an
`Or` node and is not applicable otherwise. -/
theorem C18_complement (e r : Expr) :
    (applyComplementAnd e = some r ↔
      r = .const false ∧ ∃ a b, e = .binary .AND a b ∧
        ((∃ c, a = .not c ∧ c.equals b = true) ∨ (∃ c, b = .not c ∧ c.equals a = true))) ∧
      (applyComplementOr e = some r ↔
        r = .const true ∧ ∃ a b, e = .binary .OR a b ∧
          ((∃ c, a = .not c ∧ c.equals b = true) ∨ (∃ c, b = .not c ∧ c.equals a = true))) ∧
      applyComplementAnd (.binary .AND varP varQ) = none := by
  refine ⟨?_, ?_, by decide⟩
  · rcases e with n | v | x | ⟨op, a, b⟩
    · simp [applyComplementAnd]
    · simp [applyComplementAnd]
    · simp [applyComplementAnd]
    · cases op
      · simp only [applyComplementAnd, ← negationOf_iff]
        constructor
        · intro h
          by_cases h1 : negationOf a b = true
          · rw [if_pos h1] at h
            exact ⟨(Option.some.inj h).symm, a, b, rfl, Or.inl h1⟩
          · rw [if_neg h1] at h
            by_cases h2 : negationOf b a = true
            · rw [if_pos h2] at h
              exact ⟨(Option.some.inj h).symm, a, b, rfl, Or.inr h2⟩
            · rw [if_neg h2] at h; exact absurd h (by simp)
        · rintro ⟨rfl, a2, b2, h, h2⟩
          cases h
          rcases h2 with h2 | h2
          · rw [if_pos h2]
          · by_cases h1 : negationOf a b = true
            · rw [if_pos h1]
            · rw [if_neg h1, if_pos h2]
      all_goals simp [applyComplementAnd]
  · rcases e with n | v | x | ⟨op, a, b⟩
    · simp [applyComplementOr]
    · simp [applyComplementOr]
    · simp [applyComplementOr]
    · cases op
      case OR =>
        simp only [applyComplementOr, ← negationOf_iff]
        constructor
        · intro h
          by_cases h1 : negationOf a b = true
          · rw [if_pos h1] at h
            exact ⟨(Option.some.inj h).symm, a, b, rfl, Or.inl h1⟩
          · rw [if_neg h1] at h
            by_cases h2 : negationOf b a = true
            · rw [if_pos h2] at h
              exact ⟨(Option.some.inj h).symm, a, b, rfl, Or.inr h2⟩
            · rw [if_neg h2] at h; exact absurd h (by simp)
        · rintro ⟨rfl, a2, b2, h, h2⟩
          cases h
          rcases h2 with h2 | h2
          · rw [if_pos h2]
          · by_cases h1 : negationOf a b = true
            · rw [if_pos h1]
            · rw [if_neg h1, if_pos h2]
      all_goals simp [applyComplementOr]

/-- C19: `applyIdempotentAnd(e)` returns a result exactly when `e` is an `And` node
whose two children are equal by `equals`, and the result is the left child; otherwise
it is not applicable, for instance on `p & q`; likewise `applyIdempotentOr` on `Or`
nodes. The rule fires under the commutative relaxation too: on
`And(And(p, q), And(q, p))` it returns `And(p, q)`. -/
theorem C19_idempotence (e r : Expr) :
    (applyIdempotentAnd e = some r ↔
      ∃ a b, e = .binary .AND a b ∧ a.equals b = true ∧ r = a) ∧
      (applyIdempotentOr e = some r ↔
        ∃ a b, e = .binary .OR a b ∧ a.equals b = true ∧ r = a) ∧
      applyIdempotentAnd (.binary .AND varP varQ) = none ∧
      applyIdempotentAnd (.binary .AND (.binary .AND varP varQ) (.binary .AND varQ varP))
        = some (.binary .AND varP varQ) := by
  refine ⟨?_, ?_, by decide, by decide⟩
  · rcases e with n | v | x | ⟨op, a, b⟩
    · simp [applyIdempotentAnd]
    · simp [applyIdempotentAnd]
    · simp [applyIdempotentAnd]
    · cases op
      · simp only [applyIdempotentAnd]
        constructor
        · intro h
          by_cases h1 : a.equals b = true
          · rw [if_pos h1] at h; exact ⟨a, b, rfl, h1, (Option.some.inj h).symm⟩
          · rw [if_neg h1] at h; exact absurd h (by simp)
        · rintro ⟨a2, b2, h, h1, rfl⟩
          cases h; rw [if_pos h1]
      all_goals simp [applyIdempotentAnd]
  · rcases e with n | v | x | ⟨op, a, b⟩
    · simp [applyIdempotentOr]
    · simp [applyIdempotentOr]
    · simp [applyIdempotentOr]
    · cases op
      case OR =>
        simp only [applyIdempotentOr]
        constructor
        · intro h
          by_cases h1 : a.equals b = true
          · rw [if_pos h1] at h; exact ⟨a, b, rfl, h1, (Option.some.inj h).symm⟩
          · rw [if_neg h1] at h; exact absurd h (by simp)
        · rintro ⟨a2, b2, h, h1, rfl⟩
          cases h; rw [if_pos h1]
      all_goals simp [applyIdempotentOr]

/-- C20: the constant-operand laws. `applyIdentityAnd(e)` is defined exactly when `e`
is an `And` with a child that is the constant `T`, and returns the other child (the
right child when the left is `T`, else the left child); `applyIdentityOr` likewise with
the constant `F` on an `Or`; `applyAnnihilationAnd(e)` is defined exactly when `e` is an
`And` with a child that is the constant `F`, and returns the constant `F`;
`applyAnnihilationOr(e)` is defined exactly when `e` is an `Or` with a child that is the
constant `T`, and returns the constant `T`. -/
theorem C20_constant_operand_laws (e r : Expr) :
    (applyIdentityAnd e = some r ↔
      ∃ a b, e = .binary .AND a b ∧
        ((a = .const true ∧ r = b) ∨ (a ≠ .const true ∧ b = .const true ∧ r = a))) ∧
      (applyIdentityOr e = some r ↔
        ∃ a b, e = .binary .OR a b ∧
          ((a = .const false ∧ r = b) ∨ (a ≠ .const false ∧ b = .const false ∧ r = a))) ∧
      (applyAnnihilationAnd e = some r ↔
        r = .const false ∧ ∃ a b, e = .binary .AND a b ∧
          (a = .const false ∨ b = .const false)) ∧
      (applyAnnihilationOr e = some r ↔
        r = .const true ∧ ∃ a b, e = .binary .OR a b ∧
          (a = .const true ∨ b = .const true)) := by
  refine ⟨?_, ?_, ?_, ?_⟩
  · rcases e with n | v | x | ⟨op, a, b⟩
    · simp [applyIdentityAnd]
    · simp [applyIdentityAnd]
    · simp [applyIdentityAnd]
    · cases op
      · simp only [applyIdentityAnd, isConstantTrue_iff]
        constructor
        · intro h
          by_cases h1 : a = .const true
          · rw [if_pos h1] at h; exact ⟨a, b, rfl, Or.inl ⟨h1, (Option.some.inj h).symm⟩⟩
          · rw [if_neg h1] at h
            by_cases h2 : b = .const true
            · rw [if_pos h2] at h
              exact ⟨a, b, rfl, Or.inr ⟨h1, h2, (Option.some.inj h).symm⟩⟩
            · rw [if_neg h2] at h; exact absurd h (by simp)
        · rintro ⟨a2, b2, h, h2⟩
          cases h
          rcases h2 with ⟨h1, rfl⟩ | ⟨h1, h2, rfl⟩
          · rw [if_pos h1]
          · rw [if_neg h1, if_pos h2]
      all_goals simp [applyIdentityAnd]
  · rcases e with n | v | x | ⟨op, a, b⟩
    · simp [applyIdentityOr]
    · simp [applyIdentityOr]
    · simp [applyIdentityOr]
    · cases op
      case OR =>
        simp only [applyIdentityOr, isConstantFalse_iff]
        constructor
        · intro h
          by_cases h1 : a = .const false
          · rw [if_pos h1] at h; exact ⟨a, b, rfl, Or.inl ⟨h1, (Option.some.inj h).symm⟩⟩
          · rw [if_neg h1] at h
            by_cases h2 : b = .const false
            · rw [if_pos h2] at h
              exact ⟨a, b, rfl, Or.inr ⟨h1, h2, (Option.some.inj h).symm⟩⟩
            · rw [if_neg h2] at h; exact absurd h (by simp)
        · rintro ⟨a2, b2, h, h2⟩
          cases h
          rcases h2 with ⟨h1, rfl⟩ | ⟨h1, h2, rfl⟩
          · rw [if_pos h1]
          · rw [if_neg h1, if_pos h2]
      all_goals simp [applyIdentityOr]
  · rcases e with n | v | x | ⟨op, a, b⟩
    · simp [applyAnnihilationAnd]
    · simp [applyAnnihilationAnd]
    · simp [applyAnnihilationAnd]
    · cases op
      · simp only [applyAnnihilationAnd, Bool.or_eq_true, isConstantFalse_iff]
        constructor
        · intro h
          by_cases h1 : a = .const false ∨ b = .const false
          · rw [if_pos h1] at h; exact ⟨(Option.some.inj h).symm, a, b, rfl, h1⟩
          · rw [if_neg h1] at h; exact absurd h (by simp)
        · rintro ⟨rfl, a2, b2, h, h1⟩
          cases h; rw [if_pos h1]
      all_goals simp [applyAnnihilationAnd]
  · rcases e with n | v | x | ⟨op, a, b⟩
    · simp [applyAnnihilationOr]
    · simp [applyAnnihilationOr]
    · simp [applyAnnihilationOr]
    · cases op
      case OR =>
        simp only [applyAnnihilationOr, Bool.or_eq_true, isConstantTrue_iff]
        constructor
        · intro h
          by_cases h1 : a = .const true ∨ b = .const true
          · rw [if_pos h1] at h; exact ⟨(Option.some.inj h).symm, a, b, rfl, h1⟩
          · rw [if_neg h1] at h; exact absurd h (by simp)
        · rintro ⟨rfl, a2, b2, h, h1⟩
          cases h; rw [if_pos h1]
      all_goals simp [applyAnnihilationOr]

/-- C21: commutativity is an involution. `applyCommutativeAnd(And(x, y)) = And(y, x)`
and the rule is not applicable on every root that is not an `And` (dually
`applyCommutativeOr`); applying the rule twice to an `And` (resp. `Or`) node gives back
the very same expression, which in particular equals the input by `equals`; and the
result of a single application equals its input by `equals`. -/
theorem C21_commutativity_involution :
    (∀ x y : Expr, applyCommutativeAnd (.binary .AND x y) = some (.binary .AND y x)) ∧
      (∀ e : Expr, (∀ x y : Expr, e ≠ .binary .AND x y) → applyCommutativeAnd e = none) ∧
      (∀ x y : Expr, applyCommutativeOr (.binary .OR x y) = some (.binary .OR y x)) ∧
      (∀ e : Expr, (∀ x y : Expr, e ≠ .binary .OR x y) → applyCommutativeOr e = none) ∧
      (∀ x y : Expr, (applyCommutativeAnd (.binary .AND x y)).bind applyCommutativeAnd
        = some (.binary .AND x y)) ∧
      (∀ x y : Expr, (applyCommutativeOr (.binary .OR x y)).bind applyCommutativeOr
        = some (.binary .OR x y)) ∧
      (∀ x y : Expr, (Expr.binary .AND x y).equals (.binary .AND x y) = true) ∧
      (∀ x y : Expr, (Expr.binary .OR x y).equals (.binary .OR x y) = true) ∧
      (∀ x y : Expr, (Expr.binary .AND y x).equals (.binary .AND x y) = true) ∧
      (∀ x y : Expr, (Expr.binary .OR y x).equals (.binary .OR x y) = true) := by
  refine ⟨fun x y => rfl, ?_, fun x y => rfl, ?_, fun x y => rfl, fun x y => rfl,
    fun x y => equals_refl _, fun x y => equals_refl _, ?_, ?_⟩
  · intro e he
    unfold applyCommutativeAnd
    split
    · exact absurd rfl (he _ _)
    · rfl
  · intro e he
    unfold applyCommutativeOr
    split
    · exact absurd rfl (he _ _)
    · rfl
  · intro x y
    rw [equals_binary_iff]
    exact ⟨x, y, rfl, Or.inr ⟨Or.inl rfl, equals_refl _, equals_refl _⟩⟩
  · intro x y
    rw [equals_binary_iff]
    exact ⟨x, y, rfl, Or.inr ⟨Or.inr rfl, equals_refl _, equals_refl _⟩⟩

/-- C21 at `p | q`, whose root is not an `And`: `applyCommutativeAnd` is not
applicable. -/
theorem C21_commutativity_involution_witness :
    (∀ x y : Expr, Expr.binary .OR varP varQ ≠ .binary .AND x y) ∧
      applyCommutativeAnd (.binary .OR varP varQ) = none :=
  ⟨by intro x y; simp,
    C21_commutativity_involution.2.1 (.binary .OR varP varQ) (by intro x y; simp)⟩

/-- C22: `applyAssociativeAnd(e)` returns `And(x, And(y, z))` when
`e = And(And(x, y), z)` (the left-side match, taken whenever the left child is an
`And`); otherwise it returns `And(And(x, y), z)` when `e = And(x, And(y, z))`; otherwise
it is not applicable. `applyAssociativeOr` is the dual on `Or` nodes. -/
theorem C22_associativity :
    (∀ x y z : Expr, applyAssociativeAnd (.binary .AND (.binary .AND x y) z)
        = some (.binary .AND x (.binary .AND y z))) ∧
      (∀ x y z : Expr, (∀ a b : Expr, x ≠ .binary .AND a b) →
        applyAssociativeAnd (.binary .AND x (.binary .AND y z))
          = some (.binary .AND (.binary .AND x y) z)) ∧
      (∀ e : Expr, (∀ x y z : Expr, e ≠ .binary .AND (.binary .AND x y) z) →
        (∀ x y z : Expr, e ≠ .binary .AND x (.binary .AND y z)) →
        applyAssociativeAnd e = none) ∧
      (∀ x y z : Expr, applyAssociativeOr (.binary .OR (.binary .OR x y) z)
        = some (.binary .OR x (.binary .OR y z))) ∧
      (∀ x y z : Expr, (∀ a b : Expr, x ≠ .binary .OR a b) →
        applyAssociativeOr (.binary .OR x (.binary .OR y z))
          = some (.binary .OR (.binary .OR x y) z)) ∧
      (∀ e : Expr, (∀ x y z : Expr, e ≠ .binary .OR (.binary .OR x y) z) →
        (∀ x y z : Expr, e ≠ .binary .OR x (.binary .OR y z)) →
        applyAssociativeOr e = none) := by
  refine ⟨fun x y z => rfl, ?_, ?_, fun x y z => rfl, ?_, ?_⟩
  · intro x y z hx
    rcases x with n | v | a | ⟨op, l, r⟩ <;> try rfl
    cases op <;> first | rfl | exact absurd rfl (hx _ _)
  · intro e h1 h2
    rcases e with n | v | a | ⟨op, x, y⟩ <;> try rfl
    cases op <;> try rfl
    rcases x with n | v | a | ⟨op, l, r⟩ <;> rcases y with n2 | v2 | a2 | ⟨op2, l2, r2⟩ <;>
      (try cases op) <;> (try cases op2) <;>
      first | rfl | exact absurd rfl (h1 _ _ _) | exact absurd rfl (h2 _ _ _)
  · intro x y z hx
    rcases x with n | v | a | ⟨op, l, r⟩ <;> try rfl
    cases op <;> first | rfl | exact absurd rfl (hx _ _)
  · intro e h1 h2
    rcases e with n | v | a | ⟨op, x, y⟩ <;> try rfl
    cases op <;> try rfl
    rcases x with n | v | a | ⟨op, l, r⟩ <;> rcases y with n2 | v2 | a2 | ⟨op2, l2, r2⟩ <;>
      (try cases op) <;> (try cases op2) <;>
      first | rfl | exact absurd rfl (h1 _ _ _) | exact absurd rfl (h2 _ _ _)

/-- C22 at `p & (q & r)`, whose left child is not an `And`: the rule re-associates to
the left and returns `(p & q) & r`. -/
theorem C22_associativity_witness :
    (∀ a b : Expr, varP ≠ .binary .AND a b) ∧
      applyAssociativeAnd (.binary .AND varP (.binary .AND varQ varR))
        = some (.binary .AND (.binary .AND varP varQ) varR) :=
  ⟨by intro a b; simp [varP],
    C22_associativity.2.1 varP varQ varR (by intro a b; simp [varP])⟩

/-- C23, at the input where the code departs from it: on `!!p & !!q` with
`DOUBLE_NEGATION` each child has exactly one rewrite (`p`, resp. `q`, described
"Double Negation"), but `applyLawRecursively` has no result on the conjunction, so its
output does not contain `p & q`; and in general, whenever `applyLawRecursively` returns
on a binary node, one of the two child lists is empty, so no pair of child rewrites is
ever combined. -/
theorem C23_cross_product_never_emitted :
    applyLawRecursively (.not (.not varP)) .DOUBLE_NEGATION
        = some [⟨.DOUBLE_NEGATION, "Double Negation", varP⟩] ∧
      applyLawRecursively (.not (.not varQ)) .DOUBLE_NEGATION
        = some [⟨.DOUBLE_NEGATION, "Double Negation", varQ⟩] ∧
      applyLawRecursively (.binary .AND (.not (.not varP)) (.not (.not varQ)))
        .DOUBLE_NEGATION = none ∧
      (∀ (op : BinOp) (l r : Expr) (law : LogicLaw) (lts rts out : List Transformation),
        applyLawRecursively l law = some lts → applyLawRecursively r law = some rts →
        applyLawRecursively (.binary op l r) law = some out → lts = [] ∨ rts = []) := by
  refine ⟨by decide, by decide, by decide, ?_⟩
  intro op l r law lts rts out hl hr hout
  by_cases h1 : lts = []
  · exact Or.inl h1
  · by_cases h2 : rts = []
    · exact Or.inr h2
    · rw [applyLawRecursively_cross_none op l r law lts rts hl hr h1 h2] at hout
      cases hout

/-- C24: the shape of the returned record. Whenever `findProof` returns a `Proof`,
`total_steps` is the length of the step list, the step at index `i` (from 0) carries
`step_number = i + 1`, and if `found_target` is false the step list is empty and
`total_steps = 0`. -/
theorem C24_proof_record_shape (ps : ProofSearch) (start target : Expr) (proof : Proof)
    (ps2 : ProofSearch) (h : findProof ps start target = some (proof, ps2)) :
    proof.total_steps = proof.steps.length ∧
      (∀ i : Nat, i < proof.steps.length →
        (proof.steps[i]?).map (fun s => s.step_number) = some (i + 1)) ∧
      (proof.found_target = false → proof.steps = [] ∧ proof.total_steps = 0) := by
  obtain ⟨v, hloop⟩ := findProof_eq_some ps start target proof ps2 h
  obtain ⟨path, b, rfl, hb⟩ := searchLoop_shape ps target _ proof v hloop
  refine ⟨by simp [reconstructProof, renumber_length], ?_, ?_⟩
  · intro i hi
    simp only [reconstructProof, renumber_length] at hi
    simpa using renumber_step_number path 0 i hi
  · intro hf
    have hp : path = [] := hb hf
    subst hp
    exact ⟨rfl, rfl⟩

/-- C24 at the run of scenario 5, which returns one step: `total_steps` is 1 and the
step is numbered 1. -/
theorem C24_proof_record_shape_witness :
    findProof defaultSearch scenario5Start scenario5Target
        = some (scenario5Proof, scenario5Search) ∧
      scenario5Proof.total_steps = scenario5Proof.steps.length ∧
      (∀ i : Nat, i < scenario5Proof.steps.length →
        (scenario5Proof.steps[i]?).map (fun s => s.step_number) = some (i + 1)) ∧
      (scenario5Proof.found_target = false →
        scenario5Proof.steps = [] ∧ scenario5Proof.total_steps = 0) :=
  ⟨findProof_scenario5,
    C24_proof_record_shape defaultSearch scenario5Start scenario5Target scenario5Proof
      scenario5Search findProof_scenario5⟩

/-- C25, at an input where the code departs from it: with `max_transformations = 0`
the loop condition `0 < 0` fails before the start node is dequeued, and
`findProof(p, p)` returns `found_target = false`. -/
theorem C25_limit_zero_refuted :
    findProof (ProofSearch.new 10 0) varP varP
      = some (⟨[], false, 0⟩, ⟨["p"], 10, 0⟩) :=
  findProof_of_rounds (ProofSearch.new 10 0) varP varP 1 _ _ (by decide)

/-- C25 as amended: the loop of `findProof` exits for the limit as soon as the
exploration counter is greater than or equal to `max_transformations`, returning
`found_target = false`; while the counter is strictly less than `max_transformations`
and the queue is non-empty, the front node is dequeued and, its depth being at most
`max_depth`, tested against the target. In particular with `max_transformations ≤ 0`
the start node is never dequeued and `findProof(e, e)` returns `found_target = false`,
and with `max_transformations ≥ 1` and `max_depth ≥ 0` it returns `found_target = true`
with no steps. -/
theorem C25_transformation_limit (ps : ProofSearch) (t : Expr) (s : SearchState) :
    (¬ ((s.transformations_explored : Int) < ps.max_transformations) →
        searchIteration ps t s = .finished (some (reconstructProof [] false, s.visited))) ∧
      (∀ (current : ProofSearchNode) (rest : List ProofSearchNode),
        s.queue = current :: rest →
        (s.transformations_explored : Int) < ps.max_transformations →
        ¬ (current.depth : Int) > ps.max_depth →
        areEquivalent current.expression t = true →
        searchIteration ps t s
          = .finished (some (reconstructProof current.path true, s.visited))) ∧
      (ps.max_transformations ≤ 0 →
        findProof ps t t = some (⟨[], false, 0⟩,
          ⟨[t.toString], ps.max_depth, ps.max_transformations⟩)) ∧
      (1 ≤ ps.max_transformations → 0 ≤ ps.max_depth →
        findProof ps t t = some (⟨[], true, 0⟩,
          ⟨[t.toString], ps.max_depth, ps.max_transformations⟩)) := by
  refine ⟨searchIteration_limit ps t s, searchIteration_found ps t s, ?_, ?_⟩
  · intro h0
    unfold findProof findShortestProof
    rw [searchLoop_finished (searchIteration_limit ps t _ (by simp; omega))]
    rfl
  · intro h1 h0
    unfold findProof findShortestProof
    rw [searchLoop_finished (searchIteration_found ps t _ ⟨t, 0, []⟩ [] rfl
      (by simp; omega) (by simp; omega) (equals_refl t))]
    rfl

/-- C25 as amended, at `max_transformations = 0` and `e = p`. -/
theorem C25_transformation_limit_witness :
    (ProofSearch.new 10 0).max_transformations ≤ 0 ∧
      findProof (ProofSearch.new 10 0) varP varP
        = some (⟨[], false, 0⟩, ⟨[varP.toString], 10, 0⟩) :=
  ⟨by decide,
    (C25_transformation_limit (ProofSearch.new 10 0) varP ⟨[], 0, []⟩).2.2.1 (by decide)⟩

/-- C29: the canonical text. A variable prints as its name; the constants print as
`T` and `F`; `Not(x)` prints as `!` followed by the text of `x`, with no parentheses
added; `And`, `Or`, `Implies`, `Iff` print as `(`, the left text, the operator `&`,
`|`, `->`, `<->` with exactly one space on each side, the right text, `)`. So
`Implies(Not(Not(And(p, q))), r)` prints as `(!!(p & q) -> r)`. -/
theorem C29_canonical_text :
    (∀ name : String, (Expr.var name).toString = name) ∧
      (Expr.const true).toString = "T" ∧
      (Expr.const false).toString = "F" ∧
      (∀ x : Expr, (Expr.not x).toString = "!" ++ x.toString) ∧
      (∀ l r : Expr, (Expr.binary .AND l r).toString
        = "(" ++ l.toString ++ " & " ++ r.toString ++ ")") ∧
      (∀ l r : Expr, (Expr.binary .OR l r).toString
        = "(" ++ l.toString ++ " | " ++ r.toString ++ ")") ∧
      (∀ l r : Expr, (Expr.binary .IMPLIES l r).toString
        = "(" ++ l.toString ++ " -> " ++ r.toString ++ ")") ∧
      (∀ l r : Expr, (Expr.binary .BICONDITIONAL l r).toString
        = "(" ++ l.toString ++ " <-> " ++ r.toString ++ ")") ∧
      (Expr.binary .IMPLIES (.not (.not (.binary .AND varP varQ))) varR).toString
        = "(!!(p & q) -> r)" :=
  ⟨fun _ => rfl, rfl, rfl, fun _ => rfl, fun _ _ => rfl, fun _ _ => rfl, fun _ _ => rfl,
    fun _ _ => rfl, by decide⟩

/-- C32, at an input where the code departs from it: `applyDeMorganAnd` turns
`!(p & q)` into `!p | !q`, and `applyDeMorganOr` is not applicable to that result,
whose root is an `Or` and not a negation. -/
theorem C32_round_trip_refuted :
    applyDeMorganAnd (.not (.binary .AND varP varQ))
        = some (.binary .OR (.not varP) (.not varQ)) ∧
      (applyDeMorganAnd (.not (.binary .AND varP varQ))).bind applyDeMorganOr = none := by
  decide

/-- C32 as amended: for all `x` and `y`, `applyDeMorganAnd` on `Not(And(x, y))` returns
`Or(Not(x), Not(y))`, to which `applyDeMorganOr` is not applicable; `applyDeMorganOr` is
applicable to the negation of that result, where it returns
`And(Not(Not(x)), Not(Not(y)))`, and `applyDoubleNegation` on the two children returns
`x` and `y`, so that the outcome `And(x, y)` is the operand of the original input. -/
theorem C32_de_morgan_round_trip (x y : Expr) :
    applyDeMorganAnd (.not (.binary .AND x y)) = some (.binary .OR (.not x) (.not y)) ∧
      applyDeMorganOr (.binary .OR (.not x) (.not y)) = none ∧
      applyDeMorganOr (.not (.binary .OR (.not x) (.not y)))
        = some (.binary .AND (.not (.not x)) (.not (.not y))) ∧
      applyDoubleNegation (.not (.not x)) = some x ∧
      applyDoubleNegation (.not (.not y)) = some y :=
  ⟨rfl, rfl, rfl, rfl, rfl⟩

/-- C33: length pruning. A dequeued node whose text is longer than 200 characters is
tested against the target and not expanded: the round either leaves the loop (limit
reached, or the node equals the target) or drops the node and changes nothing else.
Consequently, for every start whose text has more than 200 characters and every target
that the start does not equal, `findProof` returns `found_target = false` with no
steps, whatever the limits are. -/
theorem C33_length_pruning (ps : ProofSearch) :
    (∀ (t : Expr) (s : SearchState) (current : ProofSearchNode)
        (rest : List ProofSearchNode),
        s.queue = current :: rest → current.expression.toString.length > 200 →
        searchIteration ps t s = .finished (some (reconstructProof [] false, s.visited)) ∨
          (areEquivalent current.expression t = true ∧ searchIteration ps t s
            = .finished (some (reconstructProof current.path true, s.visited))) ∨
          searchIteration ps t s = .again ⟨rest, s.transformations_explored, s.visited⟩) ∧
      (∀ start target : Expr, start.toString.length > 200 → start.equals target = false →
        findProof ps start target
          = some (⟨[], false, 0⟩,
              ⟨[start.toString], ps.max_depth, ps.max_transformations⟩)) := by
  refine ⟨?_, findProof_long_start ps⟩
  intro t s current rest hq hlen
  have hc := searchIteration_case ps t s
  generalize hout : searchIteration ps t s = out at hc
  cases hc with
  | empty hq2 => exact Or.inl rfl
  | limit c r hq2 _ => exact Or.inl rfl
  | tooDeep c r hq2 _ _ =>
    rw [hq] at hq2; cases hq2
    exact Or.inr (Or.inr rfl)
  | found c r hq2 _ _ heq =>
    rw [hq] at hq2; cases hq2
    exact Or.inr (Or.inl ⟨heq, rfl⟩)
  | pruned c r hq2 _ _ _ _ =>
    rw [hq] at hq2; cases hq2
    exact Or.inr (Or.inr rfl)
  | nullDeref c r hq2 _ _ _ hp _ =>
    rw [hq] at hq2; cases hq2
    unfold shouldPrune at hp
    simp [expressionToString, hlen] at hp
  | expanded c r expanded_nodes hq2 _ _ _ hp _ =>
    rw [hq] at hq2; cases hq2
    unfold shouldPrune at hp
    simp [expressionToString, hlen] at hp

/-- C33 at a start of 202 characters, 201 negations in front of `p`: one application
of `DOUBLE_NEGATION` at the root gives the target, 199 negations in front of `p`, and
the search with the default limits reports that it found nothing. -/
theorem C33_length_pruning_witness :
    longStart.toString.length > 200 ∧ longStart.equals longTarget = false ∧
      applyLawToNode longStart .DOUBLE_NEGATION = some longTarget ∧
      findProof defaultSearch longStart longTarget
        = some (⟨[], false, 0⟩, ⟨[longStart.toString], 10, 10000⟩) := by
  have hlen : longStart.toString.length > 200 := by
    unfold longStart
    rw [negations_toString_length]
    decide
  have hne : longStart.equals longTarget = false := by
    cases h : longStart.equals longTarget with
    | false => rfl
    | true =>
      have hc := equals_nodeCount _ _ h
      unfold longStart longTarget at hc
      rw [negations_nodeCount, negations_nodeCount] at hc
      omega
  exact ⟨hlen, hne, rfl, (C33_length_pruning defaultSearch).2 longStart longTarget hlen hne⟩

/-- C34, at the input where the code departs from it: on `!!p & !!q` the two wrapping
loops leave every slot of the two child vectors with a null result, the cross-product
loop over these slots has no result, and neither `applyLawToSubexpressions` with
`DOUBLE_NEGATION` nor `generateAllTransformations` returns. -/
theorem C34_rewriter_reads_moved_results :
    (Transformation.moved ⟨.DOUBLE_NEGATION, "Double Negation", varP⟩).result = none ∧
      crossProduct .AND
        ([(⟨.DOUBLE_NEGATION, "Double Negation", varP⟩ : Transformation)].map
          Transformation.moved)
        ([(⟨.DOUBLE_NEGATION, "Double Negation", varQ⟩ : Transformation)].map
          Transformation.moved) = none ∧
      applyLawToSubexpressions (.binary .AND (.not (.not varP)) (.not (.not varQ)))
        .DOUBLE_NEGATION = none ∧
      generateAllTransformations (.binary .AND (.not (.not varP)) (.not (.not varQ)))
        = none := by
  decide

/-- C35: the depth bound on proofs. If `findProof` returns `found_target = true`, the
number of steps is at most `max_depth`; with `max_depth < 0` no returned proof has
`found_target = true`; a target at depth exactly `max_depth` is still reported
(scenario 5 with `max_depth = 1` returns its one-step proof); and the queue never holds
a node deeper than `max_depth` (than the start, when `max_depth` is negative). -/
theorem C35_depth_bound :
    (∀ (ps : ProofSearch) (start target : Expr) (proof : Proof) (ps2 : ProofSearch),
        findProof ps start target = some (proof, ps2) → proof.found_target = true →
        ((proof.steps.length : Nat) : Int) ≤ ps.max_depth) ∧
      (∀ (ps : ProofSearch) (start target : Expr) (proof : Proof) (ps2 : ProofSearch),
        ps.max_depth < 0 → findProof ps start target = some (proof, ps2) →
        proof.found_target = false) ∧
      findProof (ProofSearch.new 1 10000) scenario5Start scenario5Target
        = some (scenario5Proof, ⟨scenario5Search.visited_expressions, 1, 10000⟩) ∧
      (∀ (ps : ProofSearch) (t : Expr) (s next : SearchState),
        (∀ n ∈ s.queue, (n.depth : Int) ≤ max ps.max_depth 0) →
        searchIteration ps t s = .again next →
        ∀ n ∈ next.queue, (n.depth : Int) ≤ max ps.max_depth 0) := by
  refine ⟨?_, ?_, ?_, searchIteration_depth⟩
  · intro ps start target proof ps2 h hfound
    exact (findProof_found ps start target proof ps2 h hfound).2.2.1
  · intro ps start target proof ps2 hneg h
    cases hf : proof.found_target with
    | false => rfl
    | true =>
      have := (findProof_found ps start target proof ps2 h hf).2.2.1
      omega
  · exact findProof_of_rounds (ProofSearch.new 1 10000) scenario5Start scenario5Target 2 _ _
      (by decide)

/-- C35 at the run of scenario 5 with the default limits: one step, at most 10. -/
theorem C35_depth_bound_witness :
    findProof defaultSearch scenario5Start scenario5Target
        = some (scenario5Proof, scenario5Search) ∧
      scenario5Proof.found_target = true ∧
      ((scenario5Proof.steps.length : Nat) : Int) ≤ defaultSearch.max_depth :=
  ⟨findProof_scenario5, rfl,
    C35_depth_bound.1 defaultSearch scenario5Start scenario5Target scenario5Proof
      scenario5Search findProof_scenario5 rfl⟩

/-- C36: `equals` is an equivalence relation on expressions. For all `a`, `b`, `c`:
`equals(a, a)` holds; `equals(a, b)` implies `equals(b, a)`; and `equals(a, b)` together
with `equals(b, c)` implies `equals(a, c)`. -/
theorem C36_equals_equivalence (a b c : Expr) :
    a.equals a = true ∧ (a.equals b = true → b.equals a = true) ∧
      (a.equals b = true → b.equals c = true → a.equals c = true) :=
  ⟨equals_refl a, equals_symm a b, equals_trans a b c⟩

/-- C36 at `a = p & q`, `b = q & p`, `c = p & q`. -/
theorem C36_equals_equivalence_witness :
    (Expr.binary .AND varP varQ).equals (.binary .AND varQ varP) = true ∧
      (Expr.binary .AND varQ varP).equals (.binary .AND varP varQ) = true :=
  ⟨by decide,
    (C36_equals_equivalence (.binary .AND varP varQ) (.binary .AND varQ varP)
      (.binary .AND varP varQ)).2.1 (by decide)⟩

/-- C26, at an input where the code departs from it: with `max_transformations = 0`
the loop of `generateEquivalentForms` is never entered, and on `!(p & q)` with
`max_steps = 3` the returned list is empty; so it is with the default limits and
`max_steps = -1`, where the source is dequeued and skipped. -/
theorem C26_source_first_refuted :
    (generateEquivalentForms (ProofSearch.new 10 0) scenario7Start 3).map Prod.fst
        = some [] ∧
      (generateEquivalentForms defaultSearch scenario7Start (-1)).map Prod.fst = some [] := by
  constructor
  · rw [generateEquivalentForms_of_rounds (ProofSearch.new 10 0) scenario7Start 3 1 []
      ["!(p & q)"] (by decide)]
    rfl
  · rw [generateEquivalentForms_of_rounds defaultSearch scenario7Start (-1) 2 []
      ["!(p & q)"] (by decide)]
    rfl

/-- C27: scenario 7. With the default limits, `generateEquivalentForms(!(p & q), 3)`
returns the four forms `!(p & q)`, `!p | !q`, `!(q & p)`, `!q | !p`, in this order; the
list contains the De Morgan form `!p | !q`. -/
theorem C27_scenario7 :
    ∃ ps2, generateEquivalentForms defaultSearch (.not (.binary .AND varP varQ)) 3
        = some (scenario7Forms, ps2) ∧
      Expr.binary .OR (.not varP) (.not varQ) ∈ scenario7Forms ∧
      scenario7Forms
        = [.not (.binary .AND varP varQ), .binary .OR (.not varP) (.not varQ),
           .not (.binary .AND varQ varP), .binary .OR (.not varQ) (.not varP)] :=
  ⟨_, generateEquivalentForms_scenario7, by decide, rfl⟩

/-- C28: run independence. The `Proof` returned by `findProof(start, target)` depends
only on `start`, `target`, `max_depth` and `max_transformations`: two search objects
with the same limits return the same proof whatever their visited sets hold; so a
second run on the object left by a first run returns the same proof, and so does a run
on the object left by a call of `generateEquivalentForms`. -/
theorem C28_run_independence (ps : ProofSearch) (start target : Expr) :
    (∀ ps1 : ProofSearch, ps1.max_depth = ps.max_depth →
        ps1.max_transformations = ps.max_transformations →
        (findProof ps1 start target).map Prod.fst = (findProof ps start target).map Prod.fst) ∧
      (∀ (proof : Proof) (ps2 : ProofSearch), findProof ps start target = some (proof, ps2) →
        findProof ps2 start target = some (proof, ps2)) ∧
      (∀ (s2 t2 : Expr) (proof : Proof) (ps2 : ProofSearch),
        findProof ps s2 t2 = some (proof, ps2) →
        (findProof ps2 start target).map Prod.fst = (findProof ps start target).map Prod.fst) ∧
      (∀ (e : Expr) (max_steps : Int) (forms : List Expr) (ps2 : ProofSearch),
        generateEquivalentForms ps e max_steps = some (forms, ps2) →
        (findProof ps2 start target).map Prod.fst
          = (findProof ps start target).map Prod.fst) := by
  refine ⟨?_, ?_, ?_, ?_⟩
  · intro ps1 hd hm
    rw [findProof_same_limits ps ps1 start target hd hm]
  · intro proof ps2 h
    obtain ⟨hd, hm⟩ := findProof_limits ps start target proof ps2 h
    rw [findProof_same_limits ps ps2 start target hd hm]
    exact h
  · intro s2 t2 proof ps2 h
    obtain ⟨hd, hm⟩ := findProof_limits ps s2 t2 proof ps2 h
    rw [findProof_same_limits ps ps2 start target hd hm]
  · intro e k forms ps2 h
    obtain ⟨hd, hm⟩ := generateEquivalentForms_limits ps e k forms ps2 h
    rw [findProof_same_limits ps ps2 start target hd hm]

/-- C28 at scenario 5: the search object that the first run leaves behind, with five
texts in its visited set, returns the same one-step proof on a second run. -/
theorem C28_run_independence_witness :
    findProof defaultSearch scenario5Start scenario5Target
        = some (scenario5Proof, scenario5Search) ∧
      findProof scenario5Search scenario5Start scenario5Target
        = some (scenario5Proof, scenario5Search) :=
  ⟨findProof_scenario5,
    (C28_run_independence defaultSearch scenario5Start scenario5Target).2.1 scenario5Proof
      scenario5Search findProof_scenario5⟩

/-- C39: termination. Every round of the loop of `findProof`, and of the loop of
`generateEquivalentForms`, that goes round again started with the exploration counter
below `max_transformations`, and either adds at least one to the counter or leaves it
unchanged and shortens the queue by one; both loops leave after finitely many rounds
with the result of the function; and `applyLawRecursively` calls itself only on the
immediate children of its argument. -/
theorem C39_termination (ps : ProofSearch) :
    (∀ (t : Expr) (s next : SearchState), searchIteration ps t s = .again next →
        (s.transformations_explored : Int) < ps.max_transformations ∧
          (s.transformations_explored + 1 ≤ next.transformations_explored ∨
            (next.transformations_explored = s.transformations_explored ∧
              next.queue.length + 1 = s.queue.length))) ∧
      (∀ (max_steps : Int) (s next : FormsState),
        formsIteration ps max_steps s = .again next →
        (s.transformations_explored : Int) < ps.max_transformations ∧
          (s.transformations_explored + 1 ≤ next.transformations_explored ∨
            (next.transformations_explored = s.transformations_explored ∧
              next.queue.length + 1 = s.queue.length))) ∧
      (∀ (t : Expr) (s : SearchState),
        ∃ fuel, searchRounds ps t fuel s = some (searchLoop ps t s)) ∧
      (∀ (max_steps : Int) (s : FormsState),
        ∃ fuel, formsRounds ps max_steps fuel s = some (formsLoop ps max_steps s)) ∧
      (∀ (law : LogicLaw) (x : Expr), applyLawRecursively (.not x) law
        = withDirectResult (.not x) law (wrapOperand (applyLawRecursively x law))) ∧
      (∀ (law : LogicLaw) (op : BinOp) (l r : Expr), applyLawRecursively (.binary op l r) law
        = withDirectResult (.binary op l r) law
            (wrapChildren op l r (applyLawRecursively l law) (applyLawRecursively r law))) ∧
      (∀ (law : LogicLaw) (name : String), applyLawRecursively (.var name) law
        = withDirectResult (.var name) law (some [])) ∧
      (∀ (law : LogicLaw) (value : Bool), applyLawRecursively (.const value) law
        = withDirectResult (.const value) law (some [])) :=
  ⟨searchIteration_progress ps, formsIteration_progress ps, searchRounds_complete ps,
    formsRounds_complete ps, fun _ _ => by rw [applyLawRecursively],
    fun _ _ _ _ => by rw [applyLawRecursively], fun _ _ => by rw [applyLawRecursively],
    fun _ _ => by rw [applyLawRecursively]⟩

/-- C39 at the first round of the search from `!!p` to `p` with the default limits: the
start is expanded into its one successor `p`, and the exploration counter grows from 0
to 1. -/
theorem C39_termination_witness :
    searchIteration defaultSearch varP ⟨[⟨.not (.not varP), 0, []⟩], 0, ["!!p"]⟩
        = .again ⟨[⟨varP, 1, [⟨varP, .DOUBLE_NEGATION, "Double Negation", 1⟩]⟩], 1,
            ["p", "!!p"]⟩ ∧
      ((0 : Nat) : Int) < defaultSearch.max_transformations ∧
      (0 + 1 ≤ 1 ∨ (1 = 0 ∧ 1 + 1 = 1)) :=
  ⟨by decide,
    (C39_termination defaultSearch).1 varP ⟨[⟨.not (.not varP), 0, []⟩], 0, ["!!p"]⟩
      ⟨[⟨varP, 1, [⟨varP, .DOUBLE_NEGATION, "Double Negation", 1⟩]⟩], 1, ["p", "!!p"]⟩
      (by decide)⟩

/-- C38: the child passes of `expandNode` are redundant. Whenever `expandNode` returns
on a node with expression `e`, its output is the list of successors built from
`generateAllTransformations(e)` followed by the nodes of the child passes (the rewrites
of the left child, then of the right child, wrapped into a binary root; the rewrites of
the operand wrapped into a `Not` root), and every node of the child passes is the
successor built from a transformation of `generateAllTransformations(e)` with the same
law, description and expression. Hence the successor expressions of `expandNode` are
exactly the results of `generateAllTransformations(e)`, and the enqueuing loop run on
the successors of `generateAllTransformations(e)` alone leaves the same queue and the
same visited set. -/
theorem C38_child_passes_redundant (node : ProofSearchNode) (nodes : List ProofSearchNode)
    (h : expandNode node = some nodes) :
    ∃ ts extra, generateAllTransformations node.expression = some ts ∧
      nodes = ts.map (fun t => successorNode node t.result t.law t.description) ++ extra ∧
      (∀ (op : BinOp) (l r : Expr), node.expression = .binary op l r →
        ∃ lts rts, generateAllTransformations l = some lts ∧
          generateAllTransformations r = some rts ∧
          extra = lts.map
              (fun t => successorNode node (.binary op t.result r) t.law t.description)
            ++ rts.map
              (fun t => successorNode node (.binary op l t.result) t.law t.description)) ∧
      (∀ x : Expr, node.expression = .not x →
        ∃ xts, generateAllTransformations x = some xts ∧
          extra = xts.map (fun t => successorNode node (.not t.result) t.law t.description)) ∧
      (∀ n ∈ extra, ∃ u ∈ ts, n = successorNode node u.result u.law u.description) ∧
      (∀ x : Expr, x ∈ nodes.map (fun n => n.expression) ↔ x ∈ ts.map (fun t => t.result)) ∧
      (∀ (queue : List ProofSearchNode) (visited : List String),
        enqueueUnvisited nodes queue visited
          = enqueueUnvisited (ts.map (fun t => successorNode node t.result t.law t.description))
              queue visited) := by
  obtain ⟨ts, extra, hts, hnodes, hextra, hbin, hnot⟩ := expandNode_whole node nodes h
  refine ⟨ts, extra, hts, hnodes, hbin, hnot, hextra, ?_, ?_⟩
  · intro x
    rw [hnodes]
    simp only [List.map_append, List.map_map, List.mem_append, List.mem_map,
      Function.comp, successorNode]
    constructor
    · rintro (⟨t, ht, rfl⟩ | ⟨n, hn, rfl⟩)
      · exact ⟨t, ht, rfl⟩
      · obtain ⟨u, hu, rfl⟩ := hextra n hn
        exact ⟨u, hu, rfl⟩
    · rintro ⟨t, ht, rfl⟩
      exact Or.inl ⟨t, ht, rfl⟩
  · intro queue visited
    rw [hnodes, enqueueUnvisited_append]
    apply enqueueUnvisited_all_visited
    intro n hn
    obtain ⟨u, hu, rfl⟩ := hextra n hn
    exact (enqueueUnvisited_visited_mono _ queue visited).2 _
      (List.mem_map.2 ⟨u, hu, rfl⟩)

/-- C38 at `(!!p & q)`: the node that the left child pass builds from the rewrite of
`!!p` to `p` is the first successor over again, and the enqueuing loop lets through the
two successors of the whole-expression pass only. -/
theorem C38_child_passes_redundant_witness :
    expandNode childPassNode
        = some [successorNode childPassNode (.binary .AND varP varQ) .DOUBLE_NEGATION
            "Double Negation",
          successorNode childPassNode (.binary .AND varQ (.not (.not varP))) .COMMUTATIVE_AND
            "Commutative Law (AND)",
          successorNode childPassNode (.binary .AND varP varQ) .DOUBLE_NEGATION
            "Double Negation"] ∧
      ∃ ts extra, generateAllTransformations childPassNode.expression = some ts ∧
        extra = [successorNode childPassNode (.binary .AND varP varQ) .DOUBLE_NEGATION
          "Double Negation"] ∧
        ∀ n ∈ extra, ∃ u ∈ ts, n = successorNode childPassNode u.result u.law u.description := by
  have h : expandNode childPassNode
        = some [successorNode childPassNode (.binary .AND varP varQ) .DOUBLE_NEGATION
            "Double Negation",
          successorNode childPassNode (.binary .AND varQ (.not (.not varP))) .COMMUTATIVE_AND
            "Commutative Law (AND)",
          successorNode childPassNode (.binary .AND varP varQ) .DOUBLE_NEGATION
            "Double Negation"] := by decide
  refine ⟨h, ?_⟩
  obtain ⟨ts, extra, hts, hnodes, _, _, hextra, _, _⟩ :=
    C38_child_passes_redundant childPassNode _ h
  have hts2 : generateAllTransformations childPassNode.expression
      = some [⟨.DOUBLE_NEGATION, "Double Negation", .binary .AND varP varQ⟩,
          ⟨.COMMUTATIVE_AND, "Commutative Law (AND)",
            .binary .AND varQ (.not (.not varP))⟩] := by decide
  rw [hts2] at hts
  cases hts
  refine ⟨_, extra, hts2, ?_, hextra⟩
  simpa using hnodes.symm

/-- C37: the key of the visited set is faithful. For all expressions `a` and `b` whose
variable names are identifiers (letters, digits, underscores, starting with a letter or
an underscore) other than `T` and `F`, equal texts mean identical trees; so a tree that
`isVisited` reports as visited is one of the trees whose texts are in the set. The
converse fails for `equals`: `p & q` equals `q & p` but their texts differ. -/
theorem C37_visited_key_faithful :
    (∀ a b : Expr, a.namesAll isProperName = true → b.namesAll isProperName = true →
        a.toString = b.toString → a = b) ∧
      (∀ (trees : List Expr) (e : Expr), (∀ x ∈ trees, x.namesAll isProperName = true) →
        e.namesAll isProperName = true →
        isVisited (trees.map expressionToString) e = true → e ∈ trees) ∧
      (Expr.binary .AND varP varQ).equals (.binary .AND varQ varP) = true ∧
      (Expr.binary .AND varP varQ).toString ≠ (Expr.binary .AND varQ varP).toString := by
  refine ⟨toString_injective, ?_, by decide, by decide⟩
  intro trees e htrees he hv
  simp only [isVisited, decide_eq_true_eq, List.mem_map] at hv
  obtain ⟨x, hx, hxe⟩ := hv
  have : x = e := toString_injective x e (htrees x hx) he hxe
  rw [← this]
  exact hx

/-- C37 at `a = b = (p1 & _q)`: the names are proper, the texts agree, the trees are the
same. -/
theorem C37_visited_key_faithful_witness :
    (Expr.binary .AND (.var "p1") (.var "_q")).namesAll isProperName = true ∧
      (Expr.binary .AND (.var "p1") (.var "_q")).toString = "(p1 & _q)" ∧
      Expr.binary .AND (.var "p1") (.var "_q") = Expr.binary .AND (.var "p1") (.var "_q") :=
  ⟨by decide, by decide,
    C37_visited_key_faithful.1 (.binary .AND (.var "p1") (.var "_q"))
      (.binary .AND (.var "p1") (.var "_q")) (by decide) (by decide) rfl⟩

/-- C30: precedence and associativity of the parser. For all variable names `a`, `b`,
`c` that the lexer accepts (identifiers that do not begin with `T` or `F`),
`ExpressionParser::parse` groups the binary operators by binding strength
`<->` < `->` < `|` < `&` < `!`, with `<->`, `|` and `&` associating to the left and `->`
to the right: `a <-> b <-> c` parses to `Iff(Iff(a, b), c)`; `a -> b -> c` to
`Implies(a, Implies(b, c))`; `a | b | c` to `Or(Or(a, b), c)`; `a & b & c` to
`And(And(a, b), c)`; `a | b & c` to `Or(a, And(b, c))`; `a -> b | c` to
`Implies(a, Or(b, c))`; `a <-> b -> c` to `Iff(a, Implies(b, c))`; `!a & b` to
`And(Not(a), b)`; `!!a` to `Not(Not(a))`; and `(a | b) & c` to `And(Or(a, b), c)`. In each
case the parser stops at `END_OF_INPUT`. -/
theorem C30_precedence_and_associativity (a b c : String) (ha : isLexerName a = true)
    (hb : isLexerName b = true) (hc : isLexerName c = true) :
    (ExpressionParser.parse (a ++ " <-> " ++ b ++ " <-> " ++ c)
        = .ok (.binary .BICONDITIONAL (.binary .BICONDITIONAL (.var a) (.var b)) (.var c))
              [⟨.END_OF_INPUT, ""⟩]) ∧
      (ExpressionParser.parse (a ++ " -> " ++ b ++ " -> " ++ c)
        = .ok (.binary .IMPLIES (.var a) (.binary .IMPLIES (.var b) (.var c)))
              [⟨.END_OF_INPUT, ""⟩]) ∧
      (ExpressionParser.parse (a ++ " | " ++ b ++ " | " ++ c)
        = .ok (.binary .OR (.binary .OR (.var a) (.var b)) (.var c))
              [⟨.END_OF_INPUT, ""⟩]) ∧
      (ExpressionParser.parse (a ++ " & " ++ b ++ " & " ++ c)
        = .ok (.binary .AND (.binary .AND (.var a) (.var b)) (.var c))
              [⟨.END_OF_INPUT, ""⟩]) ∧
      (ExpressionParser.parse (a ++ " | " ++ b ++ " & " ++ c)
        = .ok (.binary .OR (.var a) (.binary .AND (.var b) (.var c)))
              [⟨.END_OF_INPUT, ""⟩]) ∧
      (ExpressionParser.parse (a ++ " -> " ++ b ++ " | " ++ c)
        = .ok (.binary .IMPLIES (.var a) (.binary .OR (.var b) (.var c)))
              [⟨.END_OF_INPUT, ""⟩]) ∧
      (ExpressionParser.parse (a ++ " <-> " ++ b ++ " -> " ++ c)
        = .ok (.binary .BICONDITIONAL (.var a) (.binary .IMPLIES (.var b) (.var c)))
              [⟨.END_OF_INPUT, ""⟩]) ∧
      (ExpressionParser.parse ("!" ++ a ++ " & " ++ b)
        = .ok (.binary .AND (.not (.var a)) (.var b))
              [⟨.END_OF_INPUT, ""⟩]) ∧
      (ExpressionParser.parse ("!!" ++ a)
        = .ok (.not (.not (.var a)))
              [⟨.END_OF_INPUT, ""⟩]) ∧
      (ExpressionParser.parse ("(" ++ a ++ " | " ++ b ++ ")" ++ " & " ++ c)
        = .ok (.binary .AND (.binary .OR (.var a) (.var b)) (.var c))
              [⟨.END_OF_INPUT, ""⟩]) :=
  ⟨parse_example1 a b c ha hb hc, parse_example2 a b c ha hb hc,
    parse_example3 a b c ha hb hc, parse_example4 a b c ha hb hc,
    parse_example5 a b c ha hb hc, parse_example6 a b c ha hb hc,
    parse_example7 a b c ha hb hc, parse_example8 a b ha hb, parse_example9 a ha,
    parse_example10 a b c ha hb hc⟩

/-- C30 at the names `x`, `y1` and `_z`: `x <-> y1 <-> _z` parses to
`Iff(Iff(x, y1), _z)`. -/
theorem C30_precedence_and_associativity_witness :
    isLexerName "x" = true ∧ isLexerName "y1" = true ∧ isLexerName "_z" = true ∧
      ExpressionParser.parse ("x" ++ " <-> " ++ "y1" ++ " <-> " ++ "_z")
        = .ok (.binary .BICONDITIONAL (.binary .BICONDITIONAL (.var "x") (.var "y1"))
            (.var "_z")) [⟨.END_OF_INPUT, ""⟩] :=
  ⟨by decide, by decide, by decide,
    (C30_precedence_and_associativity "x" "y1" "_z" (by decide) (by decide) (by decide)).1⟩

/-- C31, at an input where the code departs from it: `Tx` is a non-empty string of
letters that starts with a letter and is neither `T` nor `F`, but the lexer reads it as
the constant `T` followed by the variable `x`, and `ExpressionParser::parse` throws
"Unexpected token after expression". -/
theorem C31_identifier_refuted :
    isIdentifier "Tx" = true ∧ "Tx" ≠ "T" ∧ "Tx" ≠ "F" ∧
      tokenize "Tx"
        = [⟨.CONSTANT_TRUE, "T"⟩, ⟨.VARIABLE, "x"⟩, ⟨.END_OF_INPUT, ""⟩] ∧
      ExpressionParser.parse "Tx" = .error "Unexpected token after expression" := by
  decide

/-- C31 as amended: for every name that is a non-empty string of ASCII letters, digits
and underscores, starts with a letter or an underscore and does not begin with the
letter `T` or `F`, `ExpressionParser::parse(name)` succeeds and returns `Var(name)`;
`parse("T")` returns `Const(true)` and `parse("F")` returns `Const(false)`. -/
theorem C31_identifier_acceptance (name : String) (h : isLexerName name = true) :
    ExpressionParser.parse name = .ok (.var name) [⟨.END_OF_INPUT, ""⟩] ∧
      ExpressionParser.parse "T" = .ok (.const true) [⟨.END_OF_INPUT, ""⟩] ∧
      ExpressionParser.parse "F" = .ok (.const false) [⟨.END_OF_INPUT, ""⟩] :=
  ⟨parse_toString (.var name) h, by decide, by decide⟩

/-- C31 as amended, at the name `p_1`. -/
theorem C31_identifier_acceptance_witness :
    isLexerName "p_1" = true ∧
      ExpressionParser.parse "p_1" = .ok (.var "p_1") [⟨.END_OF_INPUT, ""⟩] :=
  ⟨by decide, (C31_identifier_acceptance "p_1" (by decide)).1⟩

/-- C40: print/parse round trip. For every expression `e` whose variable names are
non-empty strings of ASCII letters, digits and underscores that start with a letter or
an underscore and do not begin with the letter `T` or `F`,
`ExpressionParser::parse(toString(e))` succeeds and returns `e` itself, having read the
whole text. -/
theorem C40_print_parse_round_trip (e : Expr) (h : e.namesAll isLexerName = true) :
    ExpressionParser.parse e.toString = .ok e [⟨.END_OF_INPUT, ""⟩] :=
  parse_toString e h

/-- C40 at `!!(p & q) -> r`, printed as `(!!(p & q) -> r)`. -/
theorem C40_print_parse_round_trip_witness :
    scenario5Start.namesAll isLexerName = true ∧
      scenario5Start.toString = "(!!(p & q) -> r)" ∧
      ExpressionParser.parse scenario5Start.toString
        = .ok scenario5Start [⟨.END_OF_INPUT, ""⟩] :=
  ⟨by decide, by decide, C40_print_parse_round_trip scenario5Start (by decide)⟩

/-- C6, at an input where the code departs from it: `limitStart`, 84 negations in front
of `(p -> q)` wrapped in 18 levels `(… & T)`, `(… | F)`, has a text of 200 characters and
does not equal `limitTarget`, which `IMPLICATION_ELIMINATION` at the innermost position
makes of it and which is therefore a successor of the start; yet `findProof` with the
default limits returns `found_target = false` with no steps: the successors queued in
front of the target are expanded first, and the exploration counter reaches
`max_transformations = 10000` before the target is dequeued. -/
theorem C6_limit_reached_first :
    limitStart.toString.length ≤ 200 ∧ areEquivalent limitStart limitTarget = false ∧
      (∃ nodes, expandNode ⟨limitStart, 0, []⟩ = some nodes ∧
        ∃ n ∈ nodes, areEquivalent n.expression limitTarget = true) ∧
      ∃ ps2, findProof defaultSearch limitStart limitTarget = some (⟨[], false, 0⟩, ps2) :=
  findProof_limitStart

/-- C26 as amended: for every expression `e`, every `max_steps` and every setting of the
limits, if `max_transformations ≥ 1` and `max_steps ≥ 0` then, whenever
`generateEquivalentForms` returns, the returned list is non-empty and its first entry is
`e`; and if `max_transformations ≤ 0` or `max_steps < 0` then `generateEquivalentForms`
returns the empty list, leaving only the text of `e` in the visited set. -/
theorem C26_source_first (ps : ProofSearch) (e : Expr) (max_steps : Int) :
    (1 ≤ ps.max_transformations → 0 ≤ max_steps →
        ∀ (forms : List Expr) (ps2 : ProofSearch),
          generateEquivalentForms ps e max_steps = some (forms, ps2) →
            forms ≠ [] ∧ forms.head? = some e) ∧
      ((ps.max_transformations ≤ 0 ∨ max_steps < 0) →
        generateEquivalentForms ps e max_steps
          = some ([], ⟨[e.toString], ps.max_depth, ps.max_transformations⟩)) := by
  refine ⟨?_, generateEquivalentForms_empty ps e max_steps⟩
  intro hm hk forms ps2 h
  have hh := generateEquivalentForms_head ps e max_steps (by omega) hk forms ps2 h
  refine ⟨?_, hh⟩
  intro hnil
  rw [hnil] at hh
  cases hh

/-- C26 as amended, at scenario 7: with the default limits,
`generateEquivalentForms(!(p & q), 3)` returns a list that begins with `!(p & q)`, and
with `max_steps = -1` it returns the empty list. -/
theorem C26_source_first_witness :
    (generateEquivalentForms defaultSearch scenario7Start 3
        = some (scenario7Forms,
            ⟨["(!q | !p)", "!(q & p)", "(!p | !q)", "!(p & q)"], 10, 10000⟩) ∧
      scenario7Forms ≠ [] ∧ scenario7Forms.head? = some scenario7Start) ∧
      generateEquivalentForms defaultSearch scenario7Start (-1)
        = some ([], ⟨["!(p & q)"], 10, 10000⟩) :=
  ⟨⟨generateEquivalentForms_scenario7,
      (C26_source_first defaultSearch scenario7Start 3).1 (by decide) (by decide)
        scenario7Forms _ generateEquivalentForms_scenario7⟩,
    (C26_source_first defaultSearch scenario7Start (-1)).2 (Or.inr (by decide))⟩

/-- C6 as amended: with the default limits, for every start whose text has at most 200
characters and every target that the start does not equal, if `expandNode(start)`
returns the successors `nodes`, then: (1) if the queue that the enqueuing loop makes of
them is `pre ++ first :: rest`, where no node of `pre` equals the target and `first`
does, and if, when `pre` is not empty, the number of successors of the start plus the
numbers of successors of the nodes of `pre` that are expanded is below
`max_transformations = 10000`, then `first` is a node of depth 1 whose one step replays
on the start; whenever `findProof` returns, it returns `found_target = true` with
exactly that step, numbered 1, carrying the expression and the law of `first`;
`findProof` has no result only when the expansion of a node of `pre` that is not pruned
has none; and it returns when the nodes of `pre` that are not pruned all expand; (2) if
that number is 10000 or more for nodes `pre` at the front of the queue none of which
equals the target, then `findProof` returns `found_target = false` with no steps
whenever it returns, and it returns when the nodes of `pre` that are not pruned all
expand; (3) when the names of the start are identifiers other than `T` and `F` and `n`
is the first successor in `expandNode` order that equals the target, the queue is
`pre ++ n :: rest` with `pre` the queued ones of the successors in front of `n`, none of
which equals the target; (4) the five runs of the tests are of the kind of (1): `!!p` to
`p` by `DOUBLE_NEGATION`, `!(p & q)` to `!p | !q` by `DE_MORGAN_AND`, `p -> q` to
`!p | q` by `IMPLICATION_ELIMINATION`, `p <-> q` to `(p -> q) & (q -> p)` by
`BICONDITIONAL_ELIMINATION`, and `!!(p & q)` to `p & q` in one step; and so is
`!!p & (q -> r)` to `!!p & (!q | r)`, where the target is queued third, by
`IMPLICATION_ELIMINATION`. -/
theorem C6_one_step_proofs (start target : Expr) (nodes : List ProofSearchNode)
    (hlen : start.toString.length ≤ 200) (hne : areEquivalent start target = false)
    (hexp : expandNode ⟨start, 0, []⟩ = some nodes) :
    (∀ (pre : List ProofSearchNode) (first : ProofSearchNode) (rest : List ProofSearchNode),
        (enqueueUnvisited nodes [] (markVisited [] start)).1 = pre ++ first :: rest →
        (∀ x ∈ pre, areEquivalent x.expression target = false) →
        areEquivalent first.expression target = true →
        (pre ≠ [] → nodes.length + exploredBy defaultSearch pre < 10000) →
        ∃ step : ProofStep, first = ⟨step.expression, 1, [step]⟩ ∧ Replays start step ∧
          (∀ (proof : Proof) (ps2 : ProofSearch),
            findProof defaultSearch start target = some (proof, ps2) →
              proof
                = ⟨[⟨step.expression, step.law_applied, step.description, 1⟩], true, 1⟩) ∧
          (findProof defaultSearch start target = none →
            ∃ x ∈ pre, shouldPrune defaultSearch x = false ∧ expandNode x = none) ∧
          ((∀ x ∈ pre, shouldPrune defaultSearch x = false → expandNode x ≠ none) →
            ∃ ps2, findProof defaultSearch start target
              = some (⟨[⟨step.expression, step.law_applied, step.description, 1⟩],
                  true, 1⟩, ps2))) ∧
      (∀ (pre rest : List ProofSearchNode),
        (enqueueUnvisited nodes [] (markVisited [] start)).1 = pre ++ rest →
        (∀ x ∈ pre, areEquivalent x.expression target = false) →
        10000 ≤ nodes.length + exploredBy defaultSearch pre →
        (∀ (proof : Proof) (ps2 : ProofSearch),
          findProof defaultSearch start target = some (proof, ps2) →
            proof = ⟨[], false, 0⟩) ∧
        ((∀ x ∈ pre, shouldPrune defaultSearch x = false → expandNode x ≠ none) →
          ∃ ps2, findProof defaultSearch start target = some (⟨[], false, 0⟩, ps2))) ∧
      (start.namesAll isProperName = true →
        ∀ (before after : List ProofSearchNode) (n : ProofSearchNode),
          nodes = before ++ n :: after →
          (∀ x ∈ before, areEquivalent x.expression target = false) →
          areEquivalent n.expression target = true →
          ∃ rest, (enqueueUnvisited nodes [] (markVisited [] start)).1
              = (enqueueUnvisited before [] (markVisited [] start)).1 ++ n :: rest ∧
            ∀ x ∈ (enqueueUnvisited before [] (markVisited [] start)).1,
              areEquivalent x.expression target = false) ∧
      (findProof defaultSearch (.not (.not varP)) varP).map Prod.fst
        = some ⟨[⟨varP, .DOUBLE_NEGATION, "Double Negation", 1⟩], true, 1⟩ ∧
      (findProof defaultSearch (.not (.binary .AND varP varQ))
          (.binary .OR (.not varP) (.not varQ))).map Prod.fst
        = some ⟨[⟨.binary .OR (.not varP) (.not varQ), .DE_MORGAN_AND,
            "De Morgan's Law (AND)", 1⟩], true, 1⟩ ∧
      (findProof defaultSearch (.binary .IMPLIES varP varQ)
          (.binary .OR (.not varP) varQ)).map Prod.fst
        = some ⟨[⟨.binary .OR (.not varP) varQ, .IMPLICATION_ELIMINATION,
            "Implication Elimination", 1⟩], true, 1⟩ ∧
      (findProof defaultSearch (.binary .BICONDITIONAL varP varQ)
          (.binary .AND (.binary .IMPLIES varP varQ) (.binary .IMPLIES varQ varP))).map
            Prod.fst
        = some ⟨[⟨.binary .AND (.binary .IMPLIES varP varQ) (.binary .IMPLIES varQ varP),
            .BICONDITIONAL_ELIMINATION, "Biconditional Elimination", 1⟩], true, 1⟩ ∧
      (findProof defaultSearch (.not (.not (.binary .AND varP varQ)))
          (.binary .AND varP varQ)).map Prod.fst
        = some ⟨[⟨.binary .AND varP varQ, .DOUBLE_NEGATION, "Double Negation", 1⟩],
            true, 1⟩ ∧
      (findProof defaultSearch thirdStart thirdTarget).map Prod.fst
        = some ⟨[⟨thirdTarget, .IMPLICATION_ELIMINATION, "Implication Elimination", 1⟩],
            true, 1⟩ := by
  refine ⟨?_, ?_, ?_, ?_, ?_, ?_, ?_, ?_, ?_⟩
  · intro pre first rest hq hpre heq hlimit
    have hM : ((nodes.length + exploredBy defaultSearch pre : Nat) : Int)
        < defaultSearch.max_transformations := by
      have hb := expandNode_length_lt ⟨start, 0, []⟩ nodes hexp hlen
      show ((nodes.length + exploredBy defaultSearch pre : Nat) : Int) < 10000
      cases pre with
      | nil => simp only [exploredBy]; omega
      | cons x xs =>
        have := hlimit (by simp)
        omega
    obtain ⟨step, hfirst, hrep, hres⟩ := findProof_queued defaultSearch start target nodes
      pre first rest (by decide) hne hlen hexp hq hpre heq hM
    refine ⟨step, hfirst, hrep, ?_, ?_, ?_⟩
    · intro proof ps2 h
      rcases hres with ⟨hn, _⟩ | ⟨ps3, h3⟩
      · rw [hn] at h; cases h
      · rw [h3] at h
        simp only [Option.some.injEq, Prod.mk.injEq] at h
        exact h.1.symm
    · intro h
      rcases hres with ⟨_, hc⟩ | ⟨ps3, h3⟩
      · exact hc
      · rw [h3] at h; cases h
    · intro hno
      rcases hres with ⟨_, x, hx, hp, he⟩ | h3
      · exact absurd he (hno x hx hp)
      · exact h3
  · intro pre rest hq hpre hlimit
    have hM : ¬ (((nodes.length + exploredBy defaultSearch pre : Nat) : Int)
        < defaultSearch.max_transformations) := by
      show ¬ (((nodes.length + exploredBy defaultSearch pre : Nat) : Int) < 10000)
      omega
    have hres := findProof_queued_late defaultSearch start target nodes pre rest (by decide)
      (by decide) hne hlen hexp hq hpre hM
    refine ⟨?_, ?_⟩
    · intro proof ps2 h
      rcases hres with ⟨hn, _⟩ | ⟨ps3, h3⟩
      · rw [hn] at h; cases h
      · rw [h3] at h
        simp only [Option.some.injEq, Prod.mk.injEq] at h
        exact h.1.symm
    · intro hno
      rcases hres with ⟨_, x, hx, hp, he⟩ | h3
      · exact absurd he (hno x hx hp)
      · exact h3
  · intro hnames before after n hsplit hbefore heq
    exact enqueueUnvisited_first_target start target nodes before after n hnames hne hexp
      hsplit hbefore heq
  · exact findProof_steps_of_rounds defaultSearch _ _ 2 _ (by decide)
  · exact findProof_steps_of_rounds defaultSearch _ _ 2 _ (by decide)
  · exact findProof_steps_of_rounds defaultSearch _ _ 2 _ (by decide)
  · exact findProof_steps_of_rounds defaultSearch _ _ 2 _ (by decide)
  · exact findProof_steps_of_rounds defaultSearch _ _ 2 _ (by decide)
  · exact findProof_steps_of_rounds defaultSearch _ _ 4 _ (by decide)

/-- C6 as amended, at `start = !!p & (q -> r)`, `target = !!p & (!q | r)`: the expansion
of the start returns five successors, of which three are queued, and the one that equals
the target is queued third, behind `p & (q -> r)` and `(q -> r) & !!p`; these two expand
and the counter stays below the limit, and `findProof` returns the one-step proof by
`IMPLICATION_ELIMINATION`. -/
theorem C6_one_step_proofs_witness :
    thirdStart.toString.length ≤ 200 ∧ areEquivalent thirdStart thirdTarget = false ∧
      expandNode ⟨thirdStart, 0, []⟩ = some thirdNodes ∧
      (enqueueUnvisited thirdNodes [] (markVisited [] thirdStart)).1
        = thirdBefore ++ thirdNode :: [] ∧
      (∀ x ∈ thirdBefore, areEquivalent x.expression thirdTarget = false) ∧
      areEquivalent thirdNode.expression thirdTarget = true ∧
      thirdNodes.length + exploredBy defaultSearch thirdBefore < 10000 ∧
      (∀ x ∈ thirdBefore, shouldPrune defaultSearch x = false → expandNode x ≠ none) ∧
      ∃ (step : ProofStep) (ps2 : ProofSearch),
        thirdNode = ⟨step.expression, 1, [step]⟩ ∧ Replays thirdStart step ∧
        findProof defaultSearch thirdStart thirdTarget
          = some (⟨[⟨step.expression, step.law_applied, step.description, 1⟩], true, 1⟩,
              ps2) := by
  have hexpands : ∀ x ∈ thirdBefore, shouldPrune defaultSearch x = false →
      expandNode x ≠ none := by decide
  refine ⟨by decide, by decide, expandNode_thirdStart, by decide, by decide, by decide,
    by decide, hexpands, ?_⟩
  obtain ⟨step, hfirst, hrep, _, _, hreturns⟩ :=
    (C6_one_step_proofs thirdStart thirdTarget thirdNodes (by decide) (by decide)
      expandNode_thirdStart).1 thirdBefore thirdNode [] (by decide) (by decide) (by decide)
      (fun _ => by decide)
  obtain ⟨ps2, hfound⟩ := hreturns hexpands
  exact ⟨step, ps2, hfirst, hrep, hfound⟩

end Logixpr
